import Mathlib

/-!
Price-time priority order book: embedding of `Orderbook.cpp`.

The book state of `Orderbook.cpp` (`bids_`, `asks_`, `orders_`, `data_`) is embedded as a
record of association lists, and every member function becomes a function on that record.

* `bids_` / `asks_` are ordered maps `Price → std::list<OrderPointer>`; they are kept as
  association lists in iteration order (bids: highest price first, asks: lowest price first).
* `orders_` is the by-id index.  An `OrderPointer` is shared between the FIFO and the index, so a
  `Fill` through one is visible through the other; here both hold the order value and a fill
  rewrites the two copies together.  The stored list iterator designates the FIFO node holding
  the order, so erasing through it removes the FIFO entry carrying that order id.
* `data_` is the per-price aggregate map.
* `Quantity` is `std::uint32_t`: aggregate arithmetic is done modulo `2^32`.
* Code paths that throw (or dereference the front of an empty list) return `none`, and so does a
  call that never returns.
* The book mutex `ordersMutex_` is a held/free flag seen from the calling thread.  The public
  operations are taken one at a time, each entered with the mutex free, so their own lock
  statement succeeds; `MatchOrders` runs under the lock of `addOrder`, and the call of `cancelOrder`
  it makes finds the mutex held.  The last section gives `MatchOrders` and `addOrder` once more
  with the fault a failing call ends in (exception or lock attempt) made explicit.
-/

namespace Orderbook

/-! ## Types (`Usings.h`, `Order.h`) -/

abbrev Price := Int
abbrev Quantity := Nat
abbrev OrderId := Nat

/-- Modulus of `Quantity` (`std::uint32_t`). -/
def QMOD : Nat := 4294967296

/-- Modelled from the spec: `Side.h` is not among the sources; the spec gives Side as {Buy, Sell},
the two values `Orderbook.cpp` uses. -/
inductive Side where
  | Buy
  | Sell
  deriving DecidableEq, Repr

/-- Modelled from the spec: `OrderType.h` is not among the sources; the spec gives OrderType as
{Market, GoodTillCancel, FillAndKill, FillOrKill, GoodForDay}, the values `Orderbook.cpp` and
`Order.h` use. -/
inductive OrderType where
  | Market
  | GoodTillCancel
  | FillAndKill
  | FillOrKill
  | GoodForDay
  deriving DecidableEq, Repr

/-- The class `Order` of `Order.h`. -/
structure Order where
  orderId : OrderId
  side : Side
  orderType : OrderType
  price : Price
  initialQuantity : Quantity
  remainingQuantity : Quantity
  deriving DecidableEq, Repr

/-- The constructor of `Order`: the remaining quantity starts at the initial quantity. -/
def Order.new (orderType : OrderType) (orderId : OrderId) (side : Side) (price : Price)
    (quantity : Quantity) : Order :=
  { orderId := orderId, side := side, orderType := orderType, price := price,
    initialQuantity := quantity, remainingQuantity := quantity }

/-- `Order::isFilled`. -/
def Order.isFilled (o : Order) : Bool := o.remainingQuantity == 0

/-- `Order::Fill`: throws (`none`) when asked for more than the remaining quantity. -/
def Order.Fill (o : Order) (quantity : Quantity) : Option Order :=
  if quantity > o.remainingQuantity then none
  else some { o with remainingQuantity := o.remainingQuantity - quantity }

/-- `Order::toGoodTillCancel`: throws (`none`) on an order that is not a Market order. -/
def Order.toGoodTillCancel (o : Order) (price : Price) : Option Order :=
  if o.orderType ≠ OrderType.Market then none
  else some { o with price := price, orderType := OrderType.GoodTillCancel }

/-- Modelled from the spec: the declaration of `TradeInfo` is not among the sources; its three
fields are those `MatchOrders` fills in, in that order (`order_id`, `price`, `quantity` in the
spec). -/
structure TradeInfo where
  orderId : OrderId
  price : Price
  quantity : Quantity
  deriving DecidableEq, Repr

/-- Modelled from the spec: the declaration of `Trade` is not among the sources; `MatchOrders`
builds it from the `TradeInfo` of the bid followed by the `TradeInfo` of the ask. -/
structure Trade where
  bidTrade : TradeInfo
  askTrade : TradeInfo
  deriving DecidableEq, Repr

abbrev Trades := List Trade

/-- Modelled from the spec: `LevelData` is declared in `Orderbook.h`, which is not among the
sources; the spec gives the per-price aggregate as `{ resting_qty, order_count }`, and
`updateLevelData` uses the fields `quantity_` and `count_`.  The counter is taken to be of the
same unsigned 32-bit type as the quantity. -/
structure LevelData where
  quantity : Quantity
  count : Quantity
  deriving DecidableEq, Repr

/-- Modelled from the spec: `LevelData::Action` is declared in `Orderbook.h`, which is not among
the sources; its three values are the cases of the `switch` in `updateLevelData`. -/
inductive Action where
  | Add
  | Remove
  | Match
  deriving DecidableEq, Repr

/-- The `OrderModify` request of `OrderModify.h`. -/
structure OrderModify where
  orderId : OrderId
  price : Price
  side : Side
  quantity : Quantity
  deriving DecidableEq, Repr

/-- `OrderModify::toOrderPointer`. -/
def OrderModify.toOrderPointer (m : OrderModify) (type : OrderType) : Order :=
  Order.new type m.orderId m.side m.price m.quantity

/-! ## Association-list maps -/

/-- `m.find(k)`: the value stored under `k`, if any. -/
def lookupKey {κ α : Type} [DecidableEq κ] (k : κ) : List (κ × α) → Option α
  | [] => none
  | (k', v) :: rest => if k' = k then some v else lookupKey k rest

/-- `m.erase(k)`. -/
def eraseKey {κ α : Type} [DecidableEq κ] (k : κ) (m : List (κ × α)) : List (κ × α) :=
  m.filter (fun e => decide (e.1 ≠ k))

/-- Overwrite the value stored under `k` (a write through a reference into the map). -/
def replaceKey {κ α : Type} [DecidableEq κ] (k : κ) (v : α) (m : List (κ × α)) : List (κ × α) :=
  m.map (fun e => if e.1 = k then (e.1, v) else e)

/-- Store `v` under `k` in an unordered map: overwrite when present, else add. -/
def setKey {κ α : Type} [DecidableEq κ] (k : κ) (v : α) (m : List (κ × α)) : List (κ × α) :=
  match lookupKey k m with
  | some _ => replaceKey k v m
  | none => m ++ [(k, v)]

abbrev Levels := List (Price × List Order)

/-- The statement pair `auto& orders = side[price]; orders.push_back(order);` on an ordered map whose
iteration order is `before`: the FIFO under `price` is created in key order when absent. -/
def pushOrder (before : Price → Price → Bool) (price : Price) (order : Order) : Levels → Levels
  | [] => [(price, [order])]
  | (p, os) :: rest =>
    if p = price then (p, os ++ [order]) :: rest
    else if before price p then (price, [order]) :: (p, os) :: rest
    else (p, os) :: pushOrder before price order rest

/-- Modelled from the spec: the comparator of `bids_` is declared in `Orderbook.h`, which is not
among the sources; the spec has bids iterated highest price first. -/
def bidBefore (a b : Price) : Bool := decide (a > b)

/-- Modelled from the spec: the comparator of `asks_` is declared in `Orderbook.h`, which is not
among the sources; the spec has asks iterated lowest price first. -/
def askBefore (a b : Price) : Bool := decide (a < b)

/-- `orders.erase(iterator)` on a FIFO: removes the node that holds the order `orderId`. -/
def eraseFromFifo (orderId : OrderId) : List Order → List Order
  | [] => []
  | o :: rest => if o.orderId = orderId then rest else o :: eraseFromFifo orderId rest

/-! ## Book state -/

/-- Modelled from the spec: the data members are declared in `Orderbook.h`, which is not among the
sources; they are the four containers `Orderbook.cpp` works on, typed as the spec's Book State:
`bids_`, `asks_` (price to FIFO, in iteration order), `orders_` (id to order) and `data_` (price
to aggregate). -/
structure Book where
  bids : Levels
  asks : Levels
  orders : List (OrderId × Order)
  data : List (Price × LevelData)
  deriving DecidableEq, Repr

/-- The freshly constructed book. -/
def Book.empty : Book := { bids := [], asks := [], orders := [], data := [] }

/-- `Orderbook::updateLevelData`. -/
def updateLevelData (data : List (Price × LevelData)) (price : Price) (quantity : Quantity)
    (action : Action) : List (Price × LevelData) :=
  let levelData : LevelData := (lookupKey price data).getD { quantity := 0, count := 0 }
  let levelData' : LevelData :=
    match action with
    | Action.Add =>
      { quantity := (levelData.quantity + quantity) % QMOD, count := (levelData.count + 1) % QMOD }
    | Action.Remove =>
      { quantity := (levelData.quantity + (QMOD - quantity % QMOD)) % QMOD,
        count := (levelData.count + (QMOD - 1)) % QMOD }
    | Action.Match =>
      { quantity := (levelData.quantity + (QMOD - quantity % QMOD)) % QMOD,
        count := levelData.count }
  if levelData'.quantity = 0 then eraseKey price data else setKey price levelData' data

/-- `Orderbook::onOrderCancelled`. -/
def onOrderCancelled (data : List (Price × LevelData)) (order : Order) : List (Price × LevelData) :=
  updateLevelData data order.price order.remainingQuantity Action.Remove

/-- `Orderbook::onOrderAdded`. -/
def onOrderAdded (data : List (Price × LevelData)) (order : Order) : List (Price × LevelData) :=
  updateLevelData data order.price order.initialQuantity Action.Add

/-- `Orderbook::onOrderMatched`. -/
def onOrderMatched (data : List (Price × LevelData)) (price : Price) (quantity : Quantity)
    (isFullyFilled : Bool) : List (Price × LevelData) :=
  updateLevelData data price quantity (if isFullyFilled then Action.Remove else Action.Match)

/-- The block `auto& orders = side.at(price); orders.erase(iterator); if (orders.empty())
side.erase(price);` of `cancelOrderInternal`, on either side; `none` is the `std::out_of_range`
thrown by `at`. -/
def eraseFromLevels (levels : Levels) (order : Order) : Option Levels :=
  match lookupKey order.price levels with
  | none => none
  | some orders =>
    let fifo := eraseFromFifo order.orderId orders
    some (if fifo.isEmpty then eraseKey order.price levels
          else replaceKey order.price fifo levels)

/-- `Orderbook::cancelOrderInternal`. -/
def cancelOrderInternal (b : Book) (orderId : OrderId) : Option Book :=
  match lookupKey orderId b.orders with
  | none => some b
  | some order =>
    if order.side = Side.Sell then
      match eraseFromLevels b.asks order with
      | none => none
      | some asks' =>
        some { b with
          orders := eraseKey orderId b.orders
          asks := asks'
          data := onOrderCancelled b.data order }
    else
      match eraseFromLevels b.bids order with
      | none => none
      | some bids' =>
        some { b with
          orders := eraseKey orderId b.orders
          bids := bids'
          data := onOrderCancelled b.data order }

/-- `Orderbook::cancelOrder`, entered with the mutex free. -/
def cancelOrder (b : Book) (orderId : OrderId) : Option Book :=
  cancelOrderInternal b orderId

/-- `Orderbook::cancelOrders`: the ids are cancelled one by one in list order. -/
def cancelOrders (b : Book) : List OrderId → Option Book
  | [] => some b
  | orderId :: rest =>
    match cancelOrderInternal b orderId with
    | none => none
    | some b' => cancelOrders b' rest

/-! ## The book mutex -/

/-- Modelled from the spec: `ordersMutex_` is declared in `Orderbook.h`, which is not among the
sources; the spec has a single coarse book mutex that every public operation acquires.  Its state,
seen from the calling thread, is a flag. -/
inductive Mutex where
  | free
  | held
  deriving DecidableEq, Repr

/-- How a call can end without returning: a thrown exception, or an attempt to lock the book mutex
while the calling thread already holds it. -/
inductive Fault where
  | thrown
  | relock
  deriving DecidableEq, Repr

/-- The statement `std::scoped_lock ordersLock{ ordersMutex_ };` run with the mutex in state `m`. -/
def scopedLock (m : Mutex) : Except Fault Unit :=
  match m with
  | Mutex.free => Except.ok ()
  | Mutex.held => Except.error Fault.relock

/-- `Orderbook::cancelOrder` with its lock statement, called with the mutex in state `m`. -/
def cancelOrderLocked (m : Mutex) (b : Book) (orderId : OrderId) : Except Fault Book :=
  match scopedLock m with
  | Except.error e => Except.error e
  | Except.ok _ =>
    match cancelOrderInternal b orderId with
    | none => Except.error Fault.thrown
    | some b' => Except.ok b'

/-- `Orderbook::canMatch`. -/
def canMatch (b : Book) (side : Side) (price : Price) : Bool :=
  match side with
  | Side.Buy =>
    match b.asks with
    | [] => false
    | (bestAsk, _) :: _ => decide (price ≥ bestAsk)
  | Side.Sell =>
    match b.bids with
    | [] => false
    | (bestBid, _) :: _ => decide (price ≤ bestBid)

/-- The `for` loop of `Orderbook::canFullyFill` over the entries of `data_`. -/
def canFullyFillLoop (side : Side) (threshold price : Price) :
    List (Price × LevelData) → Quantity → Bool
  | [], _ => false
  | (levelPrice, levelData) :: rest, quantity =>
    if (side = Side.Buy ∧ threshold > levelPrice) ∨ (side = Side.Sell ∧ threshold < levelPrice) then
      canFullyFillLoop side threshold price rest quantity
    else if (side = Side.Buy ∧ levelPrice > price) ∨ (side = Side.Sell ∧ levelPrice < price) then
      canFullyFillLoop side threshold price rest quantity
    else if quantity ≤ levelData.quantity then true
    else canFullyFillLoop side threshold price rest (quantity - levelData.quantity)

/-- `Orderbook::canFullyFill`; the threshold is the best opposite price, which exists once
`canMatch` has succeeded. -/
def canFullyFill (b : Book) (side : Side) (price : Price) (quantity : Quantity) : Bool :=
  if !canMatch b side price then false
  else
    match side with
    | Side.Buy =>
      match b.asks with
      | [] => false
      | (askPrice, _) :: _ => canFullyFillLoop side askPrice price b.data quantity
    | Side.Sell =>
      match b.bids with
      | [] => false
      | (bidPrice, _) :: _ => canFullyFillLoop side bidPrice price b.data quantity

/-- The body of the inner loop of `MatchOrders`: the front bid and the front ask of the first
levels trade `min` of their remaining quantities, a filled order is popped from its FIFO and erased
from `orders_`, the trade is recorded and the two level aggregates are updated.  `none` is a
throwing `Fill` (or a missing front order, which the loop condition excludes). -/
def matchStep (b : Book) : Option (Book × Trade) :=
  match b.bids, b.asks with
  | (bidPrice, bid :: bidsTail) :: bidsRest, (askPrice, ask :: asksTail) :: asksRest =>
    let quantity := min bid.remainingQuantity ask.remainingQuantity
    match bid.Fill quantity, ask.Fill quantity with
    | some bid', some ask' =>
      let orders1 :=
        if bid'.isFilled then eraseKey bid'.orderId b.orders
        else replaceKey bid'.orderId bid' b.orders
      let orders2 :=
        if ask'.isFilled then eraseKey ask'.orderId orders1
        else replaceKey ask'.orderId ask' orders1
      let trade : Trade :=
        { bidTrade := { orderId := bid'.orderId, price := bid'.price, quantity := quantity }
          askTrade := { orderId := ask'.orderId, price := ask'.price, quantity := quantity } }
      let data1 := onOrderMatched b.data bid'.price quantity bid'.isFilled
      let data2 := onOrderMatched data1 ask'.price quantity ask'.isFilled
      some
        ({ bids := (bidPrice, if bid'.isFilled then bidsTail else bid' :: bidsTail) :: bidsRest
           asks := (askPrice, if ask'.isFilled then asksTail else ask' :: asksTail) :: asksRest
           orders := orders2
           data := data2 },
         trade)
    | _, _ => none
  | _, _ => none

/-- The inner `while (!bids.empty() && !asks.empty())` loop of `MatchOrders`, on the FIFOs of the
first bid level and the first ask level.  The first argument bounds the number of iterations;
`none` is a failing step or an exhausted bound. -/
def matchInner : Nat → Book → Trades → Option (Book × Trades)
  | 0, b, trades =>
    match b.bids, b.asks with
    | (_, _ :: _) :: _, (_, _ :: _) :: _ => none
    | _, _ => some (b, trades)
  | fuel + 1, b, trades =>
    match b.bids, b.asks with
    | (_, _ :: _) :: _, (_, _ :: _) :: _ =>
      match matchStep b with
      | none => none
      | some (b', trade) => matchInner fuel b' (trades ++ [trade])
    | _, _ => some (b, trades)

/-- The block `if (bids.empty()) { bids_.erase(bidPrice); data_.erase(bidPrice); }` that follows the
inner loop; `bidPrice` is the key of the level the pass worked on. -/
def eraseEmptiedBids (b : Book) (bidPrice : Price) : Book :=
  match lookupKey bidPrice b.bids with
  | some [] => { b with bids := eraseKey bidPrice b.bids, data := eraseKey bidPrice b.data }
  | _ => b

/-- The block `if (asks.empty()) { asks_.erase(askPrice); data_.erase(askPrice); }`. -/
def eraseEmptiedAsks (b : Book) (askPrice : Price) : Book :=
  match lookupKey askPrice b.asks with
  | some [] => { b with asks := eraseKey askPrice b.asks, data := eraseKey askPrice b.data }
  | _ => b

/-- The two blocks that close one pass of the outer loop of `MatchOrders`. -/
def eraseEmptied (b : Book) (bidPrice askPrice : Price) : Book :=
  eraseEmptiedAsks (eraseEmptiedBids b bidPrice) askPrice

/-- The outer `while (true)` loop of `MatchOrders`.  The first argument bounds the number of passes;
`none` is a failure of the inner loop or an exhausted bound. -/
def matchLoop : Nat → Book → Trades → Option (Book × Trades)
  | 0, b, trades =>
    match b.bids, b.asks with
    | [], _ => some (b, trades)
    | _ :: _, [] => some (b, trades)
    | (bidPrice, _) :: _, (askPrice, _) :: _ =>
      if bidPrice < askPrice then some (b, trades) else none
  | fuel + 1, b, trades =>
    match b.bids, b.asks with
    | [], _ => some (b, trades)
    | _ :: _, [] => some (b, trades)
    | (bidPrice, bids) :: _, (askPrice, asks) :: _ =>
      if bidPrice < askPrice then some (b, trades)
      else
        match matchInner (bids.length + asks.length) b trades with
        | none => none
        | some (b', trades') => matchLoop fuel (eraseEmptied b' bidPrice askPrice) trades'

/-- One of the two blocks after the outer loop of `MatchOrders`: when the side is not empty, the
front order of its first level is cancelled if it is FillAndKill.  The cancel is a call of
`cancelOrder`, which locks the book mutex, and `MatchOrders` runs inside `addOrder`, which holds
it: the call is made with the mutex held.  `none` is `front()` on an empty FIFO, or a call of
`cancelOrder` that does not return. -/
def cancelFrontFillAndKill (b : Book) (side : Levels) : Option Book :=
  match side with
  | [] => some b
  | (_, []) :: _ => none
  | (_, order :: _) :: _ =>
    if order.orderType = OrderType.FillAndKill then
      (cancelOrderLocked Mutex.held b order.orderId).toOption
    else some b

/-- `Orderbook::MatchOrders`, called by `addOrder` under its lock. -/
def MatchOrders (b : Book) : Option (Book × Trades) :=
  match matchLoop (b.bids.length + b.asks.length) b [] with
  | none => none
  | some (b1, trades) =>
    match cancelFrontFillAndKill b1 b1.bids with
    | none => none
    | some b2 =>
      match cancelFrontFillAndKill b2 b2.asks with
      | none => none
      | some b3 => some (b3, trades)

/-- The Market branch of `addOrder`: `some (some o)` is the promoted order, `some none` the
rejection, `none` a throwing `toGoodTillCancel`. -/
def promoteMarket (b : Book) (order : Order) : Option (Option Order) :=
  if order.side = Side.Buy ∧ b.asks ≠ [] then
    match b.asks.getLast? with
    | none => none
    | some (worstAsk, _) => (order.toGoodTillCancel worstAsk).map some
  else if order.side = Side.Sell ∧ b.bids ≠ [] then
    match b.bids.getLast? with
    | none => none
    | some (worstBid, _) => (order.toGoodTillCancel worstBid).map some
  else some none

/-- The insertion part of `addOrder`: the order is appended to the FIFO of its price on its side,
entered in `orders_`, and counted in `data_`. -/
def insertOrder (b : Book) (order : Order) : Book :=
  { bids := if order.side = Side.Buy then pushOrder bidBefore order.price order b.bids else b.bids
    asks := if order.side = Side.Buy then b.asks else pushOrder askBefore order.price order b.asks
    orders :=
      match lookupKey order.orderId b.orders with
      | some _ => b.orders
      | none => b.orders ++ [(order.orderId, order)]
    data := onOrderAdded b.data order }

/-- `Orderbook::addOrder`. -/
def addOrder (b : Book) (order : Order) : Option (Book × Trades) :=
  if (lookupKey order.orderId b.orders).isSome then some (b, [])
  else if order.orderType = OrderType.FillAndKill ∧ canMatch b order.side order.price = false then
    some (b, [])
  else if order.orderType = OrderType.FillOrKill ∧
      canFullyFill b order.side order.price order.initialQuantity = false then
    some (b, [])
  else if order.orderType = OrderType.Market then
    match promoteMarket b order with
    | none => none
    | some none => some (b, [])
    | some (some order') => MatchOrders (insertOrder b order')
  else MatchOrders (insertOrder b order)

/-- `Orderbook::ModifyOrder`. -/
def ModifyOrder (b : Book) (order : OrderModify) : Option (Book × Trades) :=
  match lookupKey order.orderId b.orders with
  | none => some (b, [])
  | some existingOrder =>
    match cancelOrder b order.orderId with
    | none => none
    | some b' => addOrder b' (order.toOrderPointer existingOrder.orderType)

/-- `Orderbook::Size`. -/
def Size (b : Book) : Nat := b.orders.length

/-! ## Depth view (`getOrderInfos`) -/

/-- Modelled from the spec: `LevelInfo.h` is not among the sources; the spec gives a depth entry as
the pair (price, aggregate_qty), which `getOrderInfos` builds as `LevelInfo{ price, quantity }`. -/
structure LevelInfo where
  price : Price
  quantity : Quantity
  deriving DecidableEq, Repr

abbrev LevelInfos := List LevelInfo

/-- The class `OrderbookLevelInfos` of `OrderbookLevelInfos.h`. -/
structure OrderbookLevelInfos where
  bids : LevelInfos
  asks : LevelInfos
  deriving DecidableEq, Repr

/-- The lambda `CreateLevelInfos` of `getOrderInfos`: `std::accumulate` over the FIFO with a running
sum of type `Quantity`, so every addition is modulo `2^32`. -/
def createLevelInfos (price : Price) (orders : List Order) : LevelInfo :=
  { price := price
    quantity :=
      orders.foldl (fun runningSum order => (runningSum + order.remainingQuantity) % QMOD) 0 }

/-- `Orderbook::getOrderInfos`. -/
def getOrderInfos (b : Book) : OrderbookLevelInfos :=
  { bids := b.bids.map (fun l => createLevelInfos l.1 l.2)
    asks := b.asks.map (fun l => createLevelInfos l.1 l.2) }

/-! ## Good-for-day pruning (`pruneGoodForDayOrders`) -/

/-- The collection loop of `pruneGoodForDayOrders`: the ids of the orders of `orders_` whose type is
GoodForDay, in the iteration order of `orders_`. -/
def goodForDayIds (b : Book) : List OrderId :=
  (b.orders.filter (fun e => decide (e.2.orderType = OrderType.GoodForDay))).map
    (fun e => e.2.orderId)

/-- One cycle of `pruneGoodForDayOrders` after the timed wait has elapsed: collect the ids, then
`cancelOrders(orderIds)`.  The call returns nothing, so no trade can come out of it. -/
def pruneGoodForDayOrders (b : Book) : Option Book :=
  cancelOrders b (goodForDayIds b)

/-! ## `MatchOrders` and `addOrder` with the fault they end in -/

/-- One of the two blocks after the outer loop of `MatchOrders`, with the call of `cancelOrder` as
written, the mutex being in state `m`. -/
def cancelFrontFillAndKillLocked (m : Mutex) (b : Book) (side : Levels) : Except Fault Book :=
  match side with
  | [] => Except.ok b
  | (_, []) :: _ => Except.error Fault.thrown
  | (_, order :: _) :: _ =>
    if order.orderType = OrderType.FillAndKill then cancelOrderLocked m b order.orderId
    else Except.ok b

/-- `Orderbook::MatchOrders` run with the mutex in state `m`. -/
def MatchOrdersLocked (m : Mutex) (b : Book) : Except Fault (Book × Trades) :=
  match matchLoop (b.bids.length + b.asks.length) b [] with
  | none => Except.error Fault.thrown
  | some (b1, trades) =>
    match cancelFrontFillAndKillLocked m b1 b1.bids with
    | Except.error e => Except.error e
    | Except.ok b2 =>
      match cancelFrontFillAndKillLocked m b2 b2.asks with
      | Except.error e => Except.error e
      | Except.ok b3 => Except.ok (b3, trades)

/-- `Orderbook::addOrder` with its lock statement, called with the mutex in state `m`: once the
lock is taken the rest of the body runs with the mutex held. -/
def addOrderLocked (m : Mutex) (b : Book) (order : Order) : Except Fault (Book × Trades) :=
  match scopedLock m with
  | Except.error e => Except.error e
  | Except.ok _ =>
    if (lookupKey order.orderId b.orders).isSome then Except.ok (b, [])
    else if order.orderType = OrderType.FillAndKill ∧
        canMatch b order.side order.price = false then
      Except.ok (b, [])
    else if order.orderType = OrderType.FillOrKill ∧
        canFullyFill b order.side order.price order.initialQuantity = false then
      Except.ok (b, [])
    else if order.orderType = OrderType.Market then
      match promoteMarket b order with
      | none => Except.error Fault.thrown
      | some none => Except.ok (b, [])
      | some (some order') => MatchOrdersLocked Mutex.held (insertOrder b order')
    else MatchOrdersLocked Mutex.held (insertOrder b order)

/-- `Orderbook::cancelOrders` with its lock statement, called with the mutex in state `m`. -/
def cancelOrdersLocked (m : Mutex) (b : Book) (orderIds : List OrderId) : Except Fault Book :=
  match scopedLock m with
  | Except.error e => Except.error e
  | Except.ok _ =>
    match cancelOrders b orderIds with
    | none => Except.error Fault.thrown
    | some b' => Except.ok b'

/-- `Orderbook::ModifyOrder` with its lock statements, called with the mutex in state `m`: the
lookup block takes the lock and releases it, then `cancelOrder` and `addOrder` each take it. -/
def ModifyOrderLocked (m : Mutex) (b : Book) (order : OrderModify) :
    Except Fault (Book × Trades) :=
  match scopedLock m with
  | Except.error e => Except.error e
  | Except.ok _ =>
    match lookupKey order.orderId b.orders with
    | none => Except.ok (b, [])
    | some existingOrder =>
      match cancelOrderLocked m b order.orderId with
      | Except.error e => Except.error e
      | Except.ok b' => addOrderLocked m b' (order.toOrderPointer existingOrder.orderType)

/-! ## Invariants -/

/-- The orders held in the FIFOs of one side, in iteration (priority) order. -/
def fifoOrders (ls : Levels) : List Order := ls.flatMap (fun l => l.2)

/-- All resting orders: bids first, then asks. -/
def allOrders (b : Book) : List Order := fifoOrders b.bids ++ fifoOrders b.asks

/-- One side is well formed: keys strictly ordered by `before`, and every order sits on its own
side under its own price. -/
structure SideOK (side : Side) (before : Price → Price → Prop) (ls : Levels) : Prop where
  sorted : ls.Pairwise (fun x y => before x.1 y.1)
  level : ∀ l ∈ ls, ∀ o ∈ l.2, o.side = side ∧ o.price = l.1

/-- No price key holds an empty FIFO. -/
def NonemptyLevels (ls : Levels) : Prop := ∀ l ∈ ls, l.2 ≠ []

/-- The index and the FIFO contents `all` describe the same set of orders, one per id. -/
structure IndexOK (orders : List (OrderId × Order)) (all : List Order) : Prop where
  keysNodup : (orders.map Prod.fst).Nodup
  idsNodup : (all.map Order.orderId).Nodup
  sound : ∀ e ∈ orders, e.1 = e.2.orderId ∧ e.2 ∈ all
  complete : ∀ o ∈ all, (o.orderId, o) ∈ orders

/-- Structural well-formedness that holds also in the middle of `MatchOrders`. -/
structure WFcore (b : Book) : Prop where
  bidsOK : SideOK Side.Buy (fun a c => c < a) b.bids
  asksOK : SideOK Side.Sell (fun a c => a < c) b.asks
  indexOK : IndexOK b.orders (allOrders b)

/-- Well-formedness between passes of the matching loop. -/
structure WFm (b : Book) : Prop where
  core : WFcore b
  bidsNonempty : NonemptyLevels b.bids
  asksNonempty : NonemptyLevels b.asks

/-- Every bid price is below every ask price. -/
def Uncrossed (b : Book) : Prop := ∀ x ∈ b.bids, ∀ y ∈ b.asks, x.1 < y.1

/-- Well-formedness of a book at rest. -/
structure WF (b : Book) : Prop where
  wfm : WFm b
  uncrossed : Uncrossed b

/-- The front order of the first level of a side, if there is one, is not FillAndKill. -/
def FrontNotFaK (side : Levels) : Prop :=
  ∀ p o os rest, side = (p, o :: os) :: rest → o.orderType ≠ OrderType.FillAndKill

/-- The order after `Fill quantity`. -/
def afterFill (o : Order) (quantity : Quantity) : Order :=
  { o with remainingQuantity := o.remainingQuantity - quantity }

/-- The index after the front order became `o'`: erased when filled, rewritten otherwise. -/
def stepIndex (orders : List (OrderId × Order)) (o' : Order) : List (OrderId × Order) :=
  if o'.isFilled then eraseKey o'.orderId orders else replaceKey o'.orderId o' orders

/-- The FIFO after its front order became `o'`: popped when filled, rewritten otherwise. -/
def stepFifo (o' : Order) (tail : List Order) : List Order :=
  if o'.isFilled then tail else o' :: tail

/-- The FIFO of the first level of a side (empty when the side is empty). -/
def headFifo : Levels → List Order
  | [] => []
  | (_, f) :: _ => f

/-- The trade recorded by one matching step between `bid` and `ask`. -/
def stepTrade (bid ask : Order) : Trade :=
  { bidTrade := { orderId := bid.orderId, price := bid.price,
                  quantity := min bid.remainingQuantity ask.remainingQuantity }
    askTrade := { orderId := ask.orderId, price := ask.price,
                  quantity := min bid.remainingQuantity ask.remainingQuantity } }

/-- The book after one matching step between the front orders `bid` and `ask`. -/
def stepBook (b : Book) (bp : Price) (bid : Order) (bt : List Order) (brest : Levels)
    (ap : Price) (ask : Order) (at_ : List Order) (arest : Levels) : Book :=
  let q := min bid.remainingQuantity ask.remainingQuantity
  { bids := (bp, stepFifo (afterFill bid q) bt) :: brest
    asks := (ap, stepFifo (afterFill ask q) at_) :: arest
    orders := stepIndex (stepIndex b.orders (afterFill bid q)) (afterFill ask q)
    data := onOrderMatched (onOrderMatched b.data bid.price q (afterFill bid q).isFilled)
              ask.price q (afterFill ask q).isFilled }

/-- Well-formedness inside one pass of the matching loop: only the two front FIFOs may be empty. -/
structure WFi (b : Book) : Prop where
  core : WFcore b
  bidsTail : NonemptyLevels b.bids.tail
  asksTail : NonemptyLevels b.asks.tail

/-- The exit condition of the outer loop: a side is empty or the best prices do not cross. -/
def Settled (b : Book) : Prop :=
  b.bids = [] ∨ b.asks = [] ∨
    ∃ bp bf brest ap af arest, b.bids = (bp, bf) :: brest ∧ b.asks = (ap, af) :: arest ∧ bp < ap

/-- The values a caller can pass for an order: the ranges of `OrderId`, `Price`, `Quantity`. -/
def validInput (orderId : OrderId) (price : Price) (quantity : Quantity) : Prop :=
  orderId < 18446744073709551616 ∧ -2147483648 ≤ price ∧ price < 2147483648 ∧ quantity < QMOD

/-- The states reachable from the empty book by `addOrder` (on a freshly constructed order),
`cancelOrder`, `cancelOrders` and `ModifyOrder`, each call returning normally. -/
inductive Reachable : Book → Prop where
  | empty : Reachable Book.empty
  | add {b b' : Book} {ts : Trades} (type : OrderType) (orderId : OrderId) (side : Side)
      (price : Price) (quantity : Quantity) :
      Reachable b → validInput orderId price quantity →
      addOrder b (Order.new type orderId side price quantity) = some (b', ts) → Reachable b'
  | cancel {b b' : Book} (orderId : OrderId) :
      Reachable b → cancelOrder b orderId = some b' → Reachable b'
  | cancelMany {b b' : Book} (orderIds : List OrderId) :
      Reachable b → cancelOrders b orderIds = some b' → Reachable b'
  | modify {b b' : Book} {ts : Trades} (m : OrderModify) :
      Reachable b → validInput m.orderId m.price m.quantity →
      ModifyOrder b m = some (b', ts) → Reachable b'

instance (orderId : OrderId) (price : Price) (quantity : Quantity) :
    Decidable (validInput orderId price quantity) := by
  unfold validInput; infer_instance

/-- A book with one bid and one ask that do not cross. -/
def restingBook : Book :=
  { bids := [(99, [Order.new OrderType.GoodTillCancel 1 Side.Buy 99 10])]
    asks := [(101, [Order.new OrderType.GoodTillCancel 2 Side.Sell 101 5])]
    orders := [(1, Order.new OrderType.GoodTillCancel 1 Side.Buy 99 10),
               (2, Order.new OrderType.GoodTillCancel 2 Side.Sell 101 5)]
    data := [(99, { quantity := 10, count := 1 }), (101, { quantity := 5, count := 1 })] }

/-- The book after the first of the two adds that build `restingBook`. -/
def restingBook0 : Book :=
  { bids := [(99, [Order.new OrderType.GoodTillCancel 1 Side.Buy 99 10])]
    asks := []
    orders := [(1, Order.new OrderType.GoodTillCancel 1 Side.Buy 99 10)]
    data := [(99, { quantity := 10, count := 1 })] }

/-! ## Taker-side views -/

/-- The side of the book an order of side `s` rests on. -/
def ownSide (s : Side) (b : Book) : Levels :=
  match s with
  | Side.Buy => b.bids
  | Side.Sell => b.asks

/-- The side of the book an order of side `s` trades against. -/
def oppSide (s : Side) (b : Book) : Levels :=
  match s with
  | Side.Buy => b.asks
  | Side.Sell => b.bids

/-- The order `id` is the front order of the first level of side `s` and is FillAndKill. -/
def FrontIs (s : Side) (id : OrderId) (b : Book) : Prop :=
  ∃ p t tt rest, ownSide s b = (p, t :: tt) :: rest ∧ t.orderId = id ∧
    t.orderType = OrderType.FillAndKill

/-- The order `id` is out of the index, or it is the FillAndKill front order of side `s`. -/
def FrontOrGone (s : Side) (id : OrderId) (b : Book) : Prop :=
  lookupKey id b.orders = none ∨ FrontIs s id b

/-! ## Sweep of a taker through the opposite side -/

/-- The trade recorded when the taker `t` of side `s` trades `q` with the maker `m`. -/
def takerTrade (s : Side) (t m : Order) (q : Quantity) : Trade :=
  match s with
  | Side.Buy =>
    { bidTrade := { orderId := t.orderId, price := t.price, quantity := q }
      askTrade := { orderId := m.orderId, price := m.price, quantity := q } }
  | Side.Sell =>
    { bidTrade := { orderId := m.orderId, price := m.price, quantity := q }
      askTrade := { orderId := t.orderId, price := t.price, quantity := q } }

/-- The half of a trade that names the incoming order of side `s`. -/
def takerInfo (s : Side) (t : Trade) : TradeInfo :=
  match s with
  | Side.Buy => t.bidTrade
  | Side.Sell => t.askTrade

/-- Total remaining quantity of a list of orders. -/
def restingQty (os : List Order) : Nat := (os.map Order.remainingQuantity).sum

/-- The price `own` on side `s` does not cross the price `opp` of the opposite side. -/
def apart (s : Side) (own opp : Price) : Prop :=
  match s with
  | Side.Buy => own < opp
  | Side.Sell => opp < own

/-- For an incoming order of side `s`, the resting price `p` has priority over, or ties with, `q`
(lower ask first for a buy, higher bid first for a sell). -/
def notWorse (s : Side) (p q : Price) : Prop :=
  match s with
  | Side.Buy => p ≤ q
  | Side.Sell => q ≤ p

/-- The trade that fills the maker `m` in full against the taker `t0`. -/
def fullTrade (s : Side) (t0 m : Order) : Trade := takerTrade s t0 m m.remainingQuantity

/-- Sweep state, taker alive: the taker `t0` has filled the first `k` makers of `M0` in full and is
alone in the first level of its side, above the levels `O`. -/
def SweepAlive (s : Side) (t0 : Order) (O : Levels) (M0 : List Order) (b : Book) (ts : Trades) :
    Prop :=
  ∃ k, restingQty (M0.take k) ≤ t0.remainingQuantity ∧
    ownSide s b = (t0.price, [afterFill t0 (restingQty (M0.take k))]) :: O ∧
    fifoOrders (oppSide s b) = M0.drop k ∧
    ts = (M0.take k).map (fullTrade s t0)

/-- Sweep state, taker filled: after the first `k` makers were filled in full, the rest of the
taker went to the maker `m = M0[k]`. -/
def SweepDone (s : Side) (t0 : Order) (O : Levels) (M0 : List Order) (b : Book) (ts : Trades) :
    Prop :=
  ∃ k m, M0.drop k = m :: M0.drop (k + 1) ∧
    restingQty (M0.take k) ≤ t0.remainingQuantity ∧
    t0.remainingQuantity - restingQty (M0.take k) ≤ m.remainingQuantity ∧
    (ownSide s b = (t0.price, []) :: O ∨ ownSide s b = O) ∧
    fifoOrders (oppSide s b) =
      stepFifo (afterFill m (t0.remainingQuantity - restingQty (M0.take k))) (M0.drop (k + 1)) ∧
    ts = (M0.take k).map (fullTrade s t0) ++
      [takerTrade s t0 m (t0.remainingQuantity - restingQty (M0.take k))]

/-- The sweep invariant of the matching loop for a taker `t0` of side `s` inserted above `O`. -/
def Sweep (s : Side) (t0 : Order) (O : Levels) (M0 : List Order) (b : Book) (ts : Trades) : Prop :=
  (∀ x ∈ O, ∀ y ∈ oppSide s b, apart s x.1 y.1) ∧
    (SweepAlive s t0 O M0 b ts ∨ SweepDone s t0 O M0 b ts)

/-! ## Conservation: operations, ledger -/

/-- The orders `o` and `o'` are the same order up to its remaining quantity. -/
def SameOrder (o o' : Order) : Prop :=
  o'.orderId = o.orderId ∧ o'.side = o.side ∧ o'.orderType = o.orderType ∧ o'.price = o.price ∧
    o'.initialQuantity = o.initialQuantity

/-- Total quantity of the trades of `ts` that name the order id `id` (on either side). -/
def tradedQty (id : OrderId) (ts : Trades) : Nat :=
  (ts.map (fun t =>
    (if t.bidTrade.orderId = id then t.bidTrade.quantity else 0) +
    (if t.askTrade.orderId = id then t.askTrade.quantity else 0))).sum

/-- Conservation between the order list `all0` at the start of a matching run and the current
order list `all`, with `T id` the quantity traded so far under `id`: every starting order is
still present, lowered by exactly what was traded under its id, or it is gone and what was traded
under its id is all it had. -/
def ConsL (all0 all : List Order) (T : OrderId → Nat) : Prop :=
  ∀ x ∈ all0,
    (∃ x' ∈ all, SameOrder x x' ∧ x'.remainingQuantity + T x.orderId = x.remainingQuantity) ∨
    (x.orderId ∉ all.map Order.orderId ∧ T x.orderId = x.remainingQuantity)

/-- Every current order stems from a starting order. -/
def DescL (all0 all : List Order) : Prop :=
  ∀ x' ∈ all, ∃ x ∈ all0, SameOrder x x'

/-- No resting order is FillAndKill. -/
def NoFaK (b : Book) : Prop := ∀ o ∈ allOrders b, o.orderType ≠ OrderType.FillAndKill

/-- The public mutating operations of the book. -/
inductive Op where
  | add (type : OrderType) (orderId : OrderId) (side : Side) (price : Price) (quantity : Quantity)
  | cancel (orderId : OrderId)
  | cancelMany (orderIds : List OrderId)
  | modify (m : OrderModify)

/-- One call of a public operation. -/
def applyOp (b : Book) : Op → Option (Book × Trades)
  | Op.add type orderId side price quantity =>
    addOrder b (Order.new type orderId side price quantity)
  | Op.cancel orderId => (cancelOrder b orderId).map (fun b' => (b', []))
  | Op.cancelMany orderIds => (cancelOrders b orderIds).map (fun b' => (b', []))
  | Op.modify m => ModifyOrder b m

/-- The ids an operation is asked to take out of the book. -/
def opTargets : Op → List OrderId
  | Op.add _ _ _ _ _ => []
  | Op.cancel orderId => [orderId]
  | Op.cancelMany orderIds => orderIds
  | Op.modify m => [m.orderId]

/-- The order an operation submits to the book, as (id, type, quantity): the order of an add whose
id is not in the index, or the replacement order of a modify whose id is in the index. -/
def incoming (b : Book) : Op → Option (OrderId × OrderType × Quantity)
  | Op.add type orderId _ _ quantity =>
    match lookupKey orderId b.orders with
    | some _ => none
    | none => some (orderId, type, quantity)
  | Op.modify m =>
    match lookupKey m.orderId b.orders with
    | some existing => some (m.orderId, existing.orderType, m.quantity)
    | none => none
  | _ => none

/-- The ledger after an operation that returned the trades `ts`: the count of the submitted id
restarts at 0, and every id gains the quantity of the trades that name it. -/
def ledgerAfter (b : Book) (L : OrderId → Nat) (op : Op) (ts : Trades) : OrderId → Nat :=
  fun i =>
    (match incoming b op with
     | some (id, _, _) => if i = id then 0 else L i
     | none => L i) + tradedQty i ts

/-- A run of operations with its ledger: per id, the quantity traded since the id was last
submitted. -/
def runLedger : Book → (OrderId → Nat) → List Op → Option (Book × (OrderId → Nat))
  | b, L, [] => some (b, L)
  | b, L, op :: ops =>
    match applyOp b op with
    | none => none
    | some (b', ts) => runLedger b' (ledgerAfter b L op ts) ops

/-! ## Concrete books used by the scenario theorems -/

/-- The bid of scenario S1: Buy GoodTillCancel id 1 at 100 for 10. -/
def s1Bid : Order := Order.new OrderType.GoodTillCancel 1 Side.Buy 100 10

/-- The book after the first add of S1. -/
def bookS1a : Book :=
  { bids := [(100, [s1Bid])], asks := [], orders := [(1, s1Bid)]
    data := [(100, { quantity := 10, count := 1 })] }

/-- The book after the two adds of S1 (Sell GoodTillCancel id 2 at 100 for 6 has traded 6 with
id 1): id 1 rests with 4 at price 100, and `data_` holds no entry for 100. -/
def bookS1 : Book :=
  { bids := [(100, [{ s1Bid with remainingQuantity := 4 }])], asks := []
    orders := [(1, { s1Bid with remainingQuantity := 4 })], data := [] }

/-- The book after S1 followed by `cancelOrder 1`: nothing rests, and `data_` holds an entry for
100 with quantity `2^32 - 4`. -/
def bookS1Cancelled : Book :=
  { bids := [], asks := [], orders := []
    data := [(100, { quantity := 4294967292, count := 4294967295 })] }

/-- The ask Sell GoodTillCancel id 3 at 100 for 1. -/
def phantomAsk : Order := Order.new OrderType.GoodTillCancel 3 Side.Sell 100 1

/-- The book after adding `phantomAsk` to `bookS1Cancelled`. -/
def bookPhantom : Book :=
  { bids := [], asks := [(100, [phantomAsk])], orders := [(3, phantomAsk)]
    data := [(100, { quantity := 4294967293, count := 0 })] }

/-- The FillOrKill order Buy id 4 at 100 for 5. -/
def fokBid : Order := Order.new OrderType.FillOrKill 4 Side.Buy 100 5

/-- The book after adding `fokBid` to `bookPhantom`: the FillOrKill order rests with 4. -/
def bookFokRests : Book :=
  { bids := [(100, [{ fokBid with remainingQuantity := 4 }])], asks := []
    orders := [(4, { fokBid with remainingQuantity := 4 })], data := [] }

/-- The asks of scenario S7, first add: Sell GoodTillCancel id 1 at 100 for 3. -/
def s7Ask1 : Order := Order.new OrderType.GoodTillCancel 1 Side.Sell 100 3

/-- The asks of scenario S7, second add: Sell GoodTillCancel id 2 at 105 for 10. -/
def s7Ask2 : Order := Order.new OrderType.GoodTillCancel 2 Side.Sell 105 10

/-- The book after the first ask of S7. -/
def bookS7a : Book :=
  { bids := [], asks := [(100, [s7Ask1])], orders := [(1, s7Ask1)]
    data := [(100, { quantity := 3, count := 1 })] }

/-- The starting book of S7: asks 100:3 and 105:10. -/
def bookS7 : Book :=
  { bids := [], asks := [(100, [s7Ask1]), (105, [s7Ask2])]
    orders := [(1, s7Ask1), (2, s7Ask2)]
    data := [(100, { quantity := 3, count := 1 }), (105, { quantity := 10, count := 1 })] }

/-- The book after the Market buy of S7: id 31 is gone, id 2 rests with 9. -/
def bookS7After : Book :=
  { bids := [], asks := [(105, [{ s7Ask2 with remainingQuantity := 9 }])]
    orders := [(2, { s7Ask2 with remainingQuantity := 9 })], data := [] }

/-- The two bids of scenario S2: Buy GoodTillCancel id 1 and id 2 at 100 for 5 each. -/
def s2Bid1 : Order := Order.new OrderType.GoodTillCancel 1 Side.Buy 100 5

/-- The second bid of scenario S2. -/
def s2Bid2 : Order := Order.new OrderType.GoodTillCancel 2 Side.Buy 100 5

/-- The book after the first bid of S2. -/
def bookS2a : Book :=
  { bids := [(100, [s2Bid1])], asks := [], orders := [(1, s2Bid1)]
    data := [(100, { quantity := 5, count := 1 })] }

/-- The book after the two bids of S2. -/
def bookS2 : Book :=
  { bids := [(100, [s2Bid1, s2Bid2])], asks := [], orders := [(1, s2Bid1), (2, s2Bid2)]
    data := [(100, { quantity := 10, count := 2 })] }

/-- The two adds of scenario S1 as operations. -/
def s1Ops : List Op :=
  [Op.add OrderType.GoodTillCancel 1 Side.Buy 100 10,
   Op.add OrderType.GoodTillCancel 2 Side.Sell 100 6]

/-- The trade of scenario S1. -/
def s1Trades : Trades :=
  [{ bidTrade := { orderId := 1, price := 100, quantity := 6 }
     askTrade := { orderId := 2, price := 100, quantity := 6 } }]

/-- The ledger after the two adds of S1. -/
def s1Ledger : OrderId → Nat :=
  ledgerAfter bookS1a
    (ledgerAfter Book.empty (fun _ => 0) (Op.add OrderType.GoodTillCancel 1 Side.Buy 100 10) [])
    (Op.add OrderType.GoodTillCancel 2 Side.Sell 100 6) s1Trades

/-! ## Runs of operations -/

/-- A sequence of public operations run from the book `b`; `none` as soon as one call fails. -/
def runOps : Book → List Op → Option Book
  | b, [] => some b
  | b, op :: ops =>
    match applyOp b op with
    | none => none
    | some (b', _) => runOps b' ops

/-- One call of a public operation, entered with the mutex free, with the fault a failing call
ends in. -/
def applyOpLocked (b : Book) : Op → Except Fault (Book × Trades)
  | Op.add type orderId side price quantity =>
    addOrderLocked Mutex.free b (Order.new type orderId side price quantity)
  | Op.cancel orderId =>
    match cancelOrderLocked Mutex.free b orderId with
    | Except.error e => Except.error e
    | Except.ok b' => Except.ok (b', [])
  | Op.cancelMany orderIds =>
    match cancelOrdersLocked Mutex.free b orderIds with
    | Except.error e => Except.error e
    | Except.ok b' => Except.ok (b', [])
  | Op.modify m => ModifyOrderLocked Mutex.free b m

/-- A sequence of public operations run from the book `b`, ending at the first call that does not
return, with its fault. -/
def runOpsLocked : Book → List Op → Except Fault Book
  | b, [] => Except.ok b
  | b, op :: ops =>
    match applyOpLocked b op with
    | Except.error e => Except.error e
    | Except.ok (b', _) => runOpsLocked b' ops

/-- The operation is the add of a FillAndKill order. -/
def submitsFillAndKill : Op → Prop
  | Op.add type _ _ _ _ => type = OrderType.FillAndKill
  | _ => False

/-- The quantity an operation submits is positive (cancels submit nothing). -/
def positiveQty : Op → Prop
  | Op.add _ _ _ _ quantity => 0 < quantity
  | Op.modify m => 0 < m.quantity
  | _ => True

/-- The book after `addOrder` of Buy GoodTillCancel id 1 at 100 for 0 on the empty book. -/
def bookZero : Book :=
  { bids := [(100, [Order.new OrderType.GoodTillCancel 1 Side.Buy 100 0])], asks := []
    orders := [(1, Order.new OrderType.GoodTillCancel 1 Side.Buy 100 0)], data := [] }

/-- A bid of `2^31` at price 100. -/
def bigBid (orderId : OrderId) : Order :=
  Order.new OrderType.GoodTillCancel orderId Side.Buy 100 2147483648

/-- The book after adding `bigBid 1` to the empty book. -/
def bookBig1 : Book :=
  { bids := [(100, [bigBid 1])], asks := [], orders := [(1, bigBid 1)]
    data := [(100, { quantity := 2147483648, count := 1 })] }

/-- The book after adding `bigBid 1` and `bigBid 2`: the level at 100 holds `2^32` in total. -/
def bookBig : Book :=
  { bids := [(100, [bigBid 1, bigBid 2])], asks := [], orders := [(1, bigBid 1), (2, bigBid 2)]
    data := [] }

/-- The book after `ModifyOrder` of id 1 in `bookS2` with unchanged price, side and quantity: id 1
now stands behind id 2. -/
def bookS2Modified : Book :=
  { bids := [(100, [s2Bid2, s2Bid1])], asks := [], orders := [(2, s2Bid2), (1, s2Bid1)]
    data := [(100, { quantity := 10, count := 2 })] }

/-- The GoodForDay order of scenario S8: Buy GoodForDay id 40 at 99 for 7. -/
def gfdBid : Order := Order.new OrderType.GoodForDay 40 Side.Buy 99 7

/-- The book `restingBook` after the add of `gfdBid`. -/
def bookGfd : Book :=
  { bids := [(99, [Order.new OrderType.GoodTillCancel 1 Side.Buy 99 10, gfdBid])]
    asks := [(101, [Order.new OrderType.GoodTillCancel 2 Side.Sell 101 5])]
    orders := [(1, Order.new OrderType.GoodTillCancel 1 Side.Buy 99 10),
               (2, Order.new OrderType.GoodTillCancel 2 Side.Sell 101 5), (40, gfdBid)]
    data := [(99, { quantity := 17, count := 2 }), (101, { quantity := 5, count := 1 })] }

/-- The order `o` is the last order of the FIFO of its price on the side `s` of `b`. -/
def LastInLevel (s : Side) (o : Order) (b : Book) : Prop :=
  ∃ fifo, lookupKey o.price (ownSide s b) = some fifo ∧ fifo.getLast? = some o

/-- The modify request used as example: id 1 of `bookS2` with unchanged price, side, quantity. -/
def s2Modify : OrderModify := { orderId := 1, price := 100, side := Side.Buy, quantity := 5 }

/-- A Market order promoted to GoodTillCancel at the price `worst`, after `filled` of its quantity
has traded. -/
def promotedOrder (orderId : OrderId) (side : Side) (worst : Price) (quantity filled : Quantity) :
    Order :=
  { orderId := orderId, side := side, orderType := OrderType.GoodTillCancel, price := worst,
    initialQuantity := quantity, remainingQuantity := quantity - filled }

section Assoc
variable {κ α : Type} [DecidableEq κ]

theorem lookupKey_eq_none {k : κ} {m : List (κ × α)} :
    lookupKey k m = none ↔ ∀ e ∈ m, e.1 ≠ k := by
  induction m with
  | nil => simp [lookupKey]
  | cons e m ih =>
    obtain ⟨k', v⟩ := e
    by_cases h : k' = k <;> simp [lookupKey, h, ih]

theorem lookupKey_split {k : κ} {v : α} {m : List (κ × α)} (h : lookupKey k m = some v) :
    ∃ l1 l2, m = l1 ++ (k, v) :: l2 ∧ ∀ e ∈ l1, e.1 ≠ k := by
  induction m with
  | nil => simp [lookupKey] at h
  | cons e m ih =>
    obtain ⟨k', v'⟩ := e
    by_cases hk : k' = k
    · simp [lookupKey, hk] at h
      subst hk; subst h
      exact ⟨[], m, rfl, by simp⟩
    · simp [lookupKey, hk] at h
      obtain ⟨l1, l2, rfl, h1⟩ := ih h
      refine ⟨(k', v') :: l1, l2, rfl, ?_⟩
      intro e he
      rcases List.mem_cons.1 he with rfl | he
      · exact hk
      · exact h1 e he

theorem lookupKey_append_of_not_mem {k : κ} {l1 l2 : List (κ × α)} (h : ∀ e ∈ l1, e.1 ≠ k) :
    lookupKey k (l1 ++ l2) = lookupKey k l2 := by
  induction l1 with
  | nil => rfl
  | cons e l1 ih =>
    obtain ⟨k', v'⟩ := e
    have hk : k' ≠ k := h (k', v') (by simp)
    simp only [List.cons_append, lookupKey, hk, if_false]
    exact ih (fun e he => h e (List.mem_cons_of_mem _ he))

theorem lookupKey_mid {k : κ} {v : α} {l1 l2 : List (κ × α)} (h : ∀ e ∈ l1, e.1 ≠ k) :
    lookupKey k (l1 ++ (k, v) :: l2) = some v := by
  rw [lookupKey_append_of_not_mem h]; simp [lookupKey]

theorem eraseKey_mid {k : κ} {v : α} {l1 l2 : List (κ × α)} (h1 : ∀ e ∈ l1, e.1 ≠ k)
    (h2 : ∀ e ∈ l2, e.1 ≠ k) : eraseKey k (l1 ++ (k, v) :: l2) = l1 ++ l2 := by
  unfold eraseKey
  rw [List.filter_append, List.filter_cons]
  simp only [ne_eq, not_true_eq_false, decide_False, Bool.false_eq_true, if_false]
  rw [List.filter_eq_self.2, List.filter_eq_self.2]
  · intro e he; simpa using h2 e he
  · intro e he; simpa using h1 e he

theorem eraseKey_of_not_mem {k : κ} {m : List (κ × α)} (h : ∀ e ∈ m, e.1 ≠ k) :
    eraseKey k m = m := by
  unfold eraseKey
  rw [List.filter_eq_self]
  intro e he; simpa using h e he

theorem replaceKey_of_not_mem {k : κ} {v : α} {m : List (κ × α)} (h : ∀ e ∈ m, e.1 ≠ k) :
    replaceKey k v m = m := by
  unfold replaceKey
  conv_rhs => rw [← List.map_id m]
  apply List.map_congr_left
  intro e he
  simp [h e he]

theorem replaceKey_mid {k : κ} {v v' : α} {l1 l2 : List (κ × α)} (h1 : ∀ e ∈ l1, e.1 ≠ k)
    (h2 : ∀ e ∈ l2, e.1 ≠ k) :
    replaceKey k v' (l1 ++ (k, v) :: l2) = l1 ++ (k, v') :: l2 := by
  have e1 := replaceKey_of_not_mem (v := v') h1
  have e2 := replaceKey_of_not_mem (v := v') h2
  unfold replaceKey at *
  rw [List.map_append, List.map_cons, e1, e2]
  simp

theorem mem_eraseKey {k : κ} {m : List (κ × α)} {e : κ × α} :
    e ∈ eraseKey k m ↔ e ∈ m ∧ e.1 ≠ k := by
  simp [eraseKey]

theorem map_fst_replaceKey {k : κ} {v : α} {m : List (κ × α)} :
    (replaceKey k v m).map Prod.fst = m.map Prod.fst := by
  unfold replaceKey
  rw [List.map_map]
  apply List.map_congr_left
  intro e _
  by_cases h : e.1 = k <;> simp [h]

theorem eraseKey_sublist {k : κ} {m : List (κ × α)} : (eraseKey k m).Sublist m :=
  List.filter_sublist _

theorem mem_of_lookupKey {k : κ} {v : α} {m : List (κ × α)} (h : lookupKey k m = some v) :
    (k, v) ∈ m := by
  obtain ⟨l1, l2, rfl, _⟩ := lookupKey_split h
  simp

theorem lookupKey_of_mem {k : κ} {v : α} {m : List (κ × α)} (hn : (m.map Prod.fst).Nodup)
    (h : (k, v) ∈ m) : lookupKey k m = some v := by
  obtain ⟨l1, l2, rfl⟩ := List.append_of_mem h
  apply lookupKey_mid
  intro e he heq
  rw [List.map_append, List.map_cons, List.nodup_append] at hn
  have := hn.2.2
  exact List.disjoint_left.1 this (List.mem_map_of_mem Prod.fst he) (by simp [heq])

end Assoc

/-! ## FIFO contents -/

@[simp] theorem fifoOrders_nil : fifoOrders [] = [] := rfl

@[simp] theorem fifoOrders_cons (l : Price × List Order) (ls : Levels) :
    fifoOrders (l :: ls) = l.2 ++ fifoOrders ls := by
  simp [fifoOrders]

@[simp] theorem fifoOrders_append (l1 l2 : Levels) :
    fifoOrders (l1 ++ l2) = fifoOrders l1 ++ fifoOrders l2 := by
  simp [fifoOrders]

theorem mem_fifoOrders {o : Order} {ls : Levels} :
    o ∈ fifoOrders ls ↔ ∃ l ∈ ls, o ∈ l.2 := by
  simp [fifoOrders]

theorem eraseFromFifo_split {o : Order} {fifo : List Order}
    (hn : (fifo.map Order.orderId).Nodup) (ho : o ∈ fifo) :
    ∃ f1 f2, fifo = f1 ++ o :: f2 ∧ eraseFromFifo o.orderId fifo = f1 ++ f2 := by
  induction fifo with
  | nil => simp at ho
  | cons x xs ih =>
    rw [List.map_cons, List.nodup_cons] at hn
    rcases List.mem_cons.1 ho with rfl | hx
    · exact ⟨[], xs, rfl, by simp [eraseFromFifo]⟩
    · have hne : x.orderId ≠ o.orderId := by
        intro heq
        exact hn.1 (heq ▸ List.mem_map_of_mem Order.orderId hx)
      obtain ⟨f1, f2, rfl, h2⟩ := ih hn.2 hx
      exact ⟨x :: f1, f2, rfl, by simp [eraseFromFifo, hne, h2]⟩

/-! ## Index lemmas -/

theorem IndexOK.perm {orders : List (OrderId × Order)} {all all' : List Order}
    (h : IndexOK orders all) (hp : all.Perm all') : IndexOK orders all' where
  keysNodup := h.keysNodup
  idsNodup := (hp.map Order.orderId).nodup_iff.1 h.idsNodup
  sound := fun e he => ⟨(h.sound e he).1, hp.mem_iff.1 (h.sound e he).2⟩
  complete := fun o ho => h.complete o (hp.mem_iff.2 ho)

theorem IndexOK.id_ne {orders : List (OrderId × Order)} {A B : List Order} {o x : Order}
    (h : IndexOK orders (A ++ o :: B)) (hx : x ∈ A ++ B) : x.orderId ≠ o.orderId := by
  have hn := h.idsNodup
  rw [List.map_append, List.map_cons] at hn
  have hn' := List.nodup_middle.1 hn
  rw [List.nodup_cons] at hn'
  intro heq
  apply hn'.1
  rw [← heq, ← List.map_append]
  exact List.mem_map_of_mem Order.orderId hx

theorem IndexOK.erase {orders : List (OrderId × Order)} {A B : List Order} {o : Order}
    (h : IndexOK orders (A ++ o :: B)) : IndexOK (eraseKey o.orderId orders) (A ++ B) where
  keysNodup := h.keysNodup.sublist (List.Sublist.map _ eraseKey_sublist)
  idsNodup := by
    have hn := h.idsNodup
    rw [List.map_append, List.map_cons] at hn
    have hn' := List.nodup_middle.1 hn
    rw [List.nodup_cons] at hn'
    rw [List.map_append]
    exact hn'.2
  sound := by
    intro e he
    obtain ⟨he1, he2⟩ := mem_eraseKey.1 he
    obtain ⟨hk, hm⟩ := h.sound e he1
    refine ⟨hk, ?_⟩
    have hne : e.2 ≠ o := by
      intro heq; apply he2; rw [hk, heq]
    simp only [List.mem_append, List.mem_cons] at hm ⊢
    tauto
  complete := by
    intro x hx
    apply mem_eraseKey.2
    refine ⟨h.complete x ?_, h.id_ne hx⟩
    simp only [List.mem_append, List.mem_cons] at hx ⊢
    tauto

theorem IndexOK.replace {orders : List (OrderId × Order)} {A B : List Order} {o o' : Order}
    (h : IndexOK orders (A ++ o :: B)) (hid : o'.orderId = o.orderId) :
    IndexOK (replaceKey o.orderId o' orders) (A ++ o' :: B) where
  keysNodup := by rw [map_fst_replaceKey]; exact h.keysNodup
  idsNodup := by
    have hn := h.idsNodup
    rw [List.map_append, List.map_cons] at hn ⊢
    rw [hid]; exact hn
  sound := by
    intro e he
    unfold replaceKey at he
    obtain ⟨e0, he0, rfl⟩ := List.mem_map.1 he
    obtain ⟨hk, hm⟩ := h.sound e0 he0
    by_cases hc : e0.1 = o.orderId
    · simp [hc, hid]
    · simp only [hc, if_false]
      refine ⟨hk, ?_⟩
      have hne : e0.2 ≠ o := by
        intro heq; apply hc; rw [hk, heq]
      simp only [List.mem_append, List.mem_cons] at hm ⊢
      tauto
  complete := by
    intro x hx
    unfold replaceKey
    apply List.mem_map.2
    simp only [List.mem_append, List.mem_cons] at hx
    by_cases hxo : x = o'
    · subst hxo
      refine ⟨(o.orderId, o), h.complete o (by simp), ?_⟩
      simp [hid]
    · have hx' : x ∈ A ++ B := by
        simp only [List.mem_append]; tauto
      have hne := h.id_ne hx'
      refine ⟨(x.orderId, x), h.complete x ?_, by simp [hne]⟩
      simp only [List.mem_append, List.mem_cons] at hx' ⊢
      tauto

theorem IndexOK.not_mem_of_lookup_none {orders : List (OrderId × Order)} {all : List Order}
    (h : IndexOK orders all) {id : OrderId} (hl : lookupKey id orders = none) :
    id ∉ all.map Order.orderId := by
  intro hm
  obtain ⟨x, hx, rfl⟩ := List.mem_map.1 hm
  exact lookupKey_eq_none.1 hl _ (h.complete x hx) rfl

theorem IndexOK.insert {orders : List (OrderId × Order)} {all : List Order} {o : Order}
    (h : IndexOK orders all) (hl : lookupKey o.orderId orders = none) :
    IndexOK (orders ++ [(o.orderId, o)]) (o :: all) where
  keysNodup := by
    rw [List.map_append, List.nodup_append]
    refine ⟨h.keysNodup, by simp, ?_⟩
    rw [List.disjoint_left]
    intro k hk hk'
    simp only [List.map_cons, List.map_nil, List.mem_singleton] at hk'
    subst hk'
    obtain ⟨e, he, hek⟩ := List.mem_map.1 hk
    exact lookupKey_eq_none.1 hl e he hek
  idsNodup := by
    rw [List.map_cons, List.nodup_cons]
    exact ⟨h.not_mem_of_lookup_none hl, h.idsNodup⟩
  sound := by
    intro e he
    rcases List.mem_append.1 he with he | he
    · exact ⟨(h.sound e he).1, List.mem_cons_of_mem _ (h.sound e he).2⟩
    · simp only [List.mem_singleton] at he
      subst he
      simp
  complete := by
    intro x hx
    rcases List.mem_cons.1 hx with rfl | hx
    · simp
    · exact List.mem_append_left _ (h.complete x hx)

theorem IndexOK.lookup {orders : List (OrderId × Order)} {all : List Order}
    (h : IndexOK orders all) {id : OrderId} {o : Order} (hl : lookupKey id orders = some o) :
    o.orderId = id ∧ o ∈ all := by
  have := h.sound _ (mem_of_lookupKey hl)
  exact ⟨this.1.symm, this.2⟩

theorem IndexOK.lookup_of_mem {orders : List (OrderId × Order)} {all : List Order}
    (h : IndexOK orders all) {o : Order} (ho : o ∈ all) :
    lookupKey o.orderId orders = some o :=
  lookupKey_of_mem h.keysNodup (h.complete o ho)

/-! ## Level lemmas -/

theorem pushOrder_keys {f : Price → Price → Bool} {price : Price} {o : Order} {ls : Levels} :
    ∀ l ∈ pushOrder f price o ls, l.1 = price ∨ ∃ l0 ∈ ls, l0.1 = l.1 := by
  induction ls with
  | nil => intro l hl; simp [pushOrder] at hl; left; rw [hl]
  | cons x xs ih =>
    obtain ⟨p, os⟩ := x
    intro l hl
    unfold pushOrder at hl
    split_ifs at hl with h1 h2
    · rcases List.mem_cons.1 hl with rfl | hl
      · right; exact ⟨(p, os), by simp, rfl⟩
      · right; exact ⟨l, List.mem_cons_of_mem _ hl, rfl⟩
    · rcases List.mem_cons.1 hl with rfl | hl
      · left; rfl
      · right; exact ⟨l, hl, rfl⟩
    · rcases List.mem_cons.1 hl with rfl | hl
      · right; exact ⟨(p, os), by simp, rfl⟩
      · rcases ih l hl with h | ⟨l0, hl0, h⟩
        · left; exact h
        · right; exact ⟨l0, List.mem_cons_of_mem _ hl0, h⟩

theorem pushOrder_sideOK {s : Side} {R : Price → Price → Prop}
    {f : Price → Price → Bool} (hbf : ∀ a c, f a c = true ↔ R a c)
    (htrans : ∀ a c d, R a c → R c d → R a d)
    (htotal : ∀ a c, a ≠ c → ¬ R a c → R c a)
    {o : Order} {ls : Levels} (h : SideOK s R ls) (ho : o.side = s) :
    SideOK s R (pushOrder f o.price o ls) := by
  induction ls with
  | nil =>
    refine ⟨by simp [pushOrder], ?_⟩
    intro l hl x hx
    simp only [pushOrder, List.mem_singleton] at hl
    subst hl
    simp only [List.mem_singleton] at hx
    subst hx
    exact ⟨ho, rfl⟩
  | cons x xs ih =>
    obtain ⟨p, os⟩ := x
    have hs := h.sorted
    rw [List.pairwise_cons] at hs
    have hxs : SideOK s R xs :=
      ⟨hs.2, fun l hl => h.level l (List.mem_cons_of_mem _ hl)⟩
    unfold pushOrder
    split_ifs with h1 h2
    · refine ⟨by rw [List.pairwise_cons]; exact hs, ?_⟩
      intro l hl x hx
      rcases List.mem_cons.1 hl with rfl | hl
      · rcases List.mem_append.1 hx with hx | hx
        · exact h.level (p, os) (by simp) x hx
        · simp only [List.mem_singleton] at hx
          subst hx
          exact ⟨ho, h1.symm⟩
      · exact h.level l (List.mem_cons_of_mem _ hl) x hx
    · refine ⟨?_, ?_⟩
      · rw [List.pairwise_cons]
        refine ⟨?_, h.sorted⟩
        intro l hl
        rcases List.mem_cons.1 hl with rfl | hl
        · exact (hbf _ _).1 h2
        · exact htrans _ _ _ ((hbf _ _).1 h2) (hs.1 l hl)
      · intro l hl x hx
        rcases List.mem_cons.1 hl with rfl | hl
        · simp only [List.mem_singleton] at hx
          subst hx
          exact ⟨ho, rfl⟩
        · exact h.level l hl x hx
    · have ih' := ih hxs
      refine ⟨?_, ?_⟩
      · rw [List.pairwise_cons]
        refine ⟨?_, ih'.sorted⟩
        intro l hl
        rcases pushOrder_keys l hl with hk | ⟨l0, hl0, hk⟩
        · rw [hk]
          apply htotal _ _ (fun hc => h1 hc.symm)
          intro hb
          exact h2 ((hbf _ _).2 hb)
        · rw [← hk]; exact hs.1 l0 hl0
      · intro l hl x hx
        rcases List.mem_cons.1 hl with rfl | hl
        · exact h.level (p, os) (by simp) x hx
        · exact ih'.level l hl x hx

theorem pushOrder_perm {f : Price → Price → Bool} {price : Price} {o : Order} {ls : Levels} :
    (fifoOrders (pushOrder f price o ls)).Perm (o :: fifoOrders ls) := by
  induction ls with
  | nil => simp [pushOrder]
  | cons x xs ih =>
    obtain ⟨p, os⟩ := x
    unfold pushOrder
    split_ifs with h1 h2
    · simp only [fifoOrders_cons, List.append_assoc, List.singleton_append]
      exact List.perm_middle
    · simp
    · simp only [fifoOrders_cons]
      exact (List.Perm.append_left os ih).trans List.perm_middle

theorem pushOrder_nonempty {f : Price → Price → Bool} {price : Price} {o : Order} {ls : Levels}
    (h : NonemptyLevels ls) : NonemptyLevels (pushOrder f price o ls) := by
  induction ls with
  | nil => intro l hl; simp [pushOrder] at hl; subst hl; simp
  | cons x xs ih =>
    obtain ⟨p, os⟩ := x
    have hxs : NonemptyLevels xs := fun l hl => h l (List.mem_cons_of_mem _ hl)
    unfold pushOrder
    split_ifs with h1 h2
    · intro l hl
      rcases List.mem_cons.1 hl with rfl | hl
      · simp
      · exact hxs l hl
    · intro l hl
      rcases List.mem_cons.1 hl with rfl | hl
      · simp
      · exact h l hl
    · intro l hl
      rcases List.mem_cons.1 hl with rfl | hl
      · exact h _ (by simp)
      · exact ih hxs l hl

/-- What `eraseFromLevels` does on a well-formed s that holds the order. -/
theorem eraseFromLevels_spec {s : Side} {R : Price → Price → Prop}
    (hirr : ∀ a, ¬ R a a) {o : Order} {ls : Levels}
    (h : SideOK s R ls) (hne : NonemptyLevels ls) (ho : o ∈ fifoOrders ls)
    (hid : ((fifoOrders ls).map Order.orderId).Nodup) :
    ∃ ls', eraseFromLevels ls o = some ls' ∧ SideOK s R ls' ∧ NonemptyLevels ls' ∧
      ls'.length ≤ ls.length ∧
      (∀ l ∈ ls', ∃ l0 ∈ ls, l0.1 = l.1) ∧
      ∃ A B, fifoOrders ls = A ++ o :: B ∧ fifoOrders ls' = A ++ B := by
  obtain ⟨l, hl, hol⟩ := mem_fifoOrders.1 ho
  obtain ⟨p, fifo⟩ := l
  have hp : o.price = p := (h.level _ hl o hol).2
  subst hp
  obtain ⟨l1, l2, rfl⟩ := List.append_of_mem hl
  have hs := h.sorted
  rw [List.pairwise_append, List.pairwise_cons] at hs
  have hk1 : ∀ e ∈ l1, e.1 ≠ o.price := by
    intro e he heq
    have := hs.2.2 e he (o.price, fifo) (by simp)
    rw [heq] at this
    exact hirr _ this
  have hk2 : ∀ e ∈ l2, e.1 ≠ o.price := by
    intro e he heq
    have := hs.2.1.1 e he
    rw [heq] at this
    exact hirr _ this
  have hfn : (fifo.map Order.orderId).Nodup := by
    simp only [fifoOrders_append, fifoOrders_cons, List.map_append, List.nodup_append] at hid
    exact hid.2.1.1
  obtain ⟨f1, f2, rfl, hf⟩ := eraseFromFifo_split hfn hol
  have hlook : lookupKey o.price (l1 ++ (o.price, f1 ++ o :: f2) :: l2)
      = some (f1 ++ o :: f2) := lookupKey_mid hk1
  by_cases hemp : f1 ++ f2 = []
  · refine ⟨l1 ++ l2, ?_, ?_, ?_, ?_, ?_, ?_⟩
    · simp only [eraseFromLevels, hlook, hf, hemp, List.isEmpty_nil, if_true]
      rw [eraseKey_mid hk1 hk2]
    · refine ⟨?_, ?_⟩
      · rw [List.pairwise_append]
        exact ⟨hs.1, hs.2.1.2, fun a ha c hc => hs.2.2 a ha c (List.mem_cons_of_mem _ hc)⟩
      · intro l hl'
        apply h.level
        simp only [List.mem_append, List.mem_cons] at hl' ⊢
        tauto
    · intro l hl'
      apply hne
      simp only [List.mem_append, List.mem_cons] at hl' ⊢
      tauto
    · simp
    · intro l hl'
      refine ⟨l, ?_, rfl⟩
      simp only [List.mem_append, List.mem_cons] at hl' ⊢
      tauto
    · obtain ⟨rfl, rfl⟩ := List.append_eq_nil.1 hemp
      exact ⟨fifoOrders l1, fifoOrders l2, by simp, by simp⟩
  · have hemp' : (f1 ++ f2).isEmpty = false := by
      cases hc : f1 ++ f2 with
      | nil => exact absurd hc hemp
      | cons _ _ => rfl
    refine ⟨l1 ++ (o.price, f1 ++ f2) :: l2, ?_, ?_, ?_, ?_, ?_, ?_⟩
    · simp only [eraseFromLevels, hlook, hf, hemp', Bool.false_eq_true, if_false]
      rw [replaceKey_mid hk1 hk2]
    · refine ⟨?_, ?_⟩
      · rw [List.pairwise_append, List.pairwise_cons]
        exact ⟨hs.1, ⟨hs.2.1.1, hs.2.1.2⟩, fun a ha c hc => by
          rcases List.mem_cons.1 hc with rfl | hc
          · exact hs.2.2 a ha (o.price, f1 ++ o :: f2) (by simp)
          · exact hs.2.2 a ha c (List.mem_cons_of_mem _ hc)⟩
      · intro l hl' x hx
        rcases List.mem_append.1 hl' with hl' | hl'
        · exact h.level l (List.mem_append_left _ hl') x hx
        · rcases List.mem_cons.1 hl' with rfl | hl'
          · apply h.level (o.price, f1 ++ o :: f2) (by simp) x
            simp only [List.mem_append, List.mem_cons] at hx ⊢
            tauto
          · exact h.level l (List.mem_append_right _ (List.mem_cons_of_mem _ hl')) x hx
    · intro l hl'
      rcases List.mem_append.1 hl' with hl' | hl'
      · exact hne l (List.mem_append_left _ hl')
      · rcases List.mem_cons.1 hl' with rfl | hl'
        · exact hemp
        · exact hne l (List.mem_append_right _ (List.mem_cons_of_mem _ hl'))
    · simp
    · intro l hl'
      rcases List.mem_append.1 hl' with hl' | hl'
      · exact ⟨l, List.mem_append_left _ hl', rfl⟩
      · rcases List.mem_cons.1 hl' with rfl | hl'
        · exact ⟨(o.price, f1 ++ o :: f2), by simp, rfl⟩
        · exact ⟨l, List.mem_append_right _ (List.mem_cons_of_mem _ hl'), rfl⟩
    · exact ⟨fifoOrders l1 ++ f1, f2 ++ fifoOrders l2, by simp, by simp⟩

theorem lookupKey_eraseKey_self {κ α : Type} [DecidableEq κ] {k : κ} {m : List (κ × α)} :
    lookupKey k (eraseKey k m) = none :=
  lookupKey_eq_none.2 (fun _ he => (mem_eraseKey.1 he).2)

theorem lookupKey_eraseKey_ne {κ α : Type} [DecidableEq κ] {k k' : κ} {m : List (κ × α)}
    (h : k' ≠ k) : lookupKey k' (eraseKey k m) = lookupKey k' m := by
  induction m with
  | nil => rfl
  | cons e m ih =>
    obtain ⟨k0, v⟩ := e
    unfold eraseKey at ih ⊢
    by_cases h0 : k0 = k
    · have h1 : k0 ≠ k' := fun hc => h (hc ▸ h0)
      rw [List.filter_cons]
      simp only [h0, ne_eq, not_true_eq_false, decide_False, Bool.false_eq_true, if_false]
      rw [ih]
      simp only [lookupKey]
      rw [if_neg (fun hc => h hc.symm)]
    · rw [List.filter_cons]
      simp only [h0, ne_eq, not_false_eq_true, decide_True, if_true, lookupKey]
      rw [ih]

/-! ## Cancel keeps the book well formed -/

theorem mem_side_of_mem_all {b : Book} (h : WFcore b) {o : Order} (ho : o ∈ allOrders b) :
    (o.side = Side.Sell → o ∈ fifoOrders b.asks) ∧ (o.side ≠ Side.Sell → o ∈ fifoOrders b.bids) := by
  unfold allOrders at ho
  rcases List.mem_append.1 ho with hb | ha
  · obtain ⟨l, hl, hol⟩ := mem_fifoOrders.1 hb
    have := (h.bidsOK.level l hl o hol).1
    exact ⟨fun hs => (by rw [hs] at this; cases this), fun _ => hb⟩
  · obtain ⟨l, hl, hol⟩ := mem_fifoOrders.1 ha
    have := (h.asksOK.level l hl o hol).1
    exact ⟨fun _ => ha, fun hs => absurd this hs⟩

theorem cancelOrderInternal_spec {b : Book} (h : WFm b) (id : OrderId) :
    ∃ b', cancelOrderInternal b id = some b' ∧ WFm b' ∧
      lookupKey id b'.orders = none ∧
      (∀ id', id' ≠ id → lookupKey id' b'.orders = lookupKey id' b.orders) ∧
      (∀ l ∈ b'.bids, ∃ l0 ∈ b.bids, l0.1 = l.1) ∧
      (∀ l ∈ b'.asks, ∃ l0 ∈ b.asks, l0.1 = l.1) ∧
      b'.orders = eraseKey id b.orders := by
  cases hl : lookupKey id b.orders with
  | none =>
    refine ⟨b, by simp [cancelOrderInternal, hl], h, hl, fun _ _ => rfl,
      fun l hl => ⟨l, hl, rfl⟩, fun l hl => ⟨l, hl, rfl⟩, ?_⟩
    exact (eraseKey_of_not_mem (lookupKey_eq_none.1 hl)).symm
  | some o =>
    obtain ⟨hoid, hoall⟩ := h.core.indexOK.lookup hl
    have hidn := h.core.indexOK.idsNodup
    unfold allOrders at hidn
    rw [List.map_append, List.nodup_append] at hidn
    by_cases hs : o.side = Side.Sell
    · have hoa := (mem_side_of_mem_all h.core hoall).1 hs
      obtain ⟨asks', he, hok, hne, _, hkeys, A, B, hAB, hAB'⟩ :=
        eraseFromLevels_spec (R := fun a c => a < c) (fun a => lt_irrefl a) h.core.asksOK h.asksNonempty hoa hidn.2.1
      refine ⟨{ b with orders := eraseKey id b.orders, asks := asks', data := onOrderCancelled b.data o },
        ?_, ?_, ?_, ?_, ?_, ?_, rfl⟩
      · simp [cancelOrderInternal, hl, hs, he]
      · refine ⟨⟨h.core.bidsOK, hok, ?_⟩, h.bidsNonempty, hne⟩
        have hidx := h.core.indexOK
        unfold allOrders at hidx ⊢
        simp only [hAB, hAB'] at hidx ⊢
        rw [← List.append_assoc] at hidx ⊢
        rw [← hoid]
        exact hidx.erase
      · exact lookupKey_eraseKey_self
      · intro id' hne'; exact lookupKey_eraseKey_ne hne'
      · intro l hl'; exact ⟨l, hl', rfl⟩
      · exact hkeys
    · have hob := (mem_side_of_mem_all h.core hoall).2 hs
      obtain ⟨bids', he, hok, hne, _, hkeys, A, B, hAB, hAB'⟩ :=
        eraseFromLevels_spec (R := fun a c => c < a) (fun a => lt_irrefl a) h.core.bidsOK h.bidsNonempty hob hidn.1
      refine ⟨{ b with orders := eraseKey id b.orders, bids := bids', data := onOrderCancelled b.data o },
        ?_, ?_, ?_, ?_, ?_, ?_, rfl⟩
      · simp [cancelOrderInternal, hl, hs, he]
      · refine ⟨⟨hok, h.core.asksOK, ?_⟩, hne, h.asksNonempty⟩
        have hidx := h.core.indexOK
        unfold allOrders at hidx ⊢
        simp only [hAB, hAB'] at hidx ⊢
        rw [List.append_assoc] at hidx ⊢
        rw [List.cons_append] at hidx
        rw [← hoid]
        exact hidx.erase
      · exact lookupKey_eraseKey_self
      · intro id' hne'; exact lookupKey_eraseKey_ne hne'
      · exact hkeys
      · intro l hl'; exact ⟨l, hl', rfl⟩

theorem uncrossed_of_keys {b b' : Book} (h : Uncrossed b)
    (hb : ∀ l ∈ b'.bids, ∃ l0 ∈ b.bids, l0.1 = l.1)
    (ha : ∀ l ∈ b'.asks, ∃ l0 ∈ b.asks, l0.1 = l.1) : Uncrossed b' := by
  intro x hx y hy
  obtain ⟨x0, hx0, ex⟩ := hb x hx
  obtain ⟨y0, hy0, ey⟩ := ha y hy
  rw [← ex, ← ey]
  exact h x0 hx0 y0 hy0

theorem cancelOrderInternal_WF {b : Book} (h : WF b) (id : OrderId) :
    ∃ b', cancelOrderInternal b id = some b' ∧ WF b' := by
  obtain ⟨b', he, hw, _, _, hb, ha, _⟩ := cancelOrderInternal_spec h.wfm id
  exact ⟨b', he, hw, uncrossed_of_keys h.uncrossed hb ha⟩

theorem cancelOrders_WF {b : Book} (h : WF b) (ids : List OrderId) :
    ∃ b', cancelOrders b ids = some b' ∧ WF b' := by
  induction ids generalizing b with
  | nil => exact ⟨b, rfl, h⟩
  | cons id ids ih =>
    obtain ⟨b1, he, hw⟩ := cancelOrderInternal_WF h id
    obtain ⟨b2, he2, hw2⟩ := ih hw
    exact ⟨b2, by simp [cancelOrders, he, he2], hw2⟩

/-! ## Insertion keeps the book well formed -/

theorem insertOrder_WFm {b : Book} (h : WFm b) {o : Order}
    (hl : lookupKey o.orderId b.orders = none) : WFm (insertOrder b o) := by
  have hidx := h.core.indexOK.insert hl
  by_cases hs : o.side = Side.Buy
  · refine ⟨⟨?_, ?_, ?_⟩, ?_, ?_⟩
    · simp only [insertOrder, hs, if_true]
      have := pushOrder_sideOK (f := bidBefore) (R := fun a c => c < a) (s := Side.Buy)
        (fun a c => by simp [bidBefore]) (fun a c d h1 h2 => lt_trans h2 h1)
        (fun a c hne hn => lt_of_le_of_ne (not_lt.1 hn) hne) h.core.bidsOK hs
      exact this
    · simp only [insertOrder, hs, if_true]; exact h.core.asksOK
    · simp only [insertOrder, hs, if_true, allOrders, hl]
      refine hidx.perm ?_
      unfold allOrders
      rw [← List.cons_append]
      exact List.Perm.append_right _ pushOrder_perm.symm
    · simp only [insertOrder, hs, if_true]; exact pushOrder_nonempty h.bidsNonempty
    · simp only [insertOrder, hs, if_true]; exact h.asksNonempty
  · have hs' : o.side = Side.Sell := by
      cases hc : o.side with
      | Buy => exact absurd hc hs
      | Sell => rfl
    refine ⟨⟨?_, ?_, ?_⟩, ?_, ?_⟩
    · simp only [insertOrder, hs, if_false]; exact h.core.bidsOK
    · simp only [insertOrder, hs, if_false]
      have := pushOrder_sideOK (f := askBefore) (R := fun a c => a < c) (s := Side.Sell)
        (fun a c => by simp [askBefore]) (fun a c d h1 h2 => lt_trans h1 h2)
        (fun a c hne hn => lt_of_le_of_ne (not_lt.1 hn) (Ne.symm hne)) h.core.asksOK hs'
      exact this
    · simp only [insertOrder, hs, if_false, allOrders, hl]
      refine hidx.perm ?_
      unfold allOrders
      exact List.perm_middle.symm.trans (List.Perm.append_left _ pushOrder_perm.symm)
    · simp only [insertOrder, hs, if_false]; exact h.bidsNonempty
    · simp only [insertOrder, hs, if_false]; exact pushOrder_nonempty h.asksNonempty

/-! ## The matching step -/

theorem matchStep_eq {b : Book} {bp ap : Price} {bid ask : Order} {bt at_ : List Order}
    {brest arest : Levels} (hb : b.bids = (bp, bid :: bt) :: brest)
    (ha : b.asks = (ap, ask :: at_) :: arest) :
    matchStep b = some (stepBook b bp bid bt brest ap ask at_ arest, stepTrade bid ask) := by
  have h1 : ¬ (min bid.remainingQuantity ask.remainingQuantity > bid.remainingQuantity) :=
    not_lt.2 (min_le_left _ _)
  have h2 : ¬ (min bid.remainingQuantity ask.remainingQuantity > ask.remainingQuantity) :=
    not_lt.2 (min_le_right _ _)
  simp only [matchStep, hb, ha, Order.Fill, h1, h2, if_false]
  rfl

theorem matchStep_none_of_head {b : Book} (h : headFifo b.bids = [] ∨ headFifo b.asks = []) :
    matchStep b = none := by
  unfold matchStep
  split
  · rename_i hb ha
    rcases h with h | h
    · rw [hb] at h; simp [headFifo] at h
    · rw [ha] at h; simp [headFifo] at h
  · rfl

theorem matchInner_of_head {b : Book} (h : headFifo b.bids = [] ∨ headFifo b.asks = [])
    (n : Nat) (ts : Trades) : matchInner n b ts = some (b, ts) := by
  cases n with
  | zero =>
    rw [matchInner]
    split
    · rename_i hb ha
      rcases h with h | h
      · rw [hb] at h; simp [headFifo] at h
      · rw [ha] at h; simp [headFifo] at h
    · rfl
  | succ n =>
    rw [matchInner]
    split
    · rename_i hb ha
      rcases h with h | h
      · rw [hb] at h; simp [headFifo] at h
      · rw [ha] at h; simp [headFifo] at h
    · rfl

theorem heads_of_headFifo {b : Book} (h : ¬ (headFifo b.bids = [] ∨ headFifo b.asks = [])) :
    ∃ bp bid bt brest ap ask at_ arest,
      b.bids = (bp, bid :: bt) :: brest ∧ b.asks = (ap, ask :: at_) :: arest := by
  rw [not_or] at h
  obtain ⟨h1, h2⟩ := h
  cases hb : b.bids with
  | nil => rw [hb] at h1; exact absurd rfl h1
  | cons x brest =>
    obtain ⟨bp, bf⟩ := x
    cases ha : b.asks with
    | nil => rw [ha] at h2; exact absurd rfl h2
    | cons y arest =>
      obtain ⟨ap, af⟩ := y
      rw [hb] at h1; rw [ha] at h2
      simp only [headFifo] at h1 h2
      obtain ⟨bid, bt, rfl⟩ := List.exists_cons_of_ne_nil h1
      obtain ⟨ask, at_, rfl⟩ := List.exists_cons_of_ne_nil h2
      exact ⟨bp, bid, bt, brest, ap, ask, at_, arest, rfl, rfl⟩

theorem matchInner_succ {b : Book} {bp ap : Price} {bid ask : Order} {bt at_ : List Order}
    {brest arest : Levels} (hb : b.bids = (bp, bid :: bt) :: brest)
    (ha : b.asks = (ap, ask :: at_) :: arest) (n : Nat) (ts : Trades) :
    matchInner (n + 1) b ts =
      matchInner n (stepBook b bp bid bt brest ap ask at_ arest) (ts ++ [stepTrade bid ask]) := by
  rw [matchInner]
  simp only [hb, ha]
  rw [matchStep_eq hb ha]

theorem matchInner_zero {b : Book} {bp ap : Price} {bid ask : Order} {bt at_ : List Order}
    {brest arest : Levels} (hb : b.bids = (bp, bid :: bt) :: brest)
    (ha : b.asks = (ap, ask :: at_) :: arest) (ts : Trades) :
    matchInner 0 b ts = none := by
  rw [matchInner]
  simp only [hb, ha]

theorem stepFifo_length_le (o' : Order) (t : List Order) :
    (stepFifo o' t).length ≤ t.length + 1 := by
  unfold stepFifo; split <;> simp

theorem step_measure (bid ask : Order) (bt at_ : List Order) :
    (stepFifo (afterFill bid (min bid.remainingQuantity ask.remainingQuantity)) bt).length +
      (stepFifo (afterFill ask (min bid.remainingQuantity ask.remainingQuantity)) at_).length
      < (bt.length + 1) + (at_.length + 1) := by
  rcases le_total bid.remainingQuantity ask.remainingQuantity with h | h
  · have : (afterFill bid (min bid.remainingQuantity ask.remainingQuantity)).isFilled = true := by
      simp [afterFill, Order.isFilled, min_eq_left h]
    have h2 := stepFifo_length_le
      (afterFill ask (min bid.remainingQuantity ask.remainingQuantity)) at_
    simp only [stepFifo, this, if_true] at h2 ⊢
    omega
  · have : (afterFill ask (min bid.remainingQuantity ask.remainingQuantity)).isFilled = true := by
      simp [afterFill, Order.isFilled, min_eq_right h]
    have h2 := stepFifo_length_le
      (afterFill bid (min bid.remainingQuantity ask.remainingQuantity)) bt
    simp only [stepFifo, this, if_true] at h2 ⊢
    omega

/-- Induction principle for the inner loop: a property kept by every step between front orders
holds of the result; the loop keeps the first-level keys and the lower levels, and stops with one
of the two front FIFOs empty. -/
theorem matchInner_induct {P : Book → Trades → Prop} {bp ap : Price} {brest arest : Levels}
    (hstep : ∀ b ts bid bt ask at_, P b ts → b.bids = (bp, bid :: bt) :: brest →
      b.asks = (ap, ask :: at_) :: arest →
      P (stepBook b bp bid bt brest ap ask at_ arest) (ts ++ [stepTrade bid ask])) :
    ∀ (n : Nat) (b : Book) (ts : Trades) (bf af : List Order), P b ts →
      b.bids = (bp, bf) :: brest → b.asks = (ap, af) :: arest →
      ∀ b' ts', matchInner n b ts = some (b', ts') →
        P b' ts' ∧ ∃ bf' af', b'.bids = (bp, bf') :: brest ∧ b'.asks = (ap, af') :: arest ∧
          (bf' = [] ∨ af' = []) := by
  intro n
  induction n with
  | zero =>
    intro b ts bf af hP hb ha b' ts' hm
    by_cases hh : headFifo b.bids = [] ∨ headFifo b.asks = []
    · rw [matchInner_of_head hh] at hm
      simp only [Option.some.injEq, Prod.mk.injEq] at hm
      obtain ⟨rfl, rfl⟩ := hm
      refine ⟨hP, bf, af, hb, ha, ?_⟩
      simpa [hb, ha, headFifo] using hh
    · obtain ⟨_, _, _, _, _, _, _, _, hb', ha'⟩ := heads_of_headFifo hh
      rw [matchInner_zero hb' ha'] at hm
      cases hm
  | succ n ih =>
    intro b ts bf af hP hb ha b' ts' hm
    by_cases hh : headFifo b.bids = [] ∨ headFifo b.asks = []
    · rw [matchInner_of_head hh] at hm
      simp only [Option.some.injEq, Prod.mk.injEq] at hm
      obtain ⟨rfl, rfl⟩ := hm
      refine ⟨hP, bf, af, hb, ha, ?_⟩
      simpa [hb, ha, headFifo] using hh
    · obtain ⟨bp', bid, bt, brest', ap', ask, at_, arest', hb', ha'⟩ := heads_of_headFifo hh
      rw [matchInner_succ hb' ha'] at hm
      have e1 := hb.symm.trans hb'
      have e2 := ha.symm.trans ha'
      simp only [List.cons.injEq, Prod.mk.injEq] at e1 e2
      obtain ⟨⟨rfl, rfl⟩, rfl⟩ := e1
      obtain ⟨⟨rfl, rfl⟩, rfl⟩ := e2
      exact ih _ _ _ _ (hstep b ts bid bt ask at_ hP hb' ha') rfl rfl b' ts' hm

/-- The inner loop returns when given as many iterations as there are orders in the two front FIFOs. -/
theorem matchInner_returns :
    ∀ (n : Nat) (b : Book) (ts : Trades),
      (headFifo b.bids).length + (headFifo b.asks).length ≤ n →
      ∃ r, matchInner n b ts = some r := by
  intro n
  induction n with
  | zero =>
    intro b ts hlen
    have hh : headFifo b.bids = [] ∨ headFifo b.asks = [] := by
      left
      apply List.eq_nil_of_length_eq_zero
      omega
    exact ⟨_, matchInner_of_head hh 0 ts⟩
  | succ n ih =>
    intro b ts hlen
    by_cases hh : headFifo b.bids = [] ∨ headFifo b.asks = []
    · exact ⟨_, matchInner_of_head hh _ ts⟩
    · obtain ⟨bp, bid, bt, brest, ap, ask, at_, arest, hb, ha⟩ := heads_of_headFifo hh
      rw [matchInner_succ hb ha]
      apply ih
      have := step_measure bid ask bt at_
      rw [hb, ha] at hlen
      simp only [headFifo, List.length_cons] at hlen
      simp only [stepBook, headFifo]
      omega

theorem WFm.toWFi {b : Book} (h : WFm b) : WFi b :=
  ⟨h.core, fun l hl => h.bidsNonempty l (List.mem_of_mem_tail hl),
    fun l hl => h.asksNonempty l (List.mem_of_mem_tail hl)⟩

theorem SideOK.head_keys {s : Side} {R : Price → Price → Prop} (hirr : ∀ a, ¬ R a a)
    {p : Price} {f : List Order} {rest : Levels} (h : SideOK s R ((p, f) :: rest)) :
    ∀ e ∈ rest, e.1 ≠ p := by
  intro e he heq
  have := (List.pairwise_cons.1 h.sorted).1 e he
  rw [heq] at this
  exact hirr _ this

theorem SideOK.tail {s : Side} {R : Price → Price → Prop}
    {x : Price × List Order} {rest : Levels} (h : SideOK s R (x :: rest)) : SideOK s R rest :=
  ⟨(List.pairwise_cons.1 h.sorted).2, fun l hl => h.level l (List.mem_cons_of_mem _ hl)⟩

theorem SideOK.stepFifo {s : Side} {R : Price → Price → Prop} {p : Price} {o o' : Order}
    {t : List Order} {rest : Levels} (h : SideOK s R ((p, o :: t) :: rest))
    (hs : o'.side = o.side) (hp : o'.price = o.price) :
    SideOK s R ((p, stepFifo o' t) :: rest) := by
  refine ⟨?_, ?_⟩
  · have := h.sorted
    rw [List.pairwise_cons] at this ⊢
    exact this
  · intro l hl x hx
    rcases List.mem_cons.1 hl with rfl | hl
    · have h0 := h.level (p, o :: t) (by simp)
      unfold Orderbook.stepFifo at hx
      split at hx
      · exact h0 x (List.mem_cons_of_mem _ hx)
      · rcases List.mem_cons.1 hx with rfl | hx
        · rw [hs, hp]; exact h0 o (by simp)
        · exact h0 x (List.mem_cons_of_mem _ hx)
    · exact h.level l (List.mem_cons_of_mem _ hl) x hx

theorem IndexOK.step {orders : List (OrderId × Order)} {A B : List Order} {o n : Order}
    (h : IndexOK orders (A ++ o :: B)) (hid : n.orderId = o.orderId) :
    IndexOK (stepIndex orders n) (A ++ stepFifo n B) := by
  unfold stepIndex stepFifo
  split
  · rw [hid]; exact h.erase
  · rw [hid]; exact h.replace hid

theorem stepFifo_append (o' : Order) (t X : List Order) :
    stepFifo o' t ++ X = stepFifo o' (t ++ X) := by
  unfold stepFifo; split <;> simp

theorem stepBook_WFi {b : Book} {bp ap : Price} {bid ask : Order} {bt at_ : List Order}
    {brest arest : Levels} (h : WFi b) (hb : b.bids = (bp, bid :: bt) :: brest)
    (ha : b.asks = (ap, ask :: at_) :: arest) :
    WFi (stepBook b bp bid bt brest ap ask at_ arest) := by
  have hbt := h.bidsTail
  have hat := h.asksTail
  have hbo := h.core.bidsOK
  have hao := h.core.asksOK
  have hidx := h.core.indexOK
  unfold allOrders at hidx
  rw [hb] at hbt hbo hidx
  rw [ha] at hat hao hidx
  refine ⟨⟨?_, ?_, ?_⟩, hbt, hat⟩
  · exact hbo.stepFifo rfl rfl
  · exact hao.stepFifo rfl rfl
  · simp only [stepBook, allOrders, fifoOrders_cons]
    simp only [fifoOrders_cons, List.cons_append, List.append_assoc] at hidx
    have h1 := IndexOK.step (A := []) (n := afterFill bid
      (min bid.remainingQuantity ask.remainingQuantity)) hidx rfl
    have e1 : ∀ o' : Order, [] ++ stepFifo o' (bt ++ (fifoOrders brest ++ ask ::
        (at_ ++ fifoOrders arest))) = (stepFifo o' bt ++ fifoOrders brest) ++ ask ::
        (at_ ++ fifoOrders arest) := by
      intro o'; unfold stepFifo; split <;> simp
    rw [e1] at h1
    have h2 := IndexOK.step (n := afterFill ask
      (min bid.remainingQuantity ask.remainingQuantity)) h1 rfl
    rw [← stepFifo_append] at h2
    exact h2

theorem eraseEmptiedBids_eq {b : Book} {bp : Price} {bf : List Order} {brest : Levels}
    (hb : b.bids = (bp, bf) :: brest) (hkb : ∀ e ∈ brest, e.1 ≠ bp) :
    eraseEmptiedBids b bp =
      if bf = [] then { b with bids := brest, data := eraseKey bp b.data } else b := by
  have hl : lookupKey bp b.bids = some bf := by rw [hb]; simp [lookupKey]
  have he : eraseKey bp b.bids = brest := by
    rw [hb]; exact @eraseKey_mid _ _ _ _ _ [] _ (by simp) hkb
  unfold eraseEmptiedBids
  cases bf with
  | nil => simp only [hl, he, if_true]
  | cons x xs => simp only [hl, if_false, reduceCtorEq]

theorem eraseEmptiedAsks_eq {b : Book} {ap : Price} {af : List Order} {arest : Levels}
    (ha : b.asks = (ap, af) :: arest) (hka : ∀ e ∈ arest, e.1 ≠ ap) :
    eraseEmptiedAsks b ap =
      if af = [] then { b with asks := arest, data := eraseKey ap b.data } else b := by
  have hl : lookupKey ap b.asks = some af := by rw [ha]; simp [lookupKey]
  have he : eraseKey ap b.asks = arest := by
    rw [ha]; exact @eraseKey_mid _ _ _ _ _ [] _ (by simp) hka
  unfold eraseEmptiedAsks
  cases af with
  | nil => simp only [hl, he, if_true]
  | cons x xs => simp only [hl, if_false, reduceCtorEq]

theorem eraseEmptiedBids_asks (b : Book) (bp : Price) : (eraseEmptiedBids b bp).asks = b.asks := by
  unfold eraseEmptiedBids; split <;> rfl

theorem eraseEmptiedBids_orders (b : Book) (bp : Price) :
    (eraseEmptiedBids b bp).orders = b.orders := by
  unfold eraseEmptiedBids; split <;> rfl

theorem eraseEmptiedAsks_bids (b : Book) (ap : Price) : (eraseEmptiedAsks b ap).bids = b.bids := by
  unfold eraseEmptiedAsks; split <;> rfl

theorem eraseEmptiedAsks_orders (b : Book) (ap : Price) :
    (eraseEmptiedAsks b ap).orders = b.orders := by
  unfold eraseEmptiedAsks; split <;> rfl

theorem eraseEmptied_bids {b : Book} {bp : Price} (ap : Price) {bf : List Order} {brest : Levels}
    (hb : b.bids = (bp, bf) :: brest) (hkb : ∀ e ∈ brest, e.1 ≠ bp) :
    (eraseEmptied b bp ap).bids = if bf = [] then brest else (bp, bf) :: brest := by
  unfold eraseEmptied
  rw [eraseEmptiedAsks_bids, eraseEmptiedBids_eq hb hkb]
  split
  · rfl
  · exact hb

theorem eraseEmptied_asks {b : Book} (bp : Price) {ap : Price} {af : List Order} {arest : Levels}
    (ha : b.asks = (ap, af) :: arest) (hka : ∀ e ∈ arest, e.1 ≠ ap) :
    (eraseEmptied b bp ap).asks = if af = [] then arest else (ap, af) :: arest := by
  unfold eraseEmptied
  rw [eraseEmptiedAsks_eq ((eraseEmptiedBids_asks b bp).trans ha) hka]
  split
  · rfl
  · exact (eraseEmptiedBids_asks b bp).trans ha

theorem eraseEmptied_orders (b : Book) (bp ap : Price) :
    (eraseEmptied b bp ap).orders = b.orders := by
  unfold eraseEmptied
  rw [eraseEmptiedAsks_orders, eraseEmptiedBids_orders]

theorem eraseEmptied_WFm {b : Book} {bp ap : Price} {bf af : List Order} {brest arest : Levels}
    (h : WFi b) (hb : b.bids = (bp, bf) :: brest) (ha : b.asks = (ap, af) :: arest) :
    WFm (eraseEmptied b bp ap) ∧
      (eraseEmptied b bp ap).bids = (if bf = [] then brest else (bp, bf) :: brest) ∧
      (eraseEmptied b bp ap).asks = (if af = [] then arest else (ap, af) :: arest) := by
  have hbt := h.bidsTail
  have hat := h.asksTail
  have hbo := h.core.bidsOK
  have hao := h.core.asksOK
  have hidx := h.core.indexOK
  unfold allOrders at hidx
  rw [hb] at hbt hbo hidx
  rw [ha] at hat hao hidx
  have e1 := eraseEmptied_bids ap hb (hbo.head_keys (R := fun a c => c < a) (fun a => lt_irrefl a))
  have e2 := eraseEmptied_asks bp ha (hao.head_keys (R := fun a c => a < c) (fun a => lt_irrefl a))
  refine ⟨⟨⟨?_, ?_, ?_⟩, ?_, ?_⟩, e1, e2⟩
  · rw [e1]; split
    · exact hbo.tail
    · exact hbo
  · rw [e2]; split
    · exact hao.tail
    · exact hao
  · unfold allOrders
    rw [e1, e2, eraseEmptied_orders]
    have k1 : fifoOrders (if bf = [] then brest else (bp, bf) :: brest)
        = fifoOrders ((bp, bf) :: brest) := by
      split
      · rename_i hc; subst hc; simp
      · rfl
    have k2 : fifoOrders (if af = [] then arest else (ap, af) :: arest)
        = fifoOrders ((ap, af) :: arest) := by
      split
      · rename_i hc; subst hc; simp
      · rfl
    rw [k1, k2]; exact hidx
  · rw [e1]; split
    · exact hbt
    · rename_i hc
      intro l hl
      rcases List.mem_cons.1 hl with rfl | hl
      · exact hc
      · exact hbt l hl
  · rw [e2]; split
    · exact hat
    · rename_i hc
      intro l hl
      rcases List.mem_cons.1 hl with rfl | hl
      · exact hc
      · exact hat l hl

/-! ## The outer matching loop -/

theorem settled_or_crossing (b : Book) :
    Settled b ∨ ∃ bp bf brest ap af arest,
      b.bids = (bp, bf) :: brest ∧ b.asks = (ap, af) :: arest ∧ ¬ bp < ap := by
  cases hb : b.bids with
  | nil => left; left; exact hb
  | cons x brest =>
    obtain ⟨bp, bf⟩ := x
    cases ha : b.asks with
    | nil => left; right; left; exact ha
    | cons y arest =>
      obtain ⟨ap, af⟩ := y
      by_cases hc : bp < ap
      · left; right; right; exact ⟨bp, bf, brest, ap, af, arest, hb, ha, hc⟩
      · right; exact ⟨bp, bf, brest, ap, af, arest, rfl, rfl, hc⟩

theorem matchLoop_settled {b : Book} (h : Settled b) (n : Nat) (ts : Trades) :
    matchLoop n b ts = some (b, ts) := by
  rcases h with h | h | ⟨bp, bf, brest, ap, af, arest, hb, ha, hc⟩
  · cases n <;> simp [matchLoop, h]
  · cases n <;> (rw [matchLoop]; cases hb : b.bids <;> simp [h])
  · cases n <;> simp [matchLoop, hb, ha, hc]

theorem matchLoop_zero {b : Book} {bp ap : Price} {bf af : List Order} {brest arest : Levels}
    (hb : b.bids = (bp, bf) :: brest) (ha : b.asks = (ap, af) :: arest) (hc : ¬ bp < ap)
    (ts : Trades) : matchLoop 0 b ts = none := by
  simp [matchLoop, hb, ha, hc]

theorem matchLoop_succ {b : Book} {bp ap : Price} {bf af : List Order} {brest arest : Levels}
    (hb : b.bids = (bp, bf) :: brest) (ha : b.asks = (ap, af) :: arest) (hc : ¬ bp < ap)
    (n : Nat) (ts : Trades) :
    matchLoop (n + 1) b ts =
      match matchInner (bf.length + af.length) b ts with
      | none => none
      | some (b', ts') => matchLoop n (eraseEmptied b' bp ap) ts' := by
  rw [matchLoop]
  simp only [hb, ha, hc, if_false] <;> rfl

/-- Induction principle for the outer loop: `Q` holds between passes, `P` inside a pass. -/
theorem matchLoop_induct {P Q : Book → Trades → Prop}
    (hQP : ∀ b ts, Q b ts → P b ts)
    (hstep : ∀ b ts bp bid bt brest ap ask at_ arest, P b ts → ¬ bp < ap →
      b.bids = (bp, bid :: bt) :: brest → b.asks = (ap, ask :: at_) :: arest →
      P (stepBook b bp bid bt brest ap ask at_ arest) (ts ++ [stepTrade bid ask]))
    (herase : ∀ b ts bp bf brest ap af arest, P b ts → ¬ bp < ap →
      b.bids = (bp, bf) :: brest → b.asks = (ap, af) :: arest → (bf = [] ∨ af = []) →
      Q (eraseEmptied b bp ap) ts) :
    ∀ (n : Nat) (b : Book) (ts : Trades), Q b ts →
      ∀ b' ts', matchLoop n b ts = some (b', ts') → Q b' ts' ∧ Settled b' := by
  intro n
  induction n with
  | zero =>
    intro b ts hQ b' ts' hm
    rcases settled_or_crossing b with hs | ⟨bp, bf, brest, ap, af, arest, hb, ha, hc⟩
    · rw [matchLoop_settled hs] at hm
      simp only [Option.some.injEq, Prod.mk.injEq] at hm
      obtain ⟨rfl, rfl⟩ := hm
      exact ⟨hQ, hs⟩
    · rw [matchLoop_zero hb ha hc] at hm
      cases hm
  | succ n ih =>
    intro b ts hQ b' ts' hm
    rcases settled_or_crossing b with hs | ⟨bp, bf, brest, ap, af, arest, hb, ha, hc⟩
    · rw [matchLoop_settled hs] at hm
      simp only [Option.some.injEq, Prod.mk.injEq] at hm
      obtain ⟨rfl, rfl⟩ := hm
      exact ⟨hQ, hs⟩
    · rw [matchLoop_succ hb ha hc] at hm
      cases hi : matchInner (bf.length + af.length) b ts with
      | none => rw [hi] at hm; cases hm
      | some r =>
        obtain ⟨b1, ts1⟩ := r
        rw [hi] at hm
        simp only at hm
        obtain ⟨hP1, bf', af', hb1, ha1, hemp⟩ :=
          @matchInner_induct P bp ap brest arest
            (fun b ts bid bt ask at_ hP hb ha => hstep b ts bp bid bt brest ap ask at_ arest hP hc hb ha)
            _ b ts bf af (hQP b ts hQ) hb ha b1 ts1 hi
        exact ih _ _ (herase b1 ts1 bp bf' brest ap af' arest hP1 hc hb1 ha1 hemp) b' ts' hm

theorem matchLoop_WFm {n : Nat} {b b' : Book} {ts ts' : Trades} (h : WFm b)
    (hm : matchLoop n b ts = some (b', ts')) : WFm b' ∧ Settled b' :=
  matchLoop_induct (P := fun b _ => WFi b) (Q := fun b _ => WFm b)
    (fun _ _ h => h.toWFi)
    (fun _ _ _ _ _ _ _ _ _ _ hP _ hb ha => stepBook_WFi hP hb ha)
    (fun _ _ _ _ _ _ _ _ hP _ hb ha _ => (eraseEmptied_WFm hP hb ha).1)
    n b ts h b' ts' hm

theorem matchLoop_returns :
    ∀ (n : Nat) (b : Book) (ts : Trades), WFm b → b.bids.length + b.asks.length ≤ n →
      ∃ r, matchLoop n b ts = some r := by
  intro n
  induction n with
  | zero =>
    intro b ts _ hlen
    have : b.bids = [] := List.eq_nil_of_length_eq_zero (by omega)
    exact ⟨_, matchLoop_settled (Or.inl this) 0 ts⟩
  | succ n ih =>
    intro b ts h hlen
    rcases settled_or_crossing b with hs | ⟨bp, bf, brest, ap, af, arest, hb, ha, hc⟩
    · exact ⟨_, matchLoop_settled hs _ ts⟩
    · rw [matchLoop_succ hb ha hc]
      obtain ⟨r, hi⟩ := matchInner_returns (bf.length + af.length) b ts
        (by rw [hb, ha]; simp [headFifo])
      obtain ⟨b1, ts1⟩ := r
      rw [hi]
      simp only
      obtain ⟨hP1, bf', af', hb1, ha1, hemp⟩ :=
        @matchInner_induct (fun b _ => WFi b) bp ap brest arest
          (fun b ts bid bt ask at_ hP hb ha => stepBook_WFi hP hb ha)
          _ b ts bf af h.toWFi hb ha b1 ts1 hi
      obtain ⟨hw, e1, e2⟩ := eraseEmptied_WFm hP1 hb1 ha1
      apply ih _ _ hw
      rw [e1, e2]
      rw [hb, ha] at hlen
      simp only [List.length_cons] at hlen
      rcases hemp with rfl | rfl
      · rw [if_pos rfl]
        split <;> (try simp only [List.length_cons]) <;> omega
      · rw [if_pos rfl]
        split <;> (try simp only [List.length_cons]) <;> omega

theorem uncrossed_of_settled {b : Book} (h : WFcore b) (hs : Settled b) : Uncrossed b := by
  intro x hx y hy
  rcases hs with hs | hs | ⟨bp, bf, brest, ap, af, arest, hb, ha, hc⟩
  · rw [hs] at hx; cases hx
  · rw [hs] at hy; cases hy
  · have h1 := h.bidsOK.sorted
    have h2 := h.asksOK.sorted
    rw [hb] at h1 hx
    rw [ha] at h2 hy
    rw [List.pairwise_cons] at h1 h2
    have hxle : x.1 ≤ bp := by
      rcases List.mem_cons.1 hx with rfl | hx
      · exact le_refl _
      · exact le_of_lt (h1.1 x hx)
    have hyle : ap ≤ y.1 := by
      rcases List.mem_cons.1 hy with rfl | hy
      · exact le_refl _
      · exact le_of_lt (h2.1 y hy)
    exact lt_of_le_of_lt hxle (lt_of_lt_of_le hc hyle)

/-! ## `MatchOrders`, `addOrder`, `ModifyOrder` keep the book well formed -/

theorem cancelOrderLocked_held (b : Book) (orderId : OrderId) :
    (cancelOrderLocked Mutex.held b orderId).toOption = none := rfl

/-- The block after the outer loop returns only when the front order is not FillAndKill, and then
it leaves the book as it is. -/
theorem cancelFront_some {b b' : Book} {side : Levels}
    (hc : cancelFrontFillAndKill b side = some b') : b' = b ∧ FrontNotFaK side := by
  unfold cancelFrontFillAndKill at hc
  split at hc
  · simp only [Option.some.injEq] at hc
    exact ⟨hc.symm, fun p o os rest h => by cases h⟩
  · cases hc
  · rename_i p x xs rest
    split at hc
    · rw [cancelOrderLocked_held] at hc
      cases hc
    · rename_i hty
      simp only [Option.some.injEq] at hc
      refine ⟨hc.symm, fun p' o os rest' h => ?_⟩
      simp only [List.cons.injEq, Prod.mk.injEq] at h
      obtain ⟨⟨_, rfl, _⟩, _⟩ := h
      exact hty

theorem cancelFront_noop (b : Book) {side : Levels} (hne : NonemptyLevels side)
    (hty : FrontNotFaK side) : cancelFrontFillAndKill b side = some b := by
  unfold cancelFrontFillAndKill
  split
  · rfl
  · rename_i p rest
    exact absurd rfl (hne (p, []) (by simp))
  · rename_i p x xs rest
    rw [if_neg (hty p x xs rest rfl)]

theorem MatchOrders_some {b b' : Book} {ts : Trades} (hm : MatchOrders b = some (b', ts)) :
    matchLoop (b.bids.length + b.asks.length) b [] = some (b', ts) ∧
      FrontNotFaK b'.bids ∧ FrontNotFaK b'.asks := by
  unfold MatchOrders at hm
  cases hl : matchLoop (b.bids.length + b.asks.length) b [] with
  | none => rw [hl] at hm; cases hm
  | some r =>
    obtain ⟨b1, ts1⟩ := r
    rw [hl] at hm
    simp only at hm
    cases h1 : cancelFrontFillAndKill b1 b1.bids with
    | none => rw [h1] at hm; cases hm
    | some b2 =>
      rw [h1] at hm
      simp only at hm
      obtain ⟨rfl, hf1⟩ := cancelFront_some h1
      cases h2 : cancelFrontFillAndKill b2 b2.asks with
      | none => rw [h2] at hm; cases hm
      | some b3 =>
        rw [h2] at hm
        simp only [Option.some.injEq, Prod.mk.injEq] at hm
        obtain ⟨rfl, hf2⟩ := cancelFront_some h2
        obtain ⟨rfl, rfl⟩ := hm
        exact ⟨rfl, hf1, hf2⟩

theorem MatchOrders_of_loop {b b' : Book} {ts : Trades} (hw : WFm b)
    (hl : matchLoop (b.bids.length + b.asks.length) b [] = some (b', ts))
    (h1 : FrontNotFaK b'.bids) (h2 : FrontNotFaK b'.asks) : MatchOrders b = some (b', ts) := by
  have hw' := (matchLoop_WFm hw hl).1
  unfold MatchOrders
  rw [hl]
  simp only
  rw [cancelFront_noop b' hw'.bidsNonempty h1]
  simp only
  rw [cancelFront_noop b' hw'.asksNonempty h2]

theorem MatchOrders_WF {b b' : Book} {ts : Trades} (h : WFm b)
    (hm : MatchOrders b = some (b', ts)) : WF b' := by
  obtain ⟨hw1, hs1⟩ := matchLoop_WFm h (MatchOrders_some hm).1
  exact ⟨hw1, uncrossed_of_settled hw1.core hs1⟩

theorem promoteMarket_spec (b : Book) (o : Order) (ht : o.orderType = OrderType.Market) :
    promoteMarket b o = some none ∨
      ∃ p, promoteMarket b o = some (some { o with price := p, orderType := OrderType.GoodTillCancel }) := by
  unfold promoteMarket
  split
  · rename_i hc
    cases hg : b.asks.getLast? with
    | none => exact absurd (List.getLast?_eq_none_iff.1 hg) hc.2
    | some x =>
      right
      exact ⟨x.1, by simp [Order.toGoodTillCancel, ht]⟩
  · split
    · rename_i hc
      cases hg : b.bids.getLast? with
      | none => exact absurd (List.getLast?_eq_none_iff.1 hg) hc.2
      | some x =>
        right
        exact ⟨x.1, by simp [Order.toGoodTillCancel, ht]⟩
    · left; rfl

theorem addOrder_WF {b b' : Book} {o : Order} {ts : Trades} (h : WF b)
    (ha : addOrder b o = some (b', ts)) : WF b' := by
  unfold addOrder at ha
  split at ha
  · simp only [Option.some.injEq, Prod.mk.injEq] at ha
    rw [← ha.1]; exact h
  · rename_i hl
    have hl' : lookupKey o.orderId b.orders = none := by
      cases hc : lookupKey o.orderId b.orders with
      | none => rfl
      | some x => rw [hc] at hl; simp at hl
    split at ha
    · simp only [Option.some.injEq, Prod.mk.injEq] at ha
      rw [← ha.1]; exact h
    · split at ha
      · simp only [Option.some.injEq, Prod.mk.injEq] at ha
        rw [← ha.1]; exact h
      · split at ha
        · rename_i ht
          rcases promoteMarket_spec b o ht with hp | ⟨p, hp⟩
          · rw [hp] at ha
            simp only [Option.some.injEq, Prod.mk.injEq] at ha
            rw [← ha.1]; exact h
          · rw [hp] at ha
            simp only at ha
            exact MatchOrders_WF
              (insertOrder_WFm h.wfm
                (o := { o with price := p, orderType := OrderType.GoodTillCancel }) hl') ha
        · exact MatchOrders_WF (insertOrder_WFm h.wfm hl') ha

theorem ModifyOrder_WF {b b' : Book} {m : OrderModify} {ts : Trades} (h : WF b)
    (hm : ModifyOrder b m = some (b', ts)) : WF b' := by
  unfold ModifyOrder at hm
  split at hm
  · simp only [Option.some.injEq, Prod.mk.injEq] at hm
    rw [← hm.1]; exact h
  · obtain ⟨b1, h1, hw1⟩ := cancelOrderInternal_WF h m.orderId
    simp only [cancelOrder, h1] at hm
    exact addOrder_WF hw1 hm

theorem WF_empty : WF Book.empty := by
  refine ⟨⟨⟨⟨?_, ?_⟩, ⟨?_, ?_⟩, ⟨?_, ?_, ?_, ?_⟩⟩, ?_, ?_⟩, ?_⟩ <;>
    simp [Book.empty, allOrders, NonemptyLevels, Uncrossed]

/-! ## Reachable states -/

theorem Reachable.wf {b : Book} (h : Reachable b) : WF b := by
  induction h with
  | empty => exact WF_empty
  | add type orderId side price quantity _ _ he ih => exact addOrder_WF ih he
  | cancel orderId _ he ih =>
    obtain ⟨b2, he2, hw⟩ := cancelOrderInternal_WF ih orderId
    rw [cancelOrder, he2] at he
    simp only [Option.some.injEq] at he
    rw [← he]; exact hw
  | cancelMany orderIds _ he ih =>
    obtain ⟨b2, he2, hw⟩ := cancelOrders_WF ih orderIds
    rw [he2] at he
    simp only [Option.some.injEq] at he
    rw [← he]; exact hw
  | modify m _ _ he ih => exact ModifyOrder_WF ih he

theorem SideOK.keysNodup {s : Side} {R : Price → Price → Prop} (hirr : ∀ a, ¬ R a a)
    {ls : Levels} (h : SideOK s R ls) : (ls.map Prod.fst).Nodup := by
  rw [List.Nodup, List.pairwise_map]
  exact List.Pairwise.imp (S := fun a c => a.1 ≠ c.1)
    (fun hab heq => hirr _ (by rw [heq] at hab; exact hab)) h.sorted

theorem filter_id_eq_singleton {all : List Order} (hn : (all.map Order.orderId).Nodup)
    {o : Order} (ho : o ∈ all) :
    all.filter (fun x => decide (x.orderId = o.orderId)) = [o] := by
  induction all with
  | nil => cases ho
  | cons x xs ih =>
    rw [List.map_cons, List.nodup_cons] at hn
    rcases List.mem_cons.1 ho with rfl | hx
    · rw [List.filter_cons]
      simp only [decide_True, if_true, List.cons.injEq, true_and]
      rw [List.filter_eq_nil_iff]
      intro y hy hc
      simp only [decide_eq_true_eq] at hc
      exact hn.1 (hc ▸ List.mem_map_of_mem Order.orderId hy)
    · have hne : x.orderId ≠ o.orderId := by
        intro hc
        exact hn.1 (hc ▸ List.mem_map_of_mem Order.orderId hx)
      rw [List.filter_cons]
      simp only [hne, decide_False, Bool.false_eq_true, if_false]
      exact ih hn.2 hx

theorem mem_keys_iff_lookupKey {κ α : Type} [DecidableEq κ] {k : κ} {m : List (κ × α)} :
    k ∈ m.map Prod.fst ↔ (lookupKey k m).isSome = true := by
  induction m with
  | nil => simp [lookupKey]
  | cons e m ih =>
    obtain ⟨k', v⟩ := e
    by_cases h : k' = k
    · simp [lookupKey, h]
    · have h' : ¬ k = k' := fun hc => h hc.symm
      simp only [List.map_cons, List.mem_cons, h', false_or, lookupKey, h, if_false]
      exact ih

theorem restingBook0_reachable : Reachable restingBook0 :=
  @Reachable.add Book.empty restingBook0 [] OrderType.GoodTillCancel 1 Side.Buy 99 10
    Reachable.empty (by decide) (by decide)

theorem restingBook_reachable : Reachable restingBook :=
  @Reachable.add restingBook0 restingBook [] OrderType.GoodTillCancel 2 Side.Sell 101 5
    restingBook0_reachable (by decide) (by decide)

/-- C1. In every state reachable from the empty book by add, cancel, cancel_many and modify, the
bids are empty, or the asks are empty, or every bid price (so the highest one) is strictly below
every ask price (so the lowest one). -/
theorem no_crossed_book_at_rest {b : Book} (h : Reachable b) :
    b.bids = [] ∨ b.asks = [] ∨ ∀ x ∈ b.bids, ∀ y ∈ b.asks, x.1 < y.1 :=
  Or.inr (Or.inr h.wf.uncrossed)

theorem no_crossed_book_at_rest_witness :
    Reachable restingBook ∧
      (restingBook.bids = [] ∨ restingBook.asks = [] ∨
        ∀ x ∈ restingBook.bids, ∀ y ∈ restingBook.asks, x.1 < y.1) :=
  ⟨restingBook_reachable, no_crossed_book_at_rest restingBook_reachable⟩

/-- C2. In every reachable state: the index has one entry per id; every index entry `(id, o)` has
`o.orderId = id`, `o` is in the FIFO stored under `o.price` on the side `o.side`, and `o` is the one
and only FIFO entry of the whole book carrying that id; every order of every FIFO is in the index;
and no price key holds an empty FIFO. -/
theorem index_book_consistency {b : Book} (h : Reachable b) :
    (b.orders.map Prod.fst).Nodup ∧
    (∀ id o, (id, o) ∈ b.orders →
      o.orderId = id ∧
      (∃ fifo, lookupKey o.price (if o.side = Side.Buy then b.bids else b.asks) = some fifo ∧
        o ∈ fifo) ∧
      (allOrders b).filter (fun x => decide (x.orderId = id)) = [o]) ∧
    (∀ l ∈ b.bids ++ b.asks, ∀ o ∈ l.2, (o.orderId, o) ∈ b.orders) ∧
    (∀ l ∈ b.bids ++ b.asks, l.2 ≠ []) := by
  have hw := h.wf
  have hc := hw.wfm.core
  refine ⟨hc.indexOK.keysNodup, ?_, ?_, ?_⟩
  · intro id o hmem
    obtain ⟨hid, hall⟩ := hc.indexOK.sound _ hmem
    simp only at hid hall
    refine ⟨hid.symm, ?_, ?_⟩
    · by_cases hs : o.side = Side.Buy
      · have hb := (mem_side_of_mem_all hc hall).2 (by rw [hs]; decide)
        obtain ⟨l, hl, hol⟩ := mem_fifoOrders.1 hb
        have hp := (hc.bidsOK.level l hl o hol).2
        refine ⟨l.2, ?_, hol⟩
        rw [if_pos hs]
        apply lookupKey_of_mem (hc.bidsOK.keysNodup (R := fun a c => c < a) (fun a => lt_irrefl a))
        rw [hp]; exact hl
      · have hs' : o.side = Side.Sell := by
          cases hc' : o.side with
          | Buy => exact absurd hc' hs
          | Sell => rfl
        have ha := (mem_side_of_mem_all hc hall).1 hs'
        obtain ⟨l, hl, hol⟩ := mem_fifoOrders.1 ha
        have hp := (hc.asksOK.level l hl o hol).2
        refine ⟨l.2, ?_, hol⟩
        rw [if_neg hs]
        apply lookupKey_of_mem (hc.asksOK.keysNodup (R := fun a c => a < c) (fun a => lt_irrefl a))
        rw [hp]; exact hl
    · rw [hid]
      exact filter_id_eq_singleton hc.indexOK.idsNodup hall
  · intro l hl o ho
    apply hc.indexOK.complete
    unfold allOrders
    rcases List.mem_append.1 hl with hl | hl
    · exact List.mem_append_left _ (mem_fifoOrders.2 ⟨l, hl, ho⟩)
    · exact List.mem_append_right _ (mem_fifoOrders.2 ⟨l, hl, ho⟩)
  · intro l hl
    rcases List.mem_append.1 hl with hl | hl
    · exact hw.wfm.bidsNonempty l hl
    · exact hw.wfm.asksNonempty l hl

theorem index_book_consistency_witness :
    Reachable restingBook ∧
      ((restingBook.orders.map Prod.fst).Nodup ∧
      (∀ id o, (id, o) ∈ restingBook.orders →
        o.orderId = id ∧
        (∃ fifo, lookupKey o.price
            (if o.side = Side.Buy then restingBook.bids else restingBook.asks) = some fifo ∧
          o ∈ fifo) ∧
        (allOrders restingBook).filter (fun x => decide (x.orderId = id)) = [o]) ∧
      (∀ l ∈ restingBook.bids ++ restingBook.asks, ∀ o ∈ l.2,
        (o.orderId, o) ∈ restingBook.orders) ∧
      (∀ l ∈ restingBook.bids ++ restingBook.asks, l.2 ≠ [])) :=
  ⟨restingBook_reachable, index_book_consistency restingBook_reachable⟩

/-- C10. For every book state and every order: when the order's id is already a key of the index, or
the order is FillAndKill and `canMatch` is false for its side and price, or the order is Market
and the opposite side is empty, `addOrder` returns no trade and the book (bids, asks, index and
level data) is returned unchanged. -/
theorem rejected_admission_atomic (b : Book) (o : Order)
    (h : o.orderId ∈ b.orders.map Prod.fst ∨
      (o.orderType = OrderType.FillAndKill ∧ canMatch b o.side o.price = false) ∨
      (o.orderType = OrderType.Market ∧ (if o.side = Side.Buy then b.asks else b.bids) = [])) :
    addOrder b o = some (b, []) := by
  unfold addOrder
  split
  · rfl
  · rename_i hl
    rcases h with h | h | ⟨ht, he⟩
    · exact absurd (mem_keys_iff_lookupKey.1 h) hl
    · rw [if_pos h]
    · split
      · rfl
      · split
        · rfl
        · try rw [if_pos ht]
          have hp : promoteMarket b o = some none := by
            unfold promoteMarket
            by_cases hs : o.side = Side.Buy
            · rw [if_pos hs] at he
              simp [hs, he]
            · rw [if_neg hs] at he
              simp [hs, he]
          rw [hp]

theorem rejected_admission_atomic_witness :
    ((Order.new OrderType.Market 30 Side.Buy 0 5).orderId ∈ Book.empty.orders.map Prod.fst ∨
      ((Order.new OrderType.Market 30 Side.Buy 0 5).orderType = OrderType.FillAndKill ∧
        canMatch Book.empty (Order.new OrderType.Market 30 Side.Buy 0 5).side
          (Order.new OrderType.Market 30 Side.Buy 0 5).price = false) ∨
      ((Order.new OrderType.Market 30 Side.Buy 0 5).orderType = OrderType.Market ∧
        (if (Order.new OrderType.Market 30 Side.Buy 0 5).side = Side.Buy then Book.empty.asks
          else Book.empty.bids) = [])) ∧
    addOrder Book.empty (Order.new OrderType.Market 30 Side.Buy 0 5) = some (Book.empty, []) :=
  ⟨Or.inr (Or.inr ⟨rfl, rfl⟩),
    rejected_admission_atomic Book.empty (Order.new OrderType.Market 30 Side.Buy 0 5)
      (Or.inr (Or.inr ⟨rfl, rfl⟩))⟩

/-! ## Scenario evaluations -/

theorem bookS1a_reachable : Reachable bookS1a :=
  @Reachable.add Book.empty bookS1a [] OrderType.GoodTillCancel 1 Side.Buy 100 10
    Reachable.empty (by decide) (by decide)

theorem bookS1_reachable : Reachable bookS1 :=
  @Reachable.add bookS1a bookS1
    [{ bidTrade := { orderId := 1, price := 100, quantity := 6 }
       askTrade := { orderId := 2, price := 100, quantity := 6 } }]
    OrderType.GoodTillCancel 2 Side.Sell 100 6 bookS1a_reachable (by decide) (by decide)

theorem bookS1Cancelled_reachable : Reachable bookS1Cancelled :=
  @Reachable.cancel bookS1 bookS1Cancelled 1 bookS1_reachable (by decide)

theorem bookPhantom_reachable : Reachable bookPhantom :=
  @Reachable.add bookS1Cancelled bookPhantom [] OrderType.GoodTillCancel 3 Side.Sell 100 1
    bookS1Cancelled_reachable (by decide) (by decide)

theorem bookS7a_reachable : Reachable bookS7a :=
  @Reachable.add Book.empty bookS7a [] OrderType.GoodTillCancel 1 Side.Sell 100 3
    Reachable.empty (by decide) (by decide)

theorem bookS7_reachable : Reachable bookS7 :=
  @Reachable.add bookS7a bookS7 [] OrderType.GoodTillCancel 2 Side.Sell 105 10
    bookS7a_reachable (by decide) (by decide)

/-- C3 (defect). After scenario S1 (Buy id 1 at 100 for 10, then Sell id 2 at 100 for 6), a
reachable state, the FIFO of price 100 holds id 1 with remaining quantity 4, but `data_` has no
entry for price 100: the level entry does not exist although the resting sum is 4 > 0. -/
theorem level_aggregate_lost_after_same_price_cross :
    Reachable bookS1 ∧
      lookupKey 100 bookS1.bids = some [{ s1Bid with remainingQuantity := 4 }] ∧
      ((fifoOrders bookS1.bids).map Order.remainingQuantity).sum = 4 ∧
      lookupKey 100 bookS1.data = none :=
  ⟨bookS1_reachable, by decide, by decide, by decide⟩

/-- C6 (defect). From the reachable state `bookPhantom` (S1, cancel id 1, Sell id 3 at 100 for 1),
adding the FillOrKill order Buy id 4 at 100 for 5, whose id is not in the index, returns the single
trade of quantity 1 and leaves id 4 resting with remaining quantity 4. -/
theorem fillOrKill_partial_fill_rests :
    Reachable bookPhantom ∧ lookupKey 4 bookPhantom.orders = none ∧
      addOrder bookPhantom fokBid =
        some (bookFokRests,
          [{ bidTrade := { orderId := 4, price := 100, quantity := 1 }
             askTrade := { orderId := 3, price := 100, quantity := 1 } }]) ∧
      lookupKey 4 bookFokRests.orders = some { fokBid with remainingQuantity := 4 } :=
  ⟨bookPhantom_reachable, by decide, by decide, by decide⟩

/-- C7 (defect). In the reachable state after S1 the bids at price >= 100 hold a remaining
quantity of 4, yet `canFullyFill Sell 100 4` is false, and the FillOrKill order Sell id 3 at 100
for 4 is rejected with no trade. -/
theorem canFullyFill_misses_resting_quantity :
    Reachable bookS1 ∧
      (((fifoOrders bookS1.bids).filter (fun o => decide (o.price ≥ 100))).map
        Order.remainingQuantity).sum = 4 ∧
      canFullyFill bookS1 Side.Sell 100 4 = false ∧
      addOrder bookS1 (Order.new OrderType.FillOrKill 3 Side.Sell 100 4) = some (bookS1, []) :=
  ⟨bookS1_reachable, by decide, by decide, by decide⟩

/-- C9 (as stated, refuted). On the book of S7 (asks 100:3 and 105:10, reachable by two adds) the
Market buy id 31 for 4 returns two trades, 3 with id 1 at 100 and then 1 with id 2 at 105, and id 31
is not in the index afterwards: the add neither returns exactly one trade nor leaves id 31
resting. -/
theorem market_promoted_S7_as_stated_fails :
    Reachable bookS7 ∧
    addOrder bookS7 (Order.new OrderType.Market 31 Side.Buy 0 4) =
      some (bookS7After,
        [{ bidTrade := { orderId := 31, price := 105, quantity := 3 }
           askTrade := { orderId := 1, price := 100, quantity := 3 } },
         { bidTrade := { orderId := 31, price := 105, quantity := 1 }
           askTrade := { orderId := 2, price := 105, quantity := 1 } }]) ∧
    ¬ ∃ (b' : Book) (ts : Trades),
      addOrder bookS7 (Order.new OrderType.Market 31 Side.Buy 0 4) = some (b', ts) ∧
      (ts.length = 1 ∨ ∃ o, lookupKey 31 b'.orders = some o) := by
  have h : addOrder bookS7 (Order.new OrderType.Market 31 Side.Buy 0 4) =
      some (bookS7After,
        [{ bidTrade := { orderId := 31, price := 105, quantity := 3 }
           askTrade := { orderId := 1, price := 100, quantity := 3 } },
         { bidTrade := { orderId := 31, price := 105, quantity := 1 }
           askTrade := { orderId := 2, price := 105, quantity := 1 } }]) := by decide
  refine ⟨bookS7_reachable, h, ?_⟩
  rintro ⟨b', ts, h1, h2⟩
  rw [h] at h1
  simp only [Option.some.injEq, Prod.mk.injEq] at h1
  obtain ⟨rfl, rfl⟩ := h1
  rcases h2 with h2 | ⟨o, h2⟩
  · simp at h2
  · have : lookupKey 31 bookS7After.orders = none := by decide
    rw [this] at h2
    cases h2

/-! ## A FillAndKill order does not rest -/

theorem lookupKey_none_iff_not_mem {κ α : Type} [DecidableEq κ] {k : κ} {m : List (κ × α)} :
    lookupKey k m = none ↔ k ∉ m.map Prod.fst := by
  rw [mem_keys_iff_lookupKey]
  cases lookupKey k m <;> simp

theorem lookupKey_replaceKey_none {κ α : Type} [DecidableEq κ] {k k' : κ} {v : α}
    {m : List (κ × α)} (h : lookupKey k m = none) : lookupKey k (replaceKey k' v m) = none := by
  rw [lookupKey_none_iff_not_mem] at h ⊢
  rw [map_fst_replaceKey]; exact h

theorem lookupKey_eraseKey_none {κ α : Type} [DecidableEq κ] {k k' : κ}
    {m : List (κ × α)} (h : lookupKey k m = none) : lookupKey k (eraseKey k' m) = none := by
  rw [lookupKey_eq_none] at h ⊢
  intro e he
  exact h e (mem_eraseKey.1 he).1

theorem lookupKey_stepIndex_none {k : OrderId} {orders : List (OrderId × Order)} (n : Order)
    (h : lookupKey k orders = none) : lookupKey k (stepIndex orders n) = none := by
  unfold stepIndex
  split
  · exact lookupKey_eraseKey_none h
  · exact lookupKey_replaceKey_none h

theorem lookupKey_stepIndex_filled {orders : List (OrderId × Order)} {n : Order}
    (h : n.isFilled = true) : lookupKey n.orderId (stepIndex orders n) = none := by
  unfold stepIndex
  rw [if_pos h]
  exact lookupKey_eraseKey_self

theorem pushOrder_front {f : Price → Price → Bool} {price : Price} {o : Order} {ls : Levels}
    (h1 : ∀ l ∈ ls, f price l.1 = true) (h2 : ∀ l ∈ ls, l.1 ≠ price) :
    pushOrder f price o ls = (price, [o]) :: ls := by
  cases ls with
  | nil => rfl
  | cons x xs =>
    obtain ⟨p, os⟩ := x
    have e1 : p ≠ price := h2 (p, os) (by simp)
    have e2 : f price p = true := h1 (p, os) (by simp)
    simp [pushOrder, e1, e2]

theorem frontOrGone_step {s : Side} {id : OrderId} {b : Book} {bp ap : Price} {bid ask : Order}
    {bt at_ : List Order} {brest arest : Levels} (h : FrontOrGone s id b)
    (hb : b.bids = (bp, bid :: bt) :: brest) (ha : b.asks = (ap, ask :: at_) :: arest) :
    FrontOrGone s id (stepBook b bp bid bt brest ap ask at_ arest) := by
  rcases h with h | ⟨p, t, tt, rest, hown, hid, hty⟩
  · left
    exact lookupKey_stepIndex_none _ (lookupKey_stepIndex_none _ h)
  · cases s with
    | Buy =>
      simp only [ownSide] at hown
      rw [hb] at hown
      simp only [List.cons.injEq, Prod.mk.injEq] at hown
      obtain ⟨⟨rfl, rfl, rfl⟩, rfl⟩ := hown
      by_cases hf : (afterFill bid (min bid.remainingQuantity ask.remainingQuantity)).isFilled = true
      · left
        apply lookupKey_stepIndex_none
        rw [← hid]
        exact lookupKey_stepIndex_filled hf
      · right
        refine ⟨bp, afterFill bid (min bid.remainingQuantity ask.remainingQuantity), bt, brest,
          ?_, hid, hty⟩
        simp [ownSide, stepBook, stepFifo, hf]
    | Sell =>
      simp only [ownSide] at hown
      rw [ha] at hown
      simp only [List.cons.injEq, Prod.mk.injEq] at hown
      obtain ⟨⟨rfl, rfl, rfl⟩, rfl⟩ := hown
      by_cases hf : (afterFill ask (min bid.remainingQuantity ask.remainingQuantity)).isFilled = true
      · left
        rw [← hid]
        exact lookupKey_stepIndex_filled hf
      · right
        refine ⟨ap, afterFill ask (min bid.remainingQuantity ask.remainingQuantity), at_, arest,
          ?_, hid, hty⟩
        simp [ownSide, stepBook, stepFifo, hf]

theorem eraseEmptiedBids_of_nonempty {b : Book} {bp : Price} {x : Order} {xs : List Order}
    {rest : Levels} (hb : b.bids = (bp, x :: xs) :: rest) : eraseEmptiedBids b bp = b := by
  unfold eraseEmptiedBids
  rw [hb]
  simp [lookupKey]

theorem eraseEmptiedAsks_of_nonempty {b : Book} {ap : Price} {x : Order} {xs : List Order}
    {rest : Levels} (ha : b.asks = (ap, x :: xs) :: rest) : eraseEmptiedAsks b ap = b := by
  unfold eraseEmptiedAsks
  rw [ha]
  simp [lookupKey]

theorem frontOrGone_erase {s : Side} {id : OrderId} {b : Book} {bp ap : Price}
    {bf af : List Order} {brest arest : Levels} (h : FrontOrGone s id b)
    (hb : b.bids = (bp, bf) :: brest) (ha : b.asks = (ap, af) :: arest) :
    FrontOrGone s id (eraseEmptied b bp ap) := by
  rcases h with h | ⟨p, t, tt, rest, hown, hid, hty⟩
  · left
    rw [eraseEmptied_orders]; exact h
  · right
    cases s with
    | Buy =>
      simp only [ownSide] at hown
      have e := hb.symm.trans hown
      simp only [List.cons.injEq, Prod.mk.injEq] at e
      obtain ⟨⟨rfl, rfl⟩, rfl⟩ := e
      refine ⟨bp, t, tt, brest, ?_, hid, hty⟩
      simp only [ownSide, eraseEmptied]
      rw [eraseEmptiedAsks_bids, eraseEmptiedBids_of_nonempty hb]
      exact hb
    | Sell =>
      simp only [ownSide] at hown
      have e := ha.symm.trans hown
      simp only [List.cons.injEq, Prod.mk.injEq] at e
      obtain ⟨⟨rfl, rfl⟩, rfl⟩ := e
      refine ⟨ap, t, tt, arest, ?_, hid, hty⟩
      simp only [ownSide, eraseEmptied]
      have ha' : (eraseEmptiedBids b bp).asks = (ap, t :: tt) :: arest :=
        (eraseEmptiedBids_asks b bp).trans ha
      rw [eraseEmptiedAsks_of_nonempty ha']
      exact ha'

theorem matchLoop_frontOrGone {s : Side} {id : OrderId} {n : Nat} {b b' : Book} {ts ts' : Trades}
    (h : FrontOrGone s id b) (hm : matchLoop n b ts = some (b', ts')) : FrontOrGone s id b' :=
  (matchLoop_induct (P := fun b _ => FrontOrGone s id b) (Q := fun b _ => FrontOrGone s id b)
    (fun _ _ h => h)
    (fun _ _ _ _ _ _ _ _ _ _ hP _ hb ha => frontOrGone_step hP hb ha)
    (fun _ _ _ _ _ _ _ _ hP _ hb ha _ => frontOrGone_erase hP hb ha)
    n b ts h b' ts' hm).1

theorem cancelOrderInternal_other_side {b b' : Book} {id : OrderId} {o : Order}
    (hl : lookupKey id b.orders = some o) (hc : cancelOrderInternal b id = some b') :
    (o.side = Side.Sell → b'.bids = b.bids) ∧ (o.side ≠ Side.Sell → b'.asks = b.asks) := by
  unfold cancelOrderInternal at hc
  rw [hl] at hc
  simp only at hc
  by_cases hs : o.side = Side.Sell
  · rw [if_pos hs] at hc
    cases he : eraseFromLevels b.asks o with
    | none => rw [he] at hc; cases hc
    | some x =>
      rw [he] at hc
      simp only [Option.some.injEq] at hc
      subst hc
      exact ⟨fun _ => rfl, fun h => absurd hs h⟩
  · rw [if_neg hs] at hc
    cases he : eraseFromLevels b.bids o with
    | none => rw [he] at hc; cases hc
    | some x =>
      rw [he] at hc
      simp only [Option.some.injEq] at hc
      subst hc
      exact ⟨fun h => absurd h hs, fun _ => rfl⟩

/-- When `MatchOrders` returns, an order that was out of the index or the FillAndKill front order
of its side is out of the index. -/
theorem MatchOrders_frontOrGone {s : Side} {id : OrderId} {b b' : Book} {ts : Trades}
    (hg : FrontOrGone s id b) (hm : MatchOrders b = some (b', ts)) :
    lookupKey id b'.orders = none := by
  obtain ⟨hloop, hf1, hf2⟩ := MatchOrders_some hm
  rcases matchLoop_frontOrGone hg hloop with hnone | ⟨p, t, tt, rest, hown, _, hty⟩
  · exact hnone
  · exfalso
    cases s with
    | Buy => exact hf1 p t tt rest hown hty
    | Sell => exact hf2 p t tt rest hown hty

theorem insertOrder_frontIs {b : Book} (h : WF b) {o : Order}
    (hty : o.orderType = OrderType.FillAndKill) (hc : canMatch b o.side o.price = true) :
    FrontIs o.side o.orderId (insertOrder b o) := by
  cases hs : o.side with
  | Buy =>
    rw [hs] at hc
    simp only [canMatch] at hc
    cases ha : b.asks with
    | nil => rw [ha] at hc; simp at hc
    | cons y arest =>
      obtain ⟨ap, af⟩ := y
      rw [ha] at hc
      simp only [ge_iff_le, decide_eq_true_eq] at hc
      have hlt : ∀ l ∈ b.bids, l.1 < o.price := fun l hl =>
        lt_of_lt_of_le (h.uncrossed l hl (ap, af) (by rw [ha]; simp)) hc
      refine ⟨o.price, o, [], b.bids, ?_, rfl, hty⟩
      simp only [ownSide, insertOrder, hs, if_true]
      exact pushOrder_front (fun l hl => by simpa [bidBefore] using hlt l hl)
        (fun l hl => ne_of_lt (hlt l hl))
  | Sell =>
    rw [hs] at hc
    simp only [canMatch] at hc
    cases hb : b.bids with
    | nil => rw [hb] at hc; simp at hc
    | cons y brest =>
      obtain ⟨bp, bf⟩ := y
      rw [hb] at hc
      simp only [decide_eq_true_eq] at hc
      have hlt : ∀ l ∈ b.asks, o.price < l.1 := fun l hl =>
        lt_of_le_of_lt hc (h.uncrossed (bp, bf) (by rw [hb]; simp) l hl)
      refine ⟨o.price, o, [], b.asks, ?_, rfl, hty⟩
      simp only [ownSide, insertOrder, hs, reduceCtorEq, if_false]
      exact pushOrder_front (fun l hl => by simpa [askBefore] using hlt l hl)
        (fun l hl => ne_of_gt (hlt l hl))

/-- When `addOrder` of a FillAndKill order with a fresh id returns, the id is not in the index. -/
theorem addOrder_fillAndKill_gone {b b' : Book} (h : WF b) {o : Order} {ts : Trades}
    (hty : o.orderType = OrderType.FillAndKill) (hl : lookupKey o.orderId b.orders = none)
    (ha : addOrder b o = some (b', ts)) : lookupKey o.orderId b'.orders = none := by
  by_cases hc : canMatch b o.side o.price = true
  · have hfront := insertOrder_frontIs h hty hc
    have hm : MatchOrders (insertOrder b o) = some (b', ts) := by
      simpa [addOrder, hl, hty, hc] using ha
    exact MatchOrders_frontOrGone (Or.inr hfront) hm
  · have hc' : canMatch b o.side o.price = false := by
      cases hx : canMatch b o.side o.price with
      | true => exact absurd hx hc
      | false => rfl
    simp only [addOrder, hl, hty, hc', Option.isSome_none, Bool.false_eq_true, if_false,
      and_self, if_true, Option.some.injEq, Prod.mk.injEq] at ha
    rw [← ha.1]
    exact hl

/-- C8 (refuted on the code). On the reachable book holding one bid (Buy GoodTillCancel id 1 at 99
for 10), `addOrder` of Sell FillAndKill id 2 at 99 for 15 does not return: the matching loop
trades 10 and leaves the remainder of id 2 (5) as the front ask, in its FIFO and in the index, and
the cancel of that remainder by the block after the loop is a call of `cancelOrder`, which ends in
an attempt to lock the mutex that `addOrder` holds.  The remainder is never cancelled.  On the
same book the FillAndKill order that does not cross (at 100) is rejected and the one that is
filled in full (for 10) returns its trade and leaves the book empty. -/
theorem fillAndKill_remainder_not_cancelled :
    Reachable restingBook0 ∧
    2 ∉ restingBook0.orders.map Prod.fst ∧
    addOrder restingBook0 (Order.new OrderType.FillAndKill 2 Side.Sell 99 15) = none ∧
    addOrderLocked Mutex.free restingBook0 (Order.new OrderType.FillAndKill 2 Side.Sell 99 15)
      = Except.error Fault.relock ∧
    (∃ b1, matchLoop 2
        (insertOrder restingBook0 (Order.new OrderType.FillAndKill 2 Side.Sell 99 15)) []
        = some (b1, [{ bidTrade := { orderId := 1, price := 99, quantity := 10 }
                       askTrade := { orderId := 2, price := 99, quantity := 10 } }]) ∧
      b1.bids = [] ∧
      b1.asks = [(99, [{ orderId := 2, side := Side.Sell, orderType := OrderType.FillAndKill,
                         price := 99, initialQuantity := 15, remainingQuantity := 5 }])] ∧
      lookupKey 2 b1.orders =
        some { orderId := 2, side := Side.Sell, orderType := OrderType.FillAndKill,
               price := 99, initialQuantity := 15, remainingQuantity := 5 } ∧
      cancelFrontFillAndKill b1 b1.bids = some b1 ∧
      cancelFrontFillAndKill b1 b1.asks = none ∧
      cancelOrderLocked Mutex.held b1 2 = Except.error Fault.relock) ∧
    addOrder restingBook0 (Order.new OrderType.FillAndKill 2 Side.Sell 100 15)
      = some (restingBook0, []) ∧
    addOrder restingBook0 (Order.new OrderType.FillAndKill 2 Side.Sell 99 10)
      = some ({ bids := [], asks := [], orders := [], data := [] },
          [{ bidTrade := { orderId := 1, price := 99, quantity := 10 }
             askTrade := { orderId := 2, price := 99, quantity := 10 } }]) :=
  ⟨restingBook0_reachable, by decide, by decide, rfl, ⟨_, rfl, rfl, rfl, rfl, rfl, rfl, rfl⟩,
    by decide, by decide⟩

/-! ## Side-generic view of a matching step -/

theorem step_sides (s : Side) {b : Book} {bp ap : Price} {bid ask : Order}
    {bt at_ : List Order} {brest arest : Levels}
    (hb : b.bids = (bp, bid :: bt) :: brest) (ha : b.asks = (ap, ask :: at_) :: arest) :
    ∃ pt t tt orest pm m mt mrest,
      ownSide s b = (pt, t :: tt) :: orest ∧ oppSide s b = (pm, m :: mt) :: mrest ∧
      (apart s pt pm ↔ bp < ap) ∧
      ownSide s (stepBook b bp bid bt brest ap ask at_ arest) =
        (pt, stepFifo (afterFill t (min t.remainingQuantity m.remainingQuantity)) tt) :: orest ∧
      oppSide s (stepBook b bp bid bt brest ap ask at_ arest) =
        (pm, stepFifo (afterFill m (min t.remainingQuantity m.remainingQuantity)) mt) :: mrest ∧
      stepTrade bid ask = takerTrade s t m (min t.remainingQuantity m.remainingQuantity) := by
  cases s with
  | Buy =>
    exact ⟨bp, bid, bt, brest, ap, ask, at_, arest, hb, ha, Iff.rfl, rfl, rfl, rfl⟩
  | Sell =>
    refine ⟨ap, ask, at_, arest, bp, bid, bt, brest, ha, hb, Iff.rfl, ?_, ?_, ?_⟩
    · simp only [ownSide, stepBook, min_comm]
    · simp only [oppSide, stepBook, min_comm]
    · simp only [stepTrade, takerTrade, min_comm]

theorem erase_sides (s : Side) {b : Book} {bp ap : Price} {bf af : List Order}
    {brest arest : Levels} (h : WFi b)
    (hb : b.bids = (bp, bf) :: brest) (ha : b.asks = (ap, af) :: arest) :
    ∃ po fo orest pm fm mrest,
      ownSide s b = (po, fo) :: orest ∧ oppSide s b = (pm, fm) :: mrest ∧
      (apart s po pm ↔ bp < ap) ∧
      ownSide s (eraseEmptied b bp ap) = (if fo = [] then orest else (po, fo) :: orest) ∧
      oppSide s (eraseEmptied b bp ap) = (if fm = [] then mrest else (pm, fm) :: mrest) := by
  have hbo := h.core.bidsOK
  have hao := h.core.asksOK
  rw [hb] at hbo
  rw [ha] at hao
  have e1 := eraseEmptied_bids ap hb (hbo.head_keys (R := fun a c => c < a) (fun a => lt_irrefl a))
  have e2 := eraseEmptied_asks bp ha (hao.head_keys (R := fun a c => a < c) (fun a => lt_irrefl a))
  cases s with
  | Buy => exact ⟨bp, bf, brest, ap, af, arest, hb, ha, Iff.rfl, e1, e2⟩
  | Sell => exact ⟨ap, af, arest, bp, bf, brest, ha, hb, Iff.rfl, e2, e1⟩

theorem afterFill_zero (o : Order) : afterFill o 0 = o := by
  cases o; simp [afterFill]

theorem afterFill_afterFill (o : Order) (x y : Nat) :
    afterFill (afterFill o x) y = afterFill o (x + y) := by
  simp [afterFill, Nat.sub_sub]

theorem takerTrade_afterFill (s : Side) (t m : Order) (x q : Nat) :
    takerTrade s (afterFill t x) m q = takerTrade s t m q := by
  cases s <;> rfl

theorem drop_eq_cons {α : Type} {l : List α} {k : Nat} {x : α} {r : List α}
    (h : l.drop k = x :: r) :
    l.drop (k + 1) = r ∧ l.take (k + 1) = l.take k ++ [x] := by
  induction l generalizing k with
  | nil => simp at h
  | cons a l ih =>
    cases k with
    | zero =>
      simp only [List.drop_zero, List.cons.injEq] at h
      obtain ⟨rfl, rfl⟩ := h
      simp
    | succ k =>
      simp only [List.drop_succ_cons] at h
      obtain ⟨h1, h2⟩ := ih h
      exact ⟨by simpa using h1, by simp [h2]⟩

theorem restingQty_append (l1 l2 : List Order) :
    restingQty (l1 ++ l2) = restingQty l1 + restingQty l2 := by
  simp [restingQty]

theorem restingQty_singleton (o : Order) : restingQty [o] = o.remainingQuantity := by
  simp [restingQty]

theorem stepFifo_filled {n : Order} (h : n.remainingQuantity = 0) (t : List Order) :
    stepFifo n t = t := by
  simp [stepFifo, Order.isFilled, h]

theorem stepFifo_unfilled {n : Order} (h : n.remainingQuantity ≠ 0) (t : List Order) :
    stepFifo n t = n :: t := by
  simp [stepFifo, Order.isFilled, h]

/-! ## The sweep invariant -/

theorem sweep_step {s : Side} {t0 : Order} {O : Levels} {M0 : List Order} {b : Book}
    {ts : Trades} {bp ap : Price} {bid ask : Order} {bt at_ : List Order} {brest arest : Levels}
    (h : Sweep s t0 O M0 b ts) (hc : ¬ bp < ap)
    (hb : b.bids = (bp, bid :: bt) :: brest) (ha : b.asks = (ap, ask :: at_) :: arest) :
    Sweep s t0 O M0 (stepBook b bp bid bt brest ap ask at_ arest) (ts ++ [stepTrade bid ask]) := by
  obtain ⟨pt, t, tt, orest, pm, m, mt, mrest, hown, hopp, hap, hown', hopp', htr⟩ :=
    step_sides s hb ha
  obtain ⟨hapart, hph⟩ := h
  have hapart' : ∀ x ∈ O, ∀ y ∈ oppSide s (stepBook b bp bid bt brest ap ask at_ arest),
      apart s x.1 y.1 := by
    intro x hx y hy
    rw [hopp'] at hy
    rcases List.mem_cons.1 hy with rfl | hy
    · exact hapart x hx (pm, m :: mt) (by rw [hopp]; simp)
    · exact hapart x hx y (by rw [hopp]; exact List.mem_cons_of_mem _ hy)
  refine ⟨hapart', ?_⟩
  rcases hph with ⟨k, hle, hownk, hfifo, hts⟩ | ⟨k, m', _, _, _, hownk, _, _⟩
  · have e := hown.symm.trans hownk
    simp only [List.cons.injEq, Prod.mk.injEq] at e
    obtain ⟨⟨rfl, rfl, rfl⟩, rfl⟩ := e
    rw [hopp] at hfifo
    simp only [fifoOrders_cons, List.cons_append] at hfifo
    obtain ⟨hdrop, htake⟩ := drop_eq_cons hfifo.symm
    rw [htr, hts]
    by_cases hcase : (afterFill t0 (restingQty (M0.take k))).remainingQuantity ≤ m.remainingQuantity
    · right
      have hq : min (afterFill t0 (restingQty (M0.take k))).remainingQuantity m.remainingQuantity
          = t0.remainingQuantity - restingQty (M0.take k) := by
        rw [min_eq_left hcase]; rfl
      refine ⟨k, m, ?_, hle, hcase, Or.inl ?_, ?_, ?_⟩
      · rw [hdrop]; exact hfifo.symm
      · rw [hown', hq]
        rw [stepFifo_filled]
        simp [afterFill]
      · rw [hopp', hq]
        simp only [fifoOrders_cons]
        rw [stepFifo_append, hdrop]
      · rw [hq, takerTrade_afterFill]
    · left
      have hlt : (m.remainingQuantity : Nat) <
          (t0.remainingQuantity : Nat) - restingQty (M0.take k) := not_le.1 hcase
      have hq : min (afterFill t0 (restingQty (M0.take k))).remainingQuantity m.remainingQuantity
          = m.remainingQuantity := min_eq_right (le_of_lt hlt)
      have hsum : restingQty (M0.take (k + 1)) = restingQty (M0.take k) + m.remainingQuantity := by
        rw [htake, restingQty_append, restingQty_singleton]
      dsimp only [Quantity] at hlt
      refine ⟨k + 1, ?_, ?_, ?_, ?_⟩
      · rw [hsum]; omega
      · rw [hown', hq, afterFill_afterFill, hsum]
        rw [stepFifo_unfilled]
        have hne : (t0.remainingQuantity : Nat) -
            (restingQty (M0.take k) + m.remainingQuantity) ≠ 0 := by
          dsimp only [Quantity] at *
          omega
        exact hne
      · rw [hopp', hq]
        simp only [fifoOrders_cons]
        rw [stepFifo_filled (by simp [afterFill]), hdrop]
      · rw [hq, takerTrade_afterFill, htake, List.map_append]
        rfl
  · exfalso
    rcases hownk with hownk | hownk
    · rw [hown] at hownk
      simp at hownk
    · apply hc
      rw [← hap]
      exact hapart (pt, t :: tt) (by rw [← hownk, hown]; simp) (pm, m :: mt) (by rw [hopp]; simp)

theorem fifoOrders_ite_nil {p : Price} {f : List Order} {rest : Levels} :
    fifoOrders (if f = [] then rest else (p, f) :: rest) = fifoOrders ((p, f) :: rest) := by
  split
  · rename_i hc; subst hc; simp
  · rfl

theorem mem_ite_nil {p : Price} {f : List Order} {rest : Levels} {y : Price × List Order}
    (hy : y ∈ (if f = [] then rest else (p, f) :: rest)) : y ∈ (p, f) :: rest := by
  split at hy
  · exact List.mem_cons_of_mem _ hy
  · exact hy

theorem sweep_erase {s : Side} {t0 : Order} {O : Levels} {M0 : List Order} {b : Book}
    {ts : Trades} {bp ap : Price} {bf af : List Order} {brest arest : Levels}
    (hw : WFi b) (h : Sweep s t0 O M0 b ts) (hc : ¬ bp < ap)
    (hb : b.bids = (bp, bf) :: brest) (ha : b.asks = (ap, af) :: arest) :
    Sweep s t0 O M0 (eraseEmptied b bp ap) ts := by
  obtain ⟨po, fo, orest, pm, fm, mrest, hown, hopp, hap, hown', hopp'⟩ := erase_sides s hw hb ha
  obtain ⟨hapart, hph⟩ := h
  have hapart' : ∀ x ∈ O, ∀ y ∈ oppSide s (eraseEmptied b bp ap), apart s x.1 y.1 := by
    intro x hx y hy
    rw [hopp'] at hy
    exact hapart x hx y (by rw [hopp]; exact mem_ite_nil hy)
  have hfo : fifoOrders (oppSide s (eraseEmptied b bp ap)) = fifoOrders (oppSide s b) := by
    rw [hopp', hopp]; exact fifoOrders_ite_nil
  refine ⟨hapart', ?_⟩
  rcases hph with ⟨k, hle, hownk, hfifo, hts⟩ | ⟨k, m, hd, hle, hr, hownk, hfifo, hts⟩
  · left
    refine ⟨k, hle, ?_, hfo.trans hfifo, hts⟩
    have e := hown.symm.trans hownk
    simp only [List.cons.injEq, Prod.mk.injEq] at e
    obtain ⟨⟨rfl, rfl⟩, rfl⟩ := e
    rw [hown']
    simp
  · right
    refine ⟨k, m, hd, hle, hr, ?_, hfo.trans hfifo, hts⟩
    rcases hownk with hownk | hownk
    · have e := hown.symm.trans hownk
      simp only [List.cons.injEq, Prod.mk.injEq] at e
      obtain ⟨⟨rfl, rfl⟩, rfl⟩ := e
      right
      rw [hown']
      simp
    · exfalso
      apply hc
      rw [← hap]
      exact hapart (po, fo) (by rw [← hownk, hown]; simp) (pm, fm) (by rw [hopp]; simp)

theorem matchLoop_sweep {s : Side} {t0 : Order} {O : Levels} {M0 : List Order} {n : Nat}
    {b b' : Book} {ts ts' : Trades} (hw : WFm b) (h : Sweep s t0 O M0 b ts)
    (hm : matchLoop n b ts = some (b', ts')) : Sweep s t0 O M0 b' ts' :=
  (matchLoop_induct (P := fun b ts => WFi b ∧ Sweep s t0 O M0 b ts)
    (Q := fun b ts => WFm b ∧ Sweep s t0 O M0 b ts)
    (fun _ _ h => ⟨h.1.toWFi, h.2⟩)
    (fun _ _ _ _ _ _ _ _ _ _ hP hc hb ha => ⟨stepBook_WFi hP.1 hb ha, sweep_step hP.2 hc hb ha⟩)
    (fun _ _ _ _ _ _ _ _ hP hc hb ha _ =>
      ⟨(eraseEmptied_WFm hP.1 hb ha).1, sweep_erase hP.1 hP.2 hc hb ha⟩)
    n b ts ⟨hw, h⟩ b' ts' hm).1.2

/-! ## Price-time priority -/

theorem insertOrder_front {b : Book} (h : WF b) {o : Order}
    (hc : canMatch b o.side o.price = true) :
    ownSide o.side (insertOrder b o) = (o.price, [o]) :: ownSide o.side b ∧
      oppSide o.side (insertOrder b o) = oppSide o.side b := by
  cases hs : o.side with
  | Buy =>
    rw [hs] at hc
    simp only [canMatch] at hc
    cases ha : b.asks with
    | nil => rw [ha] at hc; simp at hc
    | cons y arest =>
      obtain ⟨ap, af⟩ := y
      rw [ha] at hc
      simp only [ge_iff_le, decide_eq_true_eq] at hc
      have hlt : ∀ l ∈ b.bids, l.1 < o.price := fun l hl =>
        lt_of_lt_of_le (h.uncrossed l hl (ap, af) (by rw [ha]; simp)) hc
      refine ⟨?_, ?_⟩
      · simp only [ownSide, insertOrder, hs, if_true]
        exact pushOrder_front (fun l hl => by simpa [bidBefore] using hlt l hl)
          (fun l hl => ne_of_lt (hlt l hl))
      · simp only [oppSide, insertOrder, hs, if_true]
  | Sell =>
    rw [hs] at hc
    simp only [canMatch] at hc
    cases hb : b.bids with
    | nil => rw [hb] at hc; simp at hc
    | cons y brest =>
      obtain ⟨bp, bf⟩ := y
      rw [hb] at hc
      simp only [decide_eq_true_eq] at hc
      have hlt : ∀ l ∈ b.asks, o.price < l.1 := fun l hl =>
        lt_of_le_of_lt hc (h.uncrossed (bp, bf) (by rw [hb]; simp) l hl)
      refine ⟨?_, ?_⟩
      · simp only [ownSide, insertOrder, hs, reduceCtorEq, if_false]
        exact pushOrder_front (fun l hl => by simpa [askBefore] using hlt l hl)
          (fun l hl => ne_of_gt (hlt l hl))
      · simp only [oppSide, insertOrder, hs, reduceCtorEq, if_false, ← hb]

theorem settled_of_uncrossed {b : Book} (h : Uncrossed b) : Settled b := by
  cases hb : b.bids with
  | nil => left; exact hb
  | cons x brest =>
    cases ha : b.asks with
    | nil => right; left; exact ha
    | cons y arest =>
      right; right
      exact ⟨x.1, x.2, brest, y.1, y.2, arest, hb, ha,
        h x (by rw [hb]; simp) y (by rw [ha]; simp)⟩

theorem insertOrder_uncrossed {b : Book} (h : WF b) {o : Order}
    (hc : canMatch b o.side o.price = false) : Uncrossed (insertOrder b o) := by
  intro x hx y hy
  cases hs : o.side with
  | Buy =>
    rw [hs] at hc
    simp only [insertOrder, hs, if_true] at hx hy
    rcases pushOrder_keys x hx with hk | ⟨x0, hx0, hk⟩
    · simp only [canMatch] at hc
      cases ha : b.asks with
      | nil => rw [ha] at hy; cases hy
      | cons z arest =>
        obtain ⟨ap, af⟩ := z
        rw [ha] at hc hy
        simp only [ge_iff_le, decide_eq_false_iff_not, not_le] at hc
        have hs2 := h.wfm.core.asksOK.sorted
        rw [ha, List.pairwise_cons] at hs2
        rw [hk]
        rcases List.mem_cons.1 hy with rfl | hy
        · exact hc
        · exact lt_trans hc (hs2.1 y hy)
    · rw [← hk]; exact h.uncrossed x0 hx0 y hy
  | Sell =>
    rw [hs] at hc
    simp only [insertOrder, hs, reduceCtorEq, if_false] at hx hy
    rcases pushOrder_keys y hy with hk | ⟨y0, hy0, hk⟩
    · simp only [canMatch] at hc
      cases hb : b.bids with
      | nil => rw [hb] at hx; cases hx
      | cons z brest =>
        obtain ⟨bp, bf⟩ := z
        rw [hb] at hc hx
        simp only [decide_eq_false_iff_not, not_le] at hc
        have hs2 := h.wfm.core.bidsOK.sorted
        rw [hb, List.pairwise_cons] at hs2
        rw [hk]
        rcases List.mem_cons.1 hx with rfl | hx
        · exact hc
        · exact lt_trans (hs2.1 x hx) hc
    · rw [← hk]; exact h.uncrossed x hx y0 hy0

theorem apart_of_uncrossed {b : Book} (h : Uncrossed b) (s : Side) :
    ∀ x ∈ ownSide s b, ∀ y ∈ oppSide s b, apart s x.1 y.1 := by
  cases s with
  | Buy => exact fun x hx y hy => h x hx y hy
  | Sell => exact fun x hx y hy => h y hy x hx

theorem MatchOrders_trades {b b' : Book} {ts : Trades} (h : MatchOrders b = some (b', ts)) :
    ∃ b1 b2, matchLoop (b.bids.length + b.asks.length) b [] = some (b1, ts) ∧
      cancelFrontFillAndKill b1 b1.bids = some b2 ∧
      cancelFrontFillAndKill b2 b2.asks = some b' := by
  unfold MatchOrders at h
  cases hm : matchLoop (b.bids.length + b.asks.length) b [] with
  | none => rw [hm] at h; cases h
  | some r =>
    obtain ⟨b1, ts1⟩ := r
    rw [hm] at h
    simp only at h
    cases h2 : cancelFrontFillAndKill b1 b1.bids with
    | none => rw [h2] at h; cases h
    | some b2 =>
      rw [h2] at h
      simp only at h
      cases h3 : cancelFrontFillAndKill b2 b2.asks with
      | none => rw [h3] at h; cases h
      | some b3 =>
        rw [h3] at h
        simp only [Option.some.injEq, Prod.mk.injEq] at h
        obtain ⟨rfl, rfl⟩ := h
        exact ⟨b1, b2, rfl, h2, h3⟩

/-- The outcomes of `addOrder`: a rejection that returns the book unchanged with no trade, or the
matching of the inserted order (the order itself, or its promotion when it is a Market order). -/
theorem addOrder_cases {b b' : Book} {o : Order} {ts : Trades}
    (h : addOrder b o = some (b', ts)) :
    (b' = b ∧ ts = []) ∨
      ∃ o', o'.orderId = o.orderId ∧ o'.side = o.side ∧
        o'.initialQuantity = o.initialQuantity ∧ o'.remainingQuantity = o.remainingQuantity ∧
        (o.orderType ≠ OrderType.Market → o' = o) ∧
        (o.orderType = OrderType.Market → o'.orderType = OrderType.GoodTillCancel) ∧
        (o.orderType = OrderType.FillAndKill → canMatch b o.side o.price = true) ∧
        lookupKey o.orderId b.orders = none ∧
        MatchOrders (insertOrder b o') = some (b', ts) := by
  unfold addOrder at h
  split at h
  · simp only [Option.some.injEq, Prod.mk.injEq] at h
    exact Or.inl ⟨h.1.symm, h.2.symm⟩
  · rename_i hl
    have hl' : lookupKey o.orderId b.orders = none := by
      cases hc : lookupKey o.orderId b.orders with
      | none => rfl
      | some x => rw [hc] at hl; simp at hl
    split at h
    · simp only [Option.some.injEq, Prod.mk.injEq] at h
      exact Or.inl ⟨h.1.symm, h.2.symm⟩
    · rename_i hfk
      have hfk' : o.orderType = OrderType.FillAndKill → canMatch b o.side o.price = true := by
        intro hty
        cases hx : canMatch b o.side o.price with
        | true => rfl
        | false => exact absurd ⟨hty, hx⟩ hfk
      split at h
      · simp only [Option.some.injEq, Prod.mk.injEq] at h
        exact Or.inl ⟨h.1.symm, h.2.symm⟩
      · split at h
        · rename_i ht
          rcases promoteMarket_spec b o ht with hp | ⟨p, hp⟩
          · rw [hp] at h
            simp only [Option.some.injEq, Prod.mk.injEq] at h
            exact Or.inl ⟨h.1.symm, h.2.symm⟩
          · rw [hp] at h
            simp only at h
            right
            exact ⟨{ o with price := p, orderType := OrderType.GoodTillCancel }, rfl, rfl, rfl, rfl,
              fun hn => absurd ht hn, fun _ => rfl, hfk', hl', h⟩
        · rename_i ht
          right
          exact ⟨o, rfl, rfl, rfl, rfl, fun _ => rfl, fun hm => absurd hm ht, hfk', hl', h⟩

theorem fifoOrders_pairwise {s : Side} {R : Price → Price → Prop}
    {ls : Levels} (h : SideOK s R ls) :
    (fifoOrders ls).Pairwise (fun m m' => m.price = m'.price ∨ R m.price m'.price) := by
  induction ls with
  | nil => simp
  | cons x xs ih =>
    have hs := h.sorted
    rw [List.pairwise_cons] at hs
    rw [fifoOrders_cons, List.pairwise_append]
    refine ⟨?_, ih h.tail, ?_⟩
    · rw [List.pairwise_iff_forall_sublist]
      intro a c hsub
      left
      have ha := (h.level x (by simp) a (hsub.subset (by simp))).2
      have hc := (h.level x (by simp) c (hsub.subset (by simp))).2
      rw [ha, hc]
    · intro a ha c hc
      right
      obtain ⟨l, hl, hcl⟩ := mem_fifoOrders.1 hc
      rw [(h.level x (by simp) a ha).2, (h.level l (List.mem_cons_of_mem _ hl) c hcl).2]
      exact hs.1 l hl

theorem makers_sorted {b : Book} (h : WFcore b) (s : Side) :
    (fifoOrders (oppSide s b)).Pairwise (fun m m' => notWorse s m.price m'.price) := by
  cases s with
  | Buy =>
    exact (fifoOrders_pairwise (R := fun a c => a < c) h.asksOK).imp
      (fun hab => by
        rcases hab with hab | hab
        · exact le_of_eq hab
        · exact le_of_lt hab)
  | Sell =>
    exact (fifoOrders_pairwise (R := fun a c => c < a) h.bidsOK).imp
      (fun hab => by
        rcases hab with hab | hab
        · exact le_of_eq hab.symm
        · exact le_of_lt hab)

theorem takerInfo_takerTrade (s : Side) (t m : Order) (q : Nat) :
    takerInfo s (takerTrade s t m q) = { orderId := t.orderId, price := t.price, quantity := q } := by
  cases s <;> rfl

theorem bookS2a_reachable : Reachable bookS2a :=
  @Reachable.add Book.empty bookS2a [] OrderType.GoodTillCancel 1 Side.Buy 100 5
    Reachable.empty (by decide) (by decide)

theorem bookS2_reachable : Reachable bookS2 :=
  @Reachable.add bookS2a bookS2 [] OrderType.GoodTillCancel 2 Side.Buy 100 5
    bookS2a_reachable (by decide) (by decide)

theorem insert_match_sweep {b b1 : Book} (h : WF b) {o : Order} {n : Nat} {ts : Trades}
    (hl : lookupKey o.orderId b.orders = none) (hc : canMatch b o.side o.price = true)
    (hm : matchLoop n (insertOrder b o) [] = some (b1, ts)) :
    Sweep o.side o (ownSide o.side b) (fifoOrders (oppSide o.side b)) b1 ts := by
  obtain ⟨hown, hopp⟩ := insertOrder_front h hc
  apply matchLoop_sweep (insertOrder_WFm h.wfm hl) _ hm
  refine ⟨?_, Or.inl ⟨0, ?_, ?_, ?_, ?_⟩⟩
  · rw [hopp]; exact apart_of_uncrossed h.uncrossed o.side
  · simp [restingQty]
  · rw [hown]; simp [restingQty, afterFill_zero]
  · rw [hopp]; rfl
  · rfl

theorem settled_sides {b : Book} (h : Settled b) (s : Side) :
    ownSide s b = [] ∨ oppSide s b = [] ∨
      ∃ po fo orest pm fm mrest, ownSide s b = (po, fo) :: orest ∧
        oppSide s b = (pm, fm) :: mrest ∧ apart s po pm := by
  rcases h with h | h | ⟨bp, bf, brest, ap, af, arest, hb, ha, hc⟩
  · cases s with
    | Buy => left; exact h
    | Sell => right; left; exact h
  · cases s with
    | Buy => right; left; exact h
    | Sell => left; exact h
  · right; right
    cases s with
    | Buy => exact ⟨bp, bf, brest, ap, af, arest, hb, ha, hc⟩
    | Sell => exact ⟨ap, af, arest, bp, bf, brest, ha, hb, hc⟩

theorem oppSide_level {b : Book} (h : WFm b) (s : Side) :
    ∀ l ∈ oppSide s b, l.2 ≠ [] ∧ ∀ o ∈ l.2, o.price = l.1 := by
  cases s with
  | Buy => exact fun l hl => ⟨h.asksNonempty l hl, fun o ho => (h.core.asksOK.level l hl o ho).2⟩
  | Sell => exact fun l hl => ⟨h.bidsNonempty l hl, fun o ho => (h.core.bidsOK.level l hl o ho).2⟩

/-- A sweep that ends with the taker alive, when the taker's price crosses every maker, has
consumed the whole opposite side. -/
theorem sweep_alive_exhausts {s : Side} {t0 : Order} {O : Levels} {M0 : List Order} {b : Book}
    {ts : Trades} (hw : WFm b) (hs : Settled b) (h : SweepAlive s t0 O M0 b ts)
    (hcross : ∀ m ∈ M0, ¬ apart s t0.price m.price) :
    restingQty M0 ≤ t0.remainingQuantity ∧ oppSide s b = [] := by
  obtain ⟨k, hle, hown, hfifo, _⟩ := h
  have hopp : oppSide s b = [] := by
    rcases settled_sides hs s with h1 | h1 | ⟨po, fo, orest, pm, fm, mrest, h1, h2, h3⟩
    · rw [hown] at h1; cases h1
    · exact h1
    · exfalso
      rw [hown] at h1
      simp only [List.cons.injEq, Prod.mk.injEq] at h1
      obtain ⟨⟨rfl, _⟩, _⟩ := h1
      obtain ⟨hne, hpr⟩ := oppSide_level hw s (pm, fm) (by rw [h2]; simp)
      obtain ⟨m, mt, rfl⟩ := List.exists_cons_of_ne_nil hne
      have hm : m ∈ M0 := by
        have hmd : m ∈ M0.drop k := by
          rw [← hfifo, h2]
          simp
        exact List.mem_of_mem_drop hmd
      apply hcross m hm
      rw [hpr m (by simp)]
      exact h3
  refine ⟨?_, hopp⟩
  rw [hopp] at hfifo
  have hk : M0.take k = M0 := by
    have := List.take_append_drop k M0
    rw [← hfifo] at this
    simpa using this
  rw [hk] at hle
  exact hle

theorem restingQty_take_le (l : List Order) (n : Nat) : restingQty (l.take n) ≤ restingQty l := by
  conv_rhs => rw [← List.take_append_drop n l]
  rw [restingQty_append]
  exact Nat.le_add_right _ _

/-- Total quantity traded against asks of price `p`. -/
theorem sum_filter_fullTrade (t0 : Order) (p : Price) (l : List Order) :
    (((l.map (fullTrade Side.Buy t0)).filter (fun t => decide (t.askTrade.price = p))).map
      (fun t => t.askTrade.quantity)).sum = restingQty (l.filter (fun m => decide (m.price = p))) := by
  induction l with
  | nil => rfl
  | cons a l ih =>
    by_cases hp : a.price = p
    · simp only [List.map_cons, List.filter_cons, fullTrade, takerTrade, hp, decide_True,
        if_true, List.sum_cons, restingQty] at ih ⊢
      rw [ih]
    · simp only [List.map_cons, List.filter_cons, fullTrade, takerTrade, hp, decide_False,
        Bool.false_eq_true, if_false, restingQty] at ih ⊢
      rw [ih]

theorem filter_price_eq_self {l : List Order} {p : Price} (h : ∀ o ∈ l, o.price = p) :
    l.filter (fun m => decide (m.price = p)) = l := by
  rw [List.filter_eq_self]
  intro o ho
  simp [h o ho]

theorem filter_price_eq_nil {l : List Order} {p q : Price} (h : ∀ o ∈ l, o.price = q)
    (hne : q ≠ p) : l.filter (fun m => decide (m.price = p)) = [] := by
  rw [List.filter_eq_nil_iff]
  intro o ho
  simp [h o ho, hne]

theorem bids_nil_of_done {b : Book} (hw : WFm b) (p : Price)
    (h : b.bids = (p, []) :: [] ∨ b.bids = []) : b.bids = [] := by
  rcases h with h | h
  · exact absurd rfl (hw.bidsNonempty (p, []) (by rw [h]; simp))
  · exact h

/-! ## Conservation through the matching loop -/

theorem SameOrder.refl (o : Order) : SameOrder o o := ⟨rfl, rfl, rfl, rfl, rfl⟩

theorem SameOrder.trans {a c d : Order} (h1 : SameOrder a c) (h2 : SameOrder c d) :
    SameOrder a d :=
  ⟨h2.1.trans h1.1, h2.2.1.trans h1.2.1, h2.2.2.1.trans h1.2.2.1, h2.2.2.2.1.trans h1.2.2.2.1,
    h2.2.2.2.2.trans h1.2.2.2.2⟩

theorem SameOrder.afterFill (o : Order) (q : Nat) : SameOrder o (afterFill o q) :=
  ⟨rfl, rfl, rfl, rfl, rfl⟩

theorem tradedQty_nil (id : OrderId) : tradedQty id [] = 0 := rfl

theorem tradedQty_append (id : OrderId) (ts1 ts2 : Trades) :
    tradedQty id (ts1 ++ ts2) = tradedQty id ts1 + tradedQty id ts2 := by
  simp [tradedQty]

theorem tradedQty_stepTrade (id : OrderId) (bid ask : Order) :
    tradedQty id [stepTrade bid ask] =
      (if bid.orderId = id then min bid.remainingQuantity ask.remainingQuantity else 0) +
      (if ask.orderId = id then min bid.remainingQuantity ask.remainingQuantity else 0) := by
  simp [tradedQty, stepTrade]

theorem mem_stepFifo {n x : Order} {t : List Order} (h : x ∈ stepFifo n t) : x = n ∨ x ∈ t := by
  unfold stepFifo at h
  split at h
  · right; exact h
  · exact List.mem_cons.1 h

theorem mem_stepFifo_of_mem {n x : Order} {t : List Order} (h : x ∈ t) : x ∈ stepFifo n t := by
  unfold stepFifo
  split
  · exact h
  · exact List.mem_cons_of_mem _ h

theorem id_ne_of_nodup {A B : List Order} {o x : Order}
    (hn : ((A ++ o :: B).map Order.orderId).Nodup) (hx : x ∈ A ++ B) :
    x.orderId ≠ o.orderId := by
  rw [List.map_append, List.map_cons] at hn
  have hn' := List.nodup_middle.1 hn
  rw [List.nodup_cons] at hn'
  intro heq
  apply hn'.1
  rw [← heq, ← List.map_append]
  exact List.mem_map_of_mem Order.orderId hx

theorem eq_of_same_id {all : List Order} (hn : (all.map Order.orderId).Nodup) {x y : Order}
    (hx : x ∈ all) (hy : y ∈ all) (h : x.orderId = y.orderId) : x = y := by
  induction all with
  | nil => cases hx
  | cons a l ih =>
    rw [List.map_cons, List.nodup_cons] at hn
    rcases List.mem_cons.1 hx with hxa | hxl
    · rcases List.mem_cons.1 hy with hya | hyl
      · rw [hxa, hya]
      · exfalso; apply hn.1; rw [← hxa, h]; exact List.mem_map_of_mem Order.orderId hyl
    · rcases List.mem_cons.1 hy with hya | hyl
      · exfalso; apply hn.1; rw [← hya, ← h]; exact List.mem_map_of_mem Order.orderId hxl
      · exact ih hn.2 hxl hyl

theorem nodup_stepFifo {A B : List Order} {o : Order} (q : Nat)
    (hn : ((A ++ o :: B).map Order.orderId).Nodup) :
    ((A ++ stepFifo (afterFill o q) B).map Order.orderId).Nodup := by
  unfold stepFifo
  split
  · rw [List.map_append, List.map_cons] at hn
    rw [List.map_append]
    exact (List.nodup_cons.1 (List.nodup_middle.1 hn)).2
  · simpa [afterFill] using hn

/-- One fill of the order `o` by `q` keeps conservation, the traded quantity of `o` growing by `q`. -/
theorem consL_fill {all0 A B : List Order} {o : Order} {T : OrderId → Nat} {q : Nat}
    (h : ConsL all0 (A ++ o :: B) T) (hn : ((A ++ o :: B).map Order.orderId).Nodup)
    (hq : q ≤ o.remainingQuantity) :
    ConsL all0 (A ++ stepFifo (afterFill o q) B)
      (fun i => T i + if o.orderId = i then q else 0) := by
  intro x hx
  rcases h x hx with ⟨x', hx', hsame, hrem⟩ | ⟨hgone, hT⟩
  · by_cases hxo : x' = o
    · subst hxo
      have hid : x'.orderId = x.orderId := hsame.1
      by_cases hf : (afterFill x' q).remainingQuantity = 0
      · right
        refine ⟨?_, ?_⟩
        · rw [stepFifo_filled hf]
          intro hmem
          obtain ⟨y, hy, hyid⟩ := List.mem_map.1 hmem
          exact id_ne_of_nodup hn hy (hyid.trans hid.symm)
        · simp only [hid, if_true]
          simp only [afterFill] at hf
          dsimp only [Quantity] at *
          omega
      · left
        refine ⟨afterFill x' q, ?_, hsame.trans (SameOrder.afterFill x' q), ?_⟩
        · rw [stepFifo_unfilled hf]; simp
        · simp only [hid, if_true, afterFill]
          dsimp only [Quantity] at *
          omega
    · left
      have hx'' : x' ∈ A ++ B := by
        simp only [List.mem_append, List.mem_cons] at hx' ⊢
        tauto
      have hne : o.orderId ≠ x.orderId := by
        have := id_ne_of_nodup hn hx''
        rw [hsame.1] at this
        exact fun hc => this hc.symm
      refine ⟨x', ?_, hsame, ?_⟩
      · rcases List.mem_append.1 hx'' with hA | hB
        · exact List.mem_append_left _ hA
        · exact List.mem_append_right _ (mem_stepFifo_of_mem hB)
      · simp only [hne, if_false, Nat.add_zero]; exact hrem
  · right
    have hne : o.orderId ≠ x.orderId := by
      intro hc
      apply hgone
      rw [← hc]
      exact List.mem_map_of_mem Order.orderId (by simp)
    refine ⟨?_, ?_⟩
    · intro hmem
      apply hgone
      obtain ⟨y, hy, hyid⟩ := List.mem_map.1 hmem
      rw [← hyid]
      rcases List.mem_append.1 hy with hA | hB
      · exact List.mem_map_of_mem Order.orderId (List.mem_append_left _ hA)
      · rcases mem_stepFifo hB with rfl | hB
        · exact List.mem_map_of_mem (f := Order.orderId) (a := o) (by simp)
        · exact List.mem_map_of_mem Order.orderId
            (List.mem_append_right _ (List.mem_cons_of_mem _ hB))
    · simp only [hne, if_false, Nat.add_zero]; exact hT

theorem descL_fill {all0 A B : List Order} {o : Order} {q : Nat}
    (h : DescL all0 (A ++ o :: B)) : DescL all0 (A ++ stepFifo (afterFill o q) B) := by
  intro x' hx'
  rcases List.mem_append.1 hx' with hA | hB
  · exact h x' (List.mem_append_left _ hA)
  · rcases mem_stepFifo hB with rfl | hB
    · obtain ⟨x, hx, hs⟩ := h o (by simp)
      exact ⟨x, hx, hs.trans (SameOrder.afterFill o q)⟩
    · exact h x' (List.mem_append_right _ (List.mem_cons_of_mem _ hB))

theorem allOrders_stepBook {b : Book} {bp ap : Price} {bid ask : Order} {bt at_ : List Order}
    {brest arest : Levels} :
    allOrders (stepBook b bp bid bt brest ap ask at_ arest) =
      stepFifo (afterFill bid (min bid.remainingQuantity ask.remainingQuantity))
          (bt ++ fifoOrders brest) ++
        stepFifo (afterFill ask (min bid.remainingQuantity ask.remainingQuantity))
          (at_ ++ fifoOrders arest) := by
  simp only [allOrders, stepBook, fifoOrders_cons, stepFifo_append]

theorem allOrders_of_heads {b : Book} {bp ap : Price} {bf af : List Order}
    {brest arest : Levels} (hb : b.bids = (bp, bf) :: brest) (ha : b.asks = (ap, af) :: arest) :
    allOrders b = (bf ++ fifoOrders brest) ++ (af ++ fifoOrders arest) := by
  simp only [allOrders, hb, ha, fifoOrders_cons]

theorem allOrders_eraseEmptied {b : Book} {bp ap : Price} {bf af : List Order}
    {brest arest : Levels} (hw : WFi b)
    (hb : b.bids = (bp, bf) :: brest) (ha : b.asks = (ap, af) :: arest) :
    allOrders (eraseEmptied b bp ap) = allOrders b := by
  obtain ⟨_, e1, e2⟩ := eraseEmptied_WFm hw hb ha
  unfold allOrders
  rw [e1, e2, fifoOrders_ite_nil, fifoOrders_ite_nil, hb, ha]

/-- The loop invariant of conservation. -/
theorem cons_step {all0 : List Order} {b : Book} {ts : Trades} {bp ap : Price} {bid ask : Order}
    {bt at_ : List Order} {brest arest : Levels} (hw : WFi b)
    (h : ConsL all0 (allOrders b) (fun i => tradedQty i ts) ∧ DescL all0 (allOrders b) ∧
      ∀ t ∈ ts, t.bidTrade.quantity = t.askTrade.quantity)
    (hb : b.bids = (bp, bid :: bt) :: brest) (ha : b.asks = (ap, ask :: at_) :: arest) :
    ConsL all0 (allOrders (stepBook b bp bid bt brest ap ask at_ arest))
        (fun i => tradedQty i (ts ++ [stepTrade bid ask])) ∧
      DescL all0 (allOrders (stepBook b bp bid bt brest ap ask at_ arest)) ∧
      ∀ t ∈ ts ++ [stepTrade bid ask], t.bidTrade.quantity = t.askTrade.quantity := by
  obtain ⟨hc, hd, ht⟩ := h
  have hn := hw.core.indexOK.idsNodup
  rw [allOrders_of_heads hb ha] at hn hc hd
  simp only [List.cons_append, List.append_assoc] at hn hc hd
  have hn0 : (([] ++ bid :: (bt ++ (fifoOrders brest ++ ask :: (at_ ++ fifoOrders arest)))).map
      Order.orderId).Nodup := by simpa using hn
  have hc1 := consL_fill (A := []) (q := min bid.remainingQuantity ask.remainingQuantity)
    (by simpa using hc) hn0 (min_le_left _ _)
  have hn1 := nodup_stepFifo (min bid.remainingQuantity ask.remainingQuantity) hn0
  have hd1 := descL_fill (A := []) (q := min bid.remainingQuantity ask.remainingQuantity)
    (by simpa using hd)
  have e1 : ∀ n : Order, [] ++ stepFifo n (bt ++ (fifoOrders brest ++ ask ::
      (at_ ++ fifoOrders arest))) = (stepFifo n (bt ++ fifoOrders brest)) ++ ask ::
      (at_ ++ fifoOrders arest) := by
    intro n; unfold stepFifo; split <;> simp
  rw [e1] at hc1 hn1 hd1
  have hc2 := consL_fill (q := min bid.remainingQuantity ask.remainingQuantity) hc1 hn1
    (min_le_right _ _)
  have hd2 := descL_fill (q := min bid.remainingQuantity ask.remainingQuantity) hd1
  rw [allOrders_stepBook]
  refine ⟨?_, hd2, ?_⟩
  · have hfun : (fun i => tradedQty i (ts ++ [stepTrade bid ask])) =
        (fun i => (tradedQty i ts +
          if (afterFill bid (min bid.remainingQuantity ask.remainingQuantity)).orderId = i
            then min bid.remainingQuantity ask.remainingQuantity else 0) +
          if ask.orderId = i then min bid.remainingQuantity ask.remainingQuantity else 0) := by
      funext i
      rw [tradedQty_append, tradedQty_stepTrade]
      simp only [afterFill]
      omega
    rw [hfun]
    exact hc2
  · intro t htm
    rcases List.mem_append.1 htm with htm | htm
    · exact ht t htm
    · simp only [List.mem_singleton] at htm
      subst htm
      rfl

theorem matchLoop_cons {all0 : List Order} {n : Nat} {b b' : Book} {ts ts' : Trades}
    (hw : WFm b)
    (h : ConsL all0 (allOrders b) (fun i => tradedQty i ts) ∧ DescL all0 (allOrders b) ∧
      ∀ t ∈ ts, t.bidTrade.quantity = t.askTrade.quantity)
    (hm : matchLoop n b ts = some (b', ts')) :
    ConsL all0 (allOrders b') (fun i => tradedQty i ts') ∧ DescL all0 (allOrders b') ∧
      ∀ t ∈ ts', t.bidTrade.quantity = t.askTrade.quantity :=
  (matchLoop_induct
    (P := fun b ts => WFi b ∧ (ConsL all0 (allOrders b) (fun i => tradedQty i ts) ∧
      DescL all0 (allOrders b) ∧ ∀ t ∈ ts, t.bidTrade.quantity = t.askTrade.quantity))
    (Q := fun b ts => WFm b ∧ (ConsL all0 (allOrders b) (fun i => tradedQty i ts) ∧
      DescL all0 (allOrders b) ∧ ∀ t ∈ ts, t.bidTrade.quantity = t.askTrade.quantity))
    (fun _ _ h => ⟨h.1.toWFi, h.2⟩)
    (fun _ _ _ _ _ _ _ _ _ _ hP _ hb ha => ⟨stepBook_WFi hP.1 hb ha, cons_step hP.1 hP.2 hb ha⟩)
    (fun _ _ _ _ _ _ _ _ hP _ hb ha _ =>
      ⟨(eraseEmptied_WFm hP.1 hb ha).1, by rw [allOrders_eraseEmptied hP.1 hb ha]; exact hP.2⟩)
    n b ts ⟨hw, h⟩ b' ts' hm).1.2

/-! ## What an operation does to the resting orders -/

theorem cancelOrderInternal_mem {b b' : Book} (h : WF b) {id : OrderId}
    (hc : cancelOrderInternal b id = some b') :
    WF b' ∧ ∀ o, o ∈ allOrders b' ↔ (o ∈ allOrders b ∧ o.orderId ≠ id) := by
  obtain ⟨b2, hc2, hw2, _, _, hkb, hka, hord⟩ := cancelOrderInternal_spec h.wfm id
  rw [hc] at hc2
  simp only [Option.some.injEq] at hc2
  subst hc2
  refine ⟨⟨hw2, uncrossed_of_keys h.uncrossed hkb hka⟩, ?_⟩
  intro o
  constructor
  · intro ho
    have hm := hw2.core.indexOK.complete o ho
    rw [hord] at hm
    obtain ⟨hm1, hm2⟩ := mem_eraseKey.1 hm
    exact ⟨(h.wfm.core.indexOK.sound _ hm1).2, hm2⟩
  · rintro ⟨ho, hne⟩
    have hm := h.wfm.core.indexOK.complete o ho
    have hm' : (o.orderId, o) ∈ b'.orders := by
      rw [hord]; exact mem_eraseKey.2 ⟨hm, hne⟩
    exact (hw2.core.indexOK.sound _ hm').2

theorem cancelOrders_mem {b b' : Book} (h : WF b) {ids : List OrderId}
    (hc : cancelOrders b ids = some b') :
    WF b' ∧ ∀ o, o ∈ allOrders b' ↔ (o ∈ allOrders b ∧ o.orderId ∉ ids) := by
  induction ids generalizing b with
  | nil =>
    simp only [cancelOrders, Option.some.injEq] at hc
    subst hc
    exact ⟨h, fun o => by simp⟩
  | cons id ids ih =>
    simp only [cancelOrders] at hc
    cases h1 : cancelOrderInternal b id with
    | none => rw [h1] at hc; cases hc
    | some b1 =>
      rw [h1] at hc
      simp only at hc
      obtain ⟨hw1, hm1⟩ := cancelOrderInternal_mem h h1
      obtain ⟨hw', hm'⟩ := ih hw1 hc
      refine ⟨hw', fun o => ?_⟩
      rw [hm', hm1]
      simp only [List.mem_cons, not_or]
      tauto

theorem allOrders_insertOrder_perm (b : Book) (o : Order) :
    (allOrders (insertOrder b o)).Perm (o :: allOrders b) := by
  unfold allOrders
  by_cases hs : o.side = Side.Buy
  · simp only [insertOrder, hs, if_true]
    rw [← List.cons_append]
    exact List.Perm.append_right _ pushOrder_perm
  · simp only [insertOrder, hs, if_false]
    exact (List.Perm.append_left _ pushOrder_perm).trans List.perm_middle

theorem mem_allOrders_insertOrder {b : Book} {o x : Order} :
    x ∈ allOrders (insertOrder b o) ↔ x = o ∨ x ∈ allOrders b := by
  rw [(allOrders_insertOrder_perm b o).mem_iff, List.mem_cons]

/-- Matching a freshly inserted order: what becomes of every order. -/
theorem insert_match_facts {b b' : Book} (hw : WF b) (hnf : NoFaK b) {t0 : Order} {ts : Trades}
    (hl : lookupKey t0.orderId b.orders = none)
    (hrem : t0.remainingQuantity = t0.initialQuantity)
    (hfak : t0.orderType = OrderType.FillAndKill → canMatch b t0.side t0.price = true)
    (hm : MatchOrders (insertOrder b t0) = some (b', ts)) :
    WF b' ∧ NoFaK b' ∧ (∀ t ∈ ts, t.bidTrade.quantity = t.askTrade.quantity) ∧
    (∀ x ∈ allOrders b,
      (∃ x' ∈ allOrders b', SameOrder x x' ∧
        x'.remainingQuantity + tradedQty x.orderId ts = x.remainingQuantity) ∨
      (x.orderId ∉ (allOrders b').map Order.orderId ∧
        tradedQty x.orderId ts = x.remainingQuantity)) ∧
    (∀ o' ∈ allOrders b',
      (∃ x ∈ allOrders b, SameOrder x o' ∧
        o'.remainingQuantity + tradedQty x.orderId ts = x.remainingQuantity) ∨
      (o'.orderId = t0.orderId ∧ o'.initialQuantity = t0.initialQuantity ∧
        o'.remainingQuantity + tradedQty o'.orderId ts = t0.initialQuantity)) ∧
    (t0.orderId ∉ (allOrders b').map Order.orderId →
      tradedQty t0.orderId ts = t0.initialQuantity) := by
  have hwm0 := insertOrder_WFm hw.wfm hl
  obtain ⟨hloop, _, _⟩ := MatchOrders_some hm
  obtain ⟨hwm1, hs1⟩ := matchLoop_WFm hwm0 hloop
  have hwf3 : WF b' := ⟨hwm1, uncrossed_of_settled hwm1.core hs1⟩
  obtain ⟨hcons, hdesc, htq⟩ := @matchLoop_cons (allOrders (insertOrder b t0)) _ _ _ _ _ hwm0
    ⟨fun x hx => Or.inl ⟨x, hx, SameOrder.refl x, by simp [tradedQty_nil]⟩,
     fun x hx => ⟨x, hx, SameOrder.refl x⟩, fun t ht => by cases ht⟩ hloop
  have hsub : ∀ o ∈ allOrders b', o ∈ allOrders b' := fun _ ho => ho
  have hrm : ∀ o ∈ allOrders b', o ∈ allOrders b' := fun _ ho => ho
  have hn1 := hwm1.core.indexOK.idsNodup
  -- the FillAndKill taker is out of the index at the end
  have hgone : t0.orderType = OrderType.FillAndKill →
      t0.orderId ∉ (allOrders b').map Order.orderId := by
    intro hty
    have hfront := insertOrder_frontIs hw hty (hfak hty)
    exact hwf3.wfm.core.indexOK.not_mem_of_lookup_none
      (MatchOrders_frontOrGone (Or.inr hfront) hm)
  have hfresh : ∀ x ∈ allOrders b, x.orderId ≠ t0.orderId := by
    intro x hx heq
    exact hw.wfm.core.indexOK.not_mem_of_lookup_none hl (heq ▸ List.mem_map_of_mem _ hx)
  refine ⟨hwf3, ?_, htq, ?_, ?_, ?_⟩
  · intro o ho hty
    obtain ⟨x, hx, hsame⟩ := hdesc o (hsub o ho)
    rcases mem_allOrders_insertOrder.1 hx with rfl | hxb
    · apply hgone (by rw [← hsame.2.2.1]; exact hty)
      rw [← hsame.1]
      exact List.mem_map_of_mem _ ho
    · exact hnf x hxb (by rw [← hsame.2.2.1]; exact hty)
  · intro x hx
    rcases hcons x (mem_allOrders_insertOrder.2 (Or.inr hx)) with ⟨x', hx', hsame, hq⟩ | ⟨hg, hq⟩
    · left
      exact ⟨x', hx', hsame, hq⟩
    · right
      refine ⟨fun hmem => hg ?_, hq⟩
      obtain ⟨y, hy, hyid⟩ := List.mem_map.1 hmem
      rw [← hyid]
      exact List.mem_map_of_mem _ (hsub y hy)
  · intro o' ho'
    have ho1 := hsub o' ho'
    obtain ⟨x, hx, hsame⟩ := hdesc o' ho1
    have hq : o'.remainingQuantity + tradedQty x.orderId ts = x.remainingQuantity := by
      rcases hcons x hx with ⟨x', hx', hsame', hq⟩ | ⟨hg, _⟩
      · have : x' = o' := eq_of_same_id hn1 hx' ho1 (hsame'.1.trans hsame.1.symm)
        rw [← this]; exact hq
      · exact absurd (hsame.1 ▸ List.mem_map_of_mem Order.orderId ho1) hg
    rcases mem_allOrders_insertOrder.1 hx with rfl | hxb
    · right
      refine ⟨hsame.1, hsame.2.2.2.2, ?_⟩
      rw [hsame.1, hq, hrem]
    · left
      exact ⟨x, hxb, hsame, hq⟩
  · intro hnot
    rcases hcons t0 (mem_allOrders_insertOrder.2 (Or.inl rfl)) with ⟨x', hx', hsame, _⟩ | ⟨_, hq⟩
    · exfalso
      apply hnot
      rw [← hsame.1]
      exact List.mem_map_of_mem _ hx'
    · exact hq.trans hrem

/-! ## Conservation over operation sequences -/

theorem noFaK_of_subset {b b' : Book} (h : NoFaK b)
    (hsub : ∀ o ∈ allOrders b', o ∈ allOrders b) : NoFaK b' :=
  fun o ho => h o (hsub o ho)

/-- An add whose id is not in the index: what becomes of every order. -/
theorem addFresh_facts {b b' : Book} (hw : WF b) (hnf : NoFaK b) {ty : OrderType}
    {id : OrderId} {s : Side} {p : Price} {q : Quantity} {ts : Trades}
    (hl : lookupKey id b.orders = none)
    (ha : addOrder b (Order.new ty id s p q) = some (b', ts)) :
    WF b' ∧ NoFaK b' ∧ (∀ t ∈ ts, t.bidTrade.quantity = t.askTrade.quantity) ∧
    (∀ x ∈ allOrders b,
      (∃ x' ∈ allOrders b', SameOrder x x' ∧
        x'.remainingQuantity + tradedQty x.orderId ts = x.remainingQuantity) ∨
      (x.orderId ∉ (allOrders b').map Order.orderId ∧
        tradedQty x.orderId ts = x.remainingQuantity)) ∧
    (∀ o' ∈ allOrders b',
      (∃ x ∈ allOrders b, SameOrder x o' ∧
        o'.remainingQuantity + tradedQty x.orderId ts = x.remainingQuantity) ∨
      (o'.orderId = id ∧ o'.initialQuantity = q ∧
        o'.remainingQuantity + tradedQty o'.orderId ts = q)) ∧
    (ts ≠ [] → id ∉ (allOrders b').map Order.orderId → tradedQty id ts = q) := by
  rcases addOrder_cases ha with ⟨rfl, rfl⟩ | ⟨o', hid, _, hini, hrem, hsame, hmkt, hfk, _, hm⟩
  · refine ⟨hw, hnf, (fun t ht => by cases ht), ?_, ?_, fun hne _ => absurd rfl hne⟩
    · intro x hx
      exact Or.inl ⟨x, hx, SameOrder.refl x, by simp [tradedQty_nil]⟩
    · intro o ho
      exact Or.inl ⟨o, ho, SameOrder.refl o, by simp [tradedQty_nil]⟩
  · simp only [Order.new] at hid hini hrem hsame hmkt hfk
    have hfak' : o'.orderType = OrderType.FillAndKill → canMatch b o'.side o'.price = true := by
      intro hty
      by_cases hmk : ty = OrderType.Market
      · rw [hmkt hmk] at hty; cases hty
      · have := hsame hmk
        rw [this] at hty ⊢
        exact hfk hty
    obtain ⟨hw', hnf', h1, h2, h3, h4⟩ := @insert_match_facts b b' hw hnf o' ts
      (by rw [hid]; exact hl) (by rw [hrem, hini]) hfak' hm
    refine ⟨hw', hnf', h1, h2, ?_, ?_⟩
    · intro x hx
      rcases h3 x hx with hleft | ⟨e1, e2, e3⟩
      · exact Or.inl hleft
      · right
        exact ⟨e1.trans hid, e2.trans hini, by rw [e3, hini]⟩
    · intro _ hnot
      have := h4 (by rw [hid]; exact hnot)
      rw [hid, hini] at this
      exact this

/-- What one operation does to the resting orders of a well-formed book without FillAndKill
orders. -/
theorem applyOp_facts {b b' : Book} (hw : WF b) (hnf : NoFaK b) {op : Op} {ts : Trades}
    (ha : applyOp b op = some (b', ts)) :
    WF b' ∧ NoFaK b' ∧ (∀ t ∈ ts, t.bidTrade.quantity = t.askTrade.quantity) ∧
    (∀ x ∈ allOrders b, x.orderId ∉ opTargets op →
      (∃ x' ∈ allOrders b', SameOrder x x' ∧
        x'.remainingQuantity + tradedQty x.orderId ts = x.remainingQuantity) ∨
      (x.orderId ∉ (allOrders b').map Order.orderId ∧
        tradedQty x.orderId ts = x.remainingQuantity)) ∧
    (∀ o' ∈ allOrders b',
      (∃ x ∈ allOrders b, x.orderId ∉ opTargets op ∧ SameOrder x o' ∧
        o'.remainingQuantity + tradedQty x.orderId ts = x.remainingQuantity) ∨
      (∃ ty q, incoming b op = some (o'.orderId, ty, q) ∧ o'.initialQuantity = q ∧
        o'.remainingQuantity + tradedQty o'.orderId ts = q)) ∧
    (∀ id ty q, incoming b op = some (id, ty, q) → ts ≠ [] →
      id ∉ (allOrders b').map Order.orderId → tradedQty id ts = q) := by
  cases op with
  | add ty id s p q =>
    simp only [applyOp] at ha
    cases hl : lookupKey id b.orders with
    | some e =>
      have hrej : addOrder b (Order.new ty id s p q) = some (b, []) := by
        simp [addOrder, Order.new, hl]
      rw [hrej] at ha
      simp only [Option.some.injEq, Prod.mk.injEq] at ha
      obtain ⟨rfl, rfl⟩ := ha
      refine ⟨hw, hnf, (fun t ht => by cases ht), ?_, ?_, ?_⟩
      · intro x hx _
        exact Or.inl ⟨x, hx, SameOrder.refl x, by simp [tradedQty_nil]⟩
      · intro o ho
        exact Or.inl ⟨o, ho, by simp [opTargets], SameOrder.refl o, by simp [tradedQty_nil]⟩
      · intro id' ty' q' hinc
        simp [incoming, hl] at hinc
    | none =>
      obtain ⟨hw', hnf', h1, h2, h3, h4⟩ := addFresh_facts hw hnf hl ha
      refine ⟨hw', hnf', h1, fun x hx _ => h2 x hx, ?_, ?_⟩
      · intro o' ho'
        rcases h3 o' ho' with ⟨x, hx, hs, hq⟩ | ⟨e1, e2, e3⟩
        · exact Or.inl ⟨x, hx, by simp [opTargets], hs, hq⟩
        · right
          exact ⟨ty, q, by simp [incoming, hl, e1], e2, e3⟩
      · intro id' ty' q' hinc hts hnot
        simp only [incoming, hl, Option.some.injEq, Prod.mk.injEq] at hinc
        obtain ⟨rfl, rfl, rfl⟩ := hinc
        exact h4 hts hnot
  | cancel id =>
    simp only [applyOp, cancelOrder] at ha
    cases hc : cancelOrderInternal b id with
    | none => rw [hc] at ha; cases ha
    | some b1 =>
      rw [hc] at ha
      simp only [Option.map_some', Option.some.injEq, Prod.mk.injEq] at ha
      obtain ⟨rfl, rfl⟩ := ha
      obtain ⟨hw', hm⟩ := cancelOrderInternal_mem hw hc
      refine ⟨hw', noFaK_of_subset hnf (fun o ho => ((hm o).1 ho).1),
        (fun t ht => by cases ht), ?_, ?_, ?_⟩
      · intro x hx hnot
        have hne : x.orderId ≠ id := by simpa [opTargets] using hnot
        exact Or.inl ⟨x, (hm x).2 ⟨hx, hne⟩, SameOrder.refl x, by simp [tradedQty_nil]⟩
      · intro o ho
        obtain ⟨ho1, hne⟩ := (hm o).1 ho
        exact Or.inl ⟨o, ho1, by simpa [opTargets] using hne, SameOrder.refl o,
          by simp [tradedQty_nil]⟩
      · intro id' ty' q' hinc
        simp [incoming] at hinc
  | cancelMany ids =>
    simp only [applyOp] at ha
    cases hc : cancelOrders b ids with
    | none => rw [hc] at ha; cases ha
    | some b1 =>
      rw [hc] at ha
      simp only [Option.map_some', Option.some.injEq, Prod.mk.injEq] at ha
      obtain ⟨rfl, rfl⟩ := ha
      obtain ⟨hw', hm⟩ := cancelOrders_mem hw hc
      refine ⟨hw', noFaK_of_subset hnf (fun o ho => ((hm o).1 ho).1),
        (fun t ht => by cases ht), ?_, ?_, ?_⟩
      · intro x hx hnot
        exact Or.inl ⟨x, (hm x).2 ⟨hx, by simpa [opTargets] using hnot⟩, SameOrder.refl x,
          by simp [tradedQty_nil]⟩
      · intro o ho
        obtain ⟨ho1, hne⟩ := (hm o).1 ho
        exact Or.inl ⟨o, ho1, by simpa [opTargets] using hne, SameOrder.refl o,
          by simp [tradedQty_nil]⟩
      · intro id' ty' q' hinc
        simp [incoming] at hinc
  | modify m =>
    simp only [applyOp, ModifyOrder] at ha
    cases hl : lookupKey m.orderId b.orders with
    | none =>
      rw [hl] at ha
      simp only [Option.some.injEq, Prod.mk.injEq] at ha
      obtain ⟨rfl, rfl⟩ := ha
      have hnotin := hw.wfm.core.indexOK.not_mem_of_lookup_none hl
      refine ⟨hw, hnf, (fun t ht => by cases ht), ?_, ?_, ?_⟩
      · intro x hx _
        exact Or.inl ⟨x, hx, SameOrder.refl x, by simp [tradedQty_nil]⟩
      · intro o ho
        refine Or.inl ⟨o, ho, ?_, SameOrder.refl o, by simp [tradedQty_nil]⟩
        simp only [opTargets, List.mem_singleton]
        intro heq
        exact hnotin (heq ▸ List.mem_map_of_mem Order.orderId ho)
      · intro id' ty' q' hinc
        simp [incoming, hl] at hinc
    | some e =>
      rw [hl] at ha
      simp only [cancelOrder] at ha
      cases hc : cancelOrderInternal b m.orderId with
      | none => rw [hc] at ha; cases ha
      | some b1 =>
        rw [hc] at ha
        simp only [OrderModify.toOrderPointer] at ha
        obtain ⟨hw1, hm1⟩ := cancelOrderInternal_mem hw hc
        have hnf1 : NoFaK b1 := noFaK_of_subset hnf (fun o ho => ((hm1 o).1 ho).1)
        have hl1 : lookupKey m.orderId b1.orders = none := by
          obtain ⟨b2, hc2, _, hnone, _⟩ := cancelOrderInternal_spec hw.wfm m.orderId
          rw [hc] at hc2
          simp only [Option.some.injEq] at hc2
          rw [hc2]; exact hnone
        obtain ⟨hw', hnf', h1, h2, h3, h4⟩ := addFresh_facts hw1 hnf1 hl1 ha
        refine ⟨hw', hnf', h1, ?_, ?_, ?_⟩
        · intro x hx hnot
          have hne : x.orderId ≠ m.orderId := by simpa [opTargets] using hnot
          exact h2 x ((hm1 x).2 ⟨hx, hne⟩)
        · intro o' ho'
          rcases h3 o' ho' with ⟨x, hx, hs, hq⟩ | ⟨e1, e2, e3⟩
          · obtain ⟨hxb, hne⟩ := (hm1 x).1 hx
            exact Or.inl ⟨x, hxb, by simpa [opTargets] using hne, hs, hq⟩
          · right
            exact ⟨e.orderType, m.quantity, by simp [incoming, hl, e1], e2, e3⟩
        · intro id' ty' q' hinc hts hnot
          simp only [incoming, hl, Option.some.injEq, Prod.mk.injEq] at hinc
          obtain ⟨rfl, rfl, rfl⟩ := hinc
          exact h4 hts hnot

theorem incoming_fresh {b : Book} (hw : WF b) {op : Op} {id : OrderId} {ty : OrderType}
    {q : Quantity} (hinc : incoming b op = some (id, ty, q)) :
    ∀ x ∈ allOrders b, x.orderId ∉ opTargets op → x.orderId ≠ id := by
  intro x hx hnot
  cases op with
  | add ty' id' s p q' =>
    simp only [incoming] at hinc
    cases hl : lookupKey id' b.orders with
    | some e => rw [hl] at hinc; cases hinc
    | none =>
      rw [hl] at hinc
      simp only [Option.some.injEq, Prod.mk.injEq] at hinc
      obtain ⟨rfl, _, _⟩ := hinc
      intro heq
      exact hw.wfm.core.indexOK.not_mem_of_lookup_none hl
        (heq ▸ List.mem_map_of_mem Order.orderId hx)
  | cancel id' => simp [incoming] at hinc
  | cancelMany ids => simp [incoming] at hinc
  | modify m =>
    simp only [incoming] at hinc
    cases hl : lookupKey m.orderId b.orders with
    | none => rw [hl] at hinc; cases hinc
    | some e =>
      rw [hl] at hinc
      simp only [Option.some.injEq, Prod.mk.injEq] at hinc
      obtain ⟨rfl, _, _⟩ := hinc
      simpa [opTargets] using hnot

theorem ledgerAfter_old {b : Book} (hw : WF b) {L : OrderId → Nat} {op : Op} {ts : Trades}
    {x : Order} (hx : x ∈ allOrders b) (hnot : x.orderId ∉ opTargets op) :
    ledgerAfter b L op ts x.orderId = L x.orderId + tradedQty x.orderId ts := by
  unfold ledgerAfter
  cases hinc : incoming b op with
  | none => rfl
  | some r =>
    obtain ⟨id, ty, q⟩ := r
    have := incoming_fresh hw hinc x hx hnot
    simp [this]

theorem ledgerAfter_new {b : Book} {L : OrderId → Nat} {op : Op} {ts : Trades}
    {id : OrderId} {ty : OrderType} {q : Quantity} (hinc : incoming b op = some (id, ty, q)) :
    ledgerAfter b L op ts id = tradedQty id ts := by
  unfold ledgerAfter
  rw [hinc]
  simp

/-- The ledger invariant of a run. -/
theorem runLedger_inv (ops : List Op) :
    ∀ (b : Book) (L : OrderId → Nat) (b' : Book) (L' : OrderId → Nat),
      WF b → NoFaK b →
      (∀ o ∈ allOrders b, L o.orderId + o.remainingQuantity = o.initialQuantity) →
      runLedger b L ops = some (b', L') →
      WF b' ∧ NoFaK b' ∧
        ∀ o ∈ allOrders b', L' o.orderId + o.remainingQuantity = o.initialQuantity := by
  induction ops with
  | nil =>
    intro b L b' L' hw hnf hL hrun
    simp only [runLedger, Option.some.injEq, Prod.mk.injEq] at hrun
    obtain ⟨rfl, rfl⟩ := hrun
    exact ⟨hw, hnf, hL⟩
  | cons op ops ih =>
    intro b L b' L' hw hnf hL hrun
    simp only [runLedger] at hrun
    cases ha : applyOp b op with
    | none => rw [ha] at hrun; cases hrun
    | some r =>
      obtain ⟨b1, ts⟩ := r
      rw [ha] at hrun
      simp only at hrun
      obtain ⟨hw1, hnf1, _, _, h3, _⟩ := applyOp_facts hw hnf ha
      refine ih b1 _ b' L' hw1 hnf1 ?_ hrun
      intro o' ho'
      rcases h3 o' ho' with ⟨x, hx, hnot, hs, hq⟩ | ⟨ty, q, hinc, hini, hq⟩
      · rw [show o'.orderId = x.orderId from hs.1, ledgerAfter_old hw hx hnot, hs.2.2.2.2]
        have := hL x hx
        dsimp only [Quantity] at *
        omega
      · rw [ledgerAfter_new hinc, hini]
        dsimp only [Quantity] at *
        omega

/-- C4. Over every operation sequence from the empty book, with `L id` the quantity of the trades
that named `id` since `id` was last submitted: every resting order has
`L id = initial - remaining`; and for any further operation that returns, each emitted trade
carries one quantity on both sides, every other resting order either stays with its remaining
quantity lowered by exactly the quantity of the trades naming it, or has left the book by a full
fill with its ledger equal to its initial quantity, and a submitted order of any type that traded
and does not rest was filled for its whole quantity. -/
theorem conservation (ops : List Op) (b : Book) (L : OrderId → Nat)
    (hrun : runLedger Book.empty (fun _ => 0) ops = some (b, L)) :
    (∀ o ∈ allOrders b, o.remainingQuantity ≤ o.initialQuantity ∧
      L o.orderId = o.initialQuantity - o.remainingQuantity) ∧
    ∀ (op : Op) (b' : Book) (ts : Trades), applyOp b op = some (b', ts) →
      (∀ t ∈ ts, t.bidTrade.quantity = t.askTrade.quantity) ∧
      (∀ x ∈ allOrders b, x.orderId ∉ opTargets op →
        (∃ x' ∈ allOrders b', SameOrder x x' ∧
          x'.remainingQuantity + tradedQty x.orderId ts = x.remainingQuantity) ∨
        (x.orderId ∉ (allOrders b').map Order.orderId ∧
          tradedQty x.orderId ts = x.remainingQuantity ∧
          ledgerAfter b L op ts x.orderId = x.initialQuantity)) ∧
      (∀ id ty q, incoming b op = some (id, ty, q) → ts ≠ [] →
        id ∉ (allOrders b').map Order.orderId →
        tradedQty id ts = q ∧ ledgerAfter b L op ts id = q) := by
  obtain ⟨hw, hnf, hL⟩ := runLedger_inv ops Book.empty (fun _ => 0) b L WF_empty
    (fun o ho => by simp [allOrders, Book.empty] at ho)
    (fun o ho => by simp [allOrders, Book.empty] at ho) hrun
  refine ⟨fun o ho => ?_, ?_⟩
  · have := hL o ho
    dsimp only [Quantity] at *
    omega
  · intro op b' ts ha
    obtain ⟨_, _, h1, h2, _, h4⟩ := applyOp_facts hw hnf ha
    refine ⟨h1, ?_, ?_⟩
    · intro x hx hnot
      rcases h2 x hx hnot with hleft | ⟨hg, hq⟩
      · exact Or.inl hleft
      · right
        refine ⟨hg, hq, ?_⟩
        rw [ledgerAfter_old hw hx hnot, hq]
        exact hL x hx
    · intro id ty q hinc hts hnot
      have := h4 id ty q hinc hts hnot
      exact ⟨this, by rw [ledgerAfter_new hinc]; exact this⟩

theorem conservation_witness :
    runLedger Book.empty (fun _ => 0) s1Ops = some (bookS1, s1Ledger) ∧
    ((∀ o ∈ allOrders bookS1, o.remainingQuantity ≤ o.initialQuantity ∧
      s1Ledger o.orderId = o.initialQuantity - o.remainingQuantity) ∧
    ∀ (op : Op) (b' : Book) (ts : Trades), applyOp bookS1 op = some (b', ts) →
      (∀ t ∈ ts, t.bidTrade.quantity = t.askTrade.quantity) ∧
      (∀ x ∈ allOrders bookS1, x.orderId ∉ opTargets op →
        (∃ x' ∈ allOrders b', SameOrder x x' ∧
          x'.remainingQuantity + tradedQty x.orderId ts = x.remainingQuantity) ∨
        (x.orderId ∉ (allOrders b').map Order.orderId ∧
          tradedQty x.orderId ts = x.remainingQuantity ∧
          ledgerAfter bookS1 s1Ledger op ts x.orderId = x.initialQuantity)) ∧
      (∀ id ty q, incoming bookS1 op = some (id, ty, q) → ts ≠ [] →
        id ∉ (allOrders b').map Order.orderId →
        tradedQty id ts = q ∧ ledgerAfter bookS1 s1Ledger op ts id = q)) ∧
    applyOp bookS1 (Op.add OrderType.FillAndKill 3 Side.Sell 100 4)
      = some (Book.empty,
          [{ bidTrade := { orderId := 1, price := 100, quantity := 4 }
             askTrade := { orderId := 3, price := 100, quantity := 4 } }]) ∧
    (tradedQty 3
        [{ bidTrade := { orderId := 1, price := 100, quantity := 4 }
           askTrade := { orderId := 3, price := 100, quantity := 4 } }] = 4 ∧
      ledgerAfter bookS1 s1Ledger (Op.add OrderType.FillAndKill 3 Side.Sell 100 4)
        [{ bidTrade := { orderId := 1, price := 100, quantity := 4 }
           askTrade := { orderId := 3, price := 100, quantity := 4 } }] 3 = 4) :=
  ⟨rfl, conservation s1Ops bookS1 s1Ledger rfl, by decide,
    ((conservation s1Ops bookS1 s1Ledger rfl).2
      (Op.add OrderType.FillAndKill 3 Side.Sell 100 4) Book.empty
      [{ bidTrade := { orderId := 1, price := 100, quantity := 4 }
         askTrade := { orderId := 3, price := 100, quantity := 4 } }] (by decide)).2.2
      3 OrderType.FillAndKill 4 (by decide) (by decide) (by decide)⟩

/-! ## Cancel and modify of an id: unknown ids, idempotence -/

/-- C11. For every book state and every id that is not in the index, `cancelOrder` returns the book
unchanged (bids, asks, index and level aggregates), and `ModifyOrder` with a request for that id
returns an empty trade list and the book unchanged. -/
theorem unknown_id_noop (b : Book) (orderId : OrderId) (m : OrderModify)
    (hid : orderId ∉ b.orders.map Prod.fst) (hm : m.orderId = orderId) :
    cancelOrder b orderId = some b ∧ ModifyOrder b m = some (b, []) := by
  have hl : lookupKey orderId b.orders = none := lookupKey_none_iff_not_mem.2 hid
  constructor
  · simp only [cancelOrder, cancelOrderInternal, hl]
  · simp only [ModifyOrder, hm, hl]

theorem unknown_id_noop_witness :
    7 ∉ restingBook.orders.map Prod.fst ∧
      (({ orderId := 7, price := 100, side := Side.Buy, quantity := 3 } : OrderModify).orderId = 7) ∧
      cancelOrder restingBook 7 = some restingBook ∧
      ModifyOrder restingBook { orderId := 7, price := 100, side := Side.Buy, quantity := 3 }
        = some (restingBook, []) :=
  ⟨by decide, rfl,
    unknown_id_noop restingBook 7 { orderId := 7, price := 100, side := Side.Buy, quantity := 3 }
      (by decide) rfl⟩

/-- C12. For every reachable book state and every id, `cancelOrder` returns a book in whose index
the id is absent, and a second `cancelOrder` of the same id returns that same book: the state after
`cancel(id); cancel(id)` equals the state after one `cancel(id)`. -/
theorem cancel_idempotent {b : Book} (h : Reachable b) (orderId : OrderId) :
    ∃ b', cancelOrder b orderId = some b' ∧ orderId ∉ b'.orders.map Prod.fst ∧
      cancelOrder b' orderId = some b' ∧
      (cancelOrder b orderId).bind (fun b1 => cancelOrder b1 orderId) = cancelOrder b orderId := by
  obtain ⟨b', hc, _, hnone, _⟩ := cancelOrderInternal_spec h.wf.wfm orderId
  have h2 : cancelOrder b' orderId = some b' := by
    simp only [cancelOrder, cancelOrderInternal, hnone]
  refine ⟨b', hc, lookupKey_none_iff_not_mem.1 hnone, h2, ?_⟩
  show (cancelOrderInternal b orderId).bind (fun b1 => cancelOrder b1 orderId) =
    cancelOrderInternal b orderId
  rw [hc]
  exact h2

theorem cancel_idempotent_witness :
    Reachable restingBook ∧
    ∃ b', cancelOrder restingBook 1 = some b' ∧ 1 ∉ b'.orders.map Prod.fst ∧
      cancelOrder b' 1 = some b' ∧
      (cancelOrder restingBook 1).bind (fun b1 => cancelOrder b1 1) = cancelOrder restingBook 1 :=
  ⟨restingBook_reachable, cancel_idempotent restingBook_reachable 1⟩

/-! ## Properties of single orders kept by every operation -/

theorem mem_stepFifo_unfilled {n x : Order} {t : List Order} (h : x ∈ stepFifo n t) :
    (x = n ∧ n.isFilled = false) ∨ x ∈ t := by
  unfold stepFifo at h
  split at h
  · exact Or.inr h
  · rename_i hf
    rcases List.mem_cons.1 h with h | h
    · exact Or.inl ⟨h, by simpa using hf⟩
    · exact Or.inr h

theorem pred_step {G : Order → Prop}
    (hfill : ∀ o q, G o → (afterFill o q).isFilled = false → G (afterFill o q))
    {b : Book} {bp ap : Price} {bid ask : Order} {bt at_ : List Order} {brest arest : Levels}
    (h : ∀ o ∈ allOrders b, G o)
    (hb : b.bids = (bp, bid :: bt) :: brest) (ha : b.asks = (ap, ask :: at_) :: arest) :
    ∀ o ∈ allOrders (stepBook b bp bid bt brest ap ask at_ arest), G o := by
  rw [allOrders_of_heads hb ha] at h
  rw [allOrders_stepBook]
  intro o ho
  rcases List.mem_append.1 ho with ho | ho
  · rcases mem_stepFifo_unfilled ho with ⟨rfl, hf⟩ | ho
    · exact hfill _ _ (h bid (by simp)) hf
    · exact h o (List.mem_append_left _ (List.mem_cons_of_mem _ ho))
  · rcases mem_stepFifo_unfilled ho with ⟨rfl, hf⟩ | ho
    · exact hfill _ _ (h ask (by simp)) hf
    · exact h o (List.mem_append_right _ (List.mem_cons_of_mem _ ho))

theorem matchLoop_pred {G : Order → Prop}
    (hfill : ∀ o q, G o → (afterFill o q).isFilled = false → G (afterFill o q))
    {n : Nat} {b b' : Book} {ts ts' : Trades} (hw : WFm b) (h : ∀ o ∈ allOrders b, G o)
    (hm : matchLoop n b ts = some (b', ts')) : ∀ o ∈ allOrders b', G o :=
  (matchLoop_induct
    (P := fun b _ => WFi b ∧ ∀ o ∈ allOrders b, G o)
    (Q := fun b _ => WFm b ∧ ∀ o ∈ allOrders b, G o)
    (fun _ _ h => ⟨h.1.toWFi, h.2⟩)
    (fun _ _ _ _ _ _ _ _ _ _ hP _ hb ha => ⟨stepBook_WFi hP.1 hb ha, pred_step hfill hP.2 hb ha⟩)
    (fun _ _ _ _ _ _ _ _ hP _ hb ha _ =>
      ⟨(eraseEmptied_WFm hP.1 hb ha).1, by rw [allOrders_eraseEmptied hP.1 hb ha]; exact hP.2⟩)
    n b ts ⟨hw, h⟩ b' ts' hm).1.2

theorem mem_all_of_mem_bids {b : Book} : ∀ o ∈ fifoOrders b.bids, o ∈ allOrders b :=
  fun _ ho => List.mem_append_left _ ho

theorem mem_all_of_mem_asks {b : Book} : ∀ o ∈ fifoOrders b.asks, o ∈ allOrders b :=
  fun _ ho => List.mem_append_right _ ho

theorem MatchOrders_pred {G : Order → Prop}
    (hfill : ∀ o q, G o → (afterFill o q).isFilled = false → G (afterFill o q))
    {b b' : Book} {ts : Trades} (hw : WFm b) (h : ∀ o ∈ allOrders b, G o)
    (hm : MatchOrders b = some (b', ts)) : ∀ o ∈ allOrders b', G o := by
  exact matchLoop_pred hfill hw h (MatchOrders_some hm).1

theorem addOrder_pred {G : Order → Prop}
    (hfill : ∀ o q, G o → (afterFill o q).isFilled = false → G (afterFill o q))
    {b b' : Book} {o : Order} {ts : Trades} (hw : WF b) (h : ∀ x ∈ allOrders b, G x)
    (hin : ∀ o' : Order, o'.orderType ≠ OrderType.Market →
      o'.initialQuantity = o.initialQuantity → o'.remainingQuantity = o.remainingQuantity → G o')
    (ha : addOrder b o = some (b', ts)) : ∀ x ∈ allOrders b', G x := by
  rcases addOrder_cases ha with ⟨rfl, _⟩ | ⟨o', _, _, hi, hr, hnm, hmk, _, hl, hm⟩
  · exact h
  · have hl' : lookupKey o'.orderId b.orders = none := by
      rename_i hid _ _
      rw [hid]; exact hl
    apply MatchOrders_pred hfill (insertOrder_WFm hw.wfm hl') _ hm
    intro x hx
    rcases mem_allOrders_insertOrder.1 hx with rfl | hx
    · apply hin _ _ hi hr
      by_cases hty : o.orderType = OrderType.Market
      · rw [hmk hty]; decide
      · rw [hnm hty]; exact hty
    · exact h x hx

theorem ModifyOrder_pred {G : Order → Prop}
    (hfill : ∀ o q, G o → (afterFill o q).isFilled = false → G (afterFill o q))
    {b b' : Book} {m : OrderModify} {ts : Trades} (hw : WF b) (h : ∀ x ∈ allOrders b, G x)
    (hin : ∀ o' : Order, o'.orderType ≠ OrderType.Market →
      o'.initialQuantity = m.quantity → o'.remainingQuantity = m.quantity → G o')
    (hm : ModifyOrder b m = some (b', ts)) : ∀ x ∈ allOrders b', G x := by
  unfold ModifyOrder at hm
  split at hm
  · simp only [Option.some.injEq, Prod.mk.injEq] at hm
    obtain ⟨rfl, _⟩ := hm
    exact h
  · rename_i existing _
    split at hm
    · cases hm
    · rename_i b1 hc
      obtain ⟨hw1, hm1⟩ := cancelOrderInternal_mem hw hc
      exact addOrder_pred hfill hw1 (fun x hx => h x ((hm1 x).1 hx).1) hin hm

/-- No resting order has the type Market. -/
theorem Reachable.noMarket {b : Book} (h : Reachable b) :
    ∀ o ∈ allOrders b, o.orderType ≠ OrderType.Market := by
  have hfill : ∀ (o : Order) (q : Quantity), o.orderType ≠ OrderType.Market →
      (afterFill o q).isFilled = false → (afterFill o q).orderType ≠ OrderType.Market :=
    fun _ _ ho _ => ho
  induction h with
  | empty => intro o ho; simp [allOrders, fifoOrders, Book.empty] at ho
  | add type orderId side price quantity hr _ ha ih =>
    exact addOrder_pred hfill hr.wf ih (fun _ hty _ _ => hty) ha
  | cancel orderId hr hc ih =>
    obtain ⟨_, hm⟩ := cancelOrderInternal_mem hr.wf hc
    exact fun o ho => ih o ((hm o).1 ho).1
  | cancelMany orderIds hr hc ih =>
    obtain ⟨_, hm⟩ := cancelOrders_mem hr.wf hc
    exact fun o ho => ih o ((hm o).1 ho).1
  | modify m hr _ hm ih =>
    exact ModifyOrder_pred hfill hr.wf ih (fun _ hty _ _ => hty) hm

/-- No resting order has the type FillAndKill. -/
theorem Reachable.noFaK {b : Book} (h : Reachable b) : NoFaK b := by
  induction h with
  | empty => intro o ho; simp [allOrders, fifoOrders, Book.empty] at ho
  | @add b0 b1 ts type orderId side price quantity hr _ ha ih =>
    have : applyOp b0 (Op.add type orderId side price quantity) = some (b1, ts) := ha
    exact (applyOp_facts hr.wf ih this).2.1
  | @cancel b0 b1 orderId hr hc ih =>
    have : applyOp b0 (Op.cancel orderId) = some (b1, []) := by
      simp only [applyOp, hc, Option.map_some']
    exact (applyOp_facts hr.wf ih this).2.1
  | @cancelMany b0 b1 orderIds hr hc ih =>
    have : applyOp b0 (Op.cancelMany orderIds) = some (b1, []) := by
      simp only [applyOp, hc, Option.map_some']
    exact (applyOp_facts hr.wf ih this).2.1
  | @modify b0 b1 ts m hr _ hm ih =>
    have : applyOp b0 (Op.modify m) = some (b1, ts) := hm
    exact (applyOp_facts hr.wf ih this).2.1

/-! ## Calls that return -/

theorem frontNotFaK_of_noFaK {b : Book} (h : NoFaK b) :
    FrontNotFaK b.bids ∧ FrontNotFaK b.asks := by
  constructor
  · intro p o os rest hb
    exact h o (mem_all_of_mem_bids o (by rw [hb]; simp [fifoOrders]))
  · intro p o os rest ha
    exact h o (mem_all_of_mem_asks o (by rw [ha]; simp [fifoOrders]))

/-- On a consistent book without FillAndKill orders `MatchOrders` returns. -/
theorem MatchOrders_returns {b : Book} (hw : WFm b) (hnf : NoFaK b) :
    ∃ b' ts, MatchOrders b = some (b', ts) := by
  obtain ⟨r, hm⟩ := matchLoop_returns (b.bids.length + b.asks.length) b [] hw (le_refl _)
  obtain ⟨b1, ts⟩ := r
  have hfill : ∀ (o : Order) (q : Quantity), o.orderType ≠ OrderType.FillAndKill →
      (afterFill o q).isFilled = false → (afterFill o q).orderType ≠ OrderType.FillAndKill :=
    fun _ _ ho _ => ho
  have h1 : NoFaK b1 := matchLoop_pred hfill hw hnf hm
  obtain ⟨hf1, hf2⟩ := frontNotFaK_of_noFaK h1
  exact ⟨b1, ts, MatchOrders_of_loop hw hm hf1 hf2⟩

theorem noFaK_insertOrder {b : Book} (hnf : NoFaK b) {o : Order}
    (hty : o.orderType ≠ OrderType.FillAndKill) : NoFaK (insertOrder b o) := by
  intro y hy
  rcases mem_allOrders_insertOrder.1 hy with rfl | hy
  · exact hty
  · exact hnf y hy

/-- On a well-formed book without FillAndKill orders, `addOrder` of an order that is not
FillAndKill returns. -/
theorem addOrder_returns {b : Book} (hw : WF b) (hnf : NoFaK b) {o : Order}
    (hty : o.orderType ≠ OrderType.FillAndKill) : ∃ b' ts, addOrder b o = some (b', ts) := by
  unfold addOrder
  split
  · exact ⟨b, [], rfl⟩
  · rename_i hl
    have hl' : lookupKey o.orderId b.orders = none := by
      cases hc : lookupKey o.orderId b.orders with
      | none => rfl
      | some x => rw [hc] at hl; simp at hl
    split
    · exact ⟨b, [], rfl⟩
    · split
      · exact ⟨b, [], rfl⟩
      · split
        · rename_i ht
          rcases promoteMarket_spec b o ht with hp | ⟨p, hp⟩
          · rw [hp]; exact ⟨b, [], rfl⟩
          · rw [hp]
            exact MatchOrders_returns
              (insertOrder_WFm hw.wfm
                (o := { o with price := p, orderType := OrderType.GoodTillCancel }) hl')
              (noFaK_insertOrder hnf (by simp))
        · exact MatchOrders_returns (insertOrder_WFm hw.wfm hl') (noFaK_insertOrder hnf hty)

/-- On a well-formed book without FillAndKill orders `ModifyOrder` returns. -/
theorem ModifyOrder_returns {b : Book} (hw : WF b) (hnf : NoFaK b) (m : OrderModify) :
    ∃ b' ts, ModifyOrder b m = some (b', ts) := by
  unfold ModifyOrder
  cases hl : lookupKey m.orderId b.orders with
  | none => exact ⟨b, [], rfl⟩
  | some existing =>
    obtain ⟨b1, h1, hw1⟩ := cancelOrderInternal_WF hw m.orderId
    obtain ⟨_, hm1⟩ := cancelOrderInternal_mem hw h1
    simp only [cancelOrder, h1]
    have hex : existing ∈ allOrders b := (hw.wfm.core.indexOK.lookup hl).2
    exact addOrder_returns hw1 (fun y hy => hnf y ((hm1 y).1 hy).1) (hnf existing hex)

/-! ## Where an inserted order ends up -/

theorem pushOrder_lookup_last (f : Price → Price → Bool) (price : Price) (o : Order)
    (ls : Levels) :
    ∃ fifo, lookupKey price (pushOrder f price o ls) = some fifo ∧ fifo.getLast? = some o := by
  induction ls with
  | nil => exact ⟨[o], by simp [pushOrder, lookupKey], rfl⟩
  | cons l rest ih =>
    obtain ⟨p, os⟩ := l
    unfold pushOrder
    by_cases hp : p = price
    · rw [if_pos hp]
      exact ⟨os ++ [o], by simp [lookupKey, hp], by simp⟩
    · rw [if_neg hp]
      by_cases hb : f price p = true
      · rw [if_pos hb]
        exact ⟨[o], by simp [lookupKey], rfl⟩
      · rw [if_neg hb]
        obtain ⟨fifo, h1, h2⟩ := ih
        exact ⟨fifo, by simp only [lookupKey, if_neg hp]; exact h1, h2⟩

theorem mem_allOrders_sides (s : Side) (b : Book) (o : Order) :
    o ∈ allOrders b ↔ o ∈ fifoOrders (ownSide s b) ∨ o ∈ fifoOrders (oppSide s b) := by
  cases s with
  | Buy => simp [allOrders, ownSide, oppSide]
  | Sell => simp [allOrders, ownSide, oppSide, or_comm]

/-- After a sweep that filled the taker, the taker's id is out of the index. -/
theorem sweep_done_gone {s : Side} {t0 : Order} {b b1 : Book} {ts : Trades} (hw : WF b)
    (hl : lookupKey t0.orderId b.orders = none) (hw1 : WFm b1)
    (hd : SweepDone s t0 (ownSide s b) (fifoOrders (oppSide s b)) b1 ts) :
    lookupKey t0.orderId b1.orders = none := by
  obtain ⟨k, m, hdrop, _, _, hown, hfifo, _⟩ := hd
  have hnot := hw.wfm.core.indexOK.not_mem_of_lookup_none hl
  have hold : ∀ x ∈ allOrders b, x.orderId ≠ t0.orderId := by
    intro x hx heq
    exact hnot (heq ▸ List.mem_map_of_mem _ hx)
  have hM : ∀ x ∈ (fifoOrders (oppSide s b)).drop k, x ∈ allOrders b :=
    fun x hx => (mem_allOrders_sides s b x).2 (Or.inr (List.mem_of_mem_drop hx))
  rw [lookupKey_eq_none]
  intro e he heq
  obtain ⟨hk1, hall⟩ := hw1.core.indexOK.sound e he
  rcases (mem_allOrders_sides s b1 e.2).1 hall with hx | hx
  · have hx' : e.2 ∈ fifoOrders (ownSide s b) := by
      rcases hown with hown | hown
      · rw [hown] at hx
        simpa [fifoOrders] using hx
      · rw [hown] at hx; exact hx
    exact hold e.2 ((mem_allOrders_sides s b e.2).2 (Or.inl hx')) (hk1 ▸ heq)
  · rw [hfifo] at hx
    rcases mem_stepFifo hx with hx | hx
    · have hm := hM m (by rw [hdrop]; simp)
      apply hold m hm
      have e2 : e.2.orderId = m.orderId := by rw [hx]; rfl
      rw [← e2, ← hk1]; exact heq
    · have hm := hM e.2 (by rw [hdrop]; exact List.mem_cons_of_mem _ hx)
      exact hold e.2 hm (hk1 ▸ heq)

theorem ownSide_insertOrder (b : Book) (o : Order) :
    ownSide o.side (insertOrder b o) =
      pushOrder (if o.side = Side.Buy then bidBefore else askBefore) o.price o
        (ownSide o.side b) := by
  cases hs : o.side <;> simp [ownSide, insertOrder, hs]

/-- An order inserted under a fresh id and still in the index after matching is the same order up
to its remaining quantity, and it is the last order of the FIFO of its price on its side. -/
theorem insert_match_last {b b' : Book} (hw : WF b) {o x : Order} {ts : Trades}
    (hl : lookupKey o.orderId b.orders = none)
    (hfak : o.orderType = OrderType.FillAndKill → canMatch b o.side o.price = true)
    (hm : MatchOrders (insertOrder b o) = some (b', ts))
    (hx : lookupKey o.orderId b'.orders = some x) :
    SameOrder o x ∧
      ∃ fifo, lookupKey o.price (ownSide o.side b') = some fifo ∧ fifo.getLast? = some x := by
  have hwi := insertOrder_WFm hw.wfm hl
  by_cases hty : o.orderType = OrderType.FillAndKill
  · exfalso
    have hnone := MatchOrders_frontOrGone (Or.inr (insertOrder_frontIs hw hty (hfak hty))) hm
    rw [hnone] at hx
    cases hx
  · have hloop := (MatchOrders_some hm).1
    have hwm' := (matchLoop_WFm hwi hloop).1
    have huniq : ∀ y ∈ allOrders b', y.orderId = o.orderId → x = y := by
      intro y hy hid
      have := hwm'.core.indexOK.lookup_of_mem hy
      rw [hid, hx] at this
      exact Option.some.inj this
    by_cases hc : canMatch b o.side o.price = true
    · have hsw := insert_match_sweep hw hl hc hloop
      rcases hsw.2 with ⟨k, _, hown, _, _⟩ | hdone
      · have hmem : afterFill o (restingQty ((fifoOrders (oppSide o.side b)).take k)) ∈
            allOrders b' := by
          rw [mem_allOrders_sides o.side]
          left
          rw [hown]
          simp [fifoOrders]
        have hxe := huniq _ hmem rfl
        refine ⟨hxe ▸ SameOrder.afterFill o _, [x], ?_, rfl⟩
        rw [hown, hxe]
        simp [lookupKey]
      · have := sweep_done_gone hw hl hwm' hdone
        rw [this] at hx
        cases hx
    · have hc' : canMatch b o.side o.price = false := by simpa using hc
      have hs := settled_of_uncrossed (insertOrder_uncrossed hw hc')
      rw [matchLoop_settled hs] at hloop
      simp only [Option.some.injEq, Prod.mk.injEq] at hloop
      obtain ⟨rfl, _⟩ := hloop
      have hxe := huniq o (mem_allOrders_insertOrder.2 (Or.inl rfl)) rfl
      refine ⟨hxe ▸ SameOrder.refl o, ?_⟩
      rw [ownSide_insertOrder, hxe]
      exact pushOrder_lookup_last _ _ _ _

/-! ## Modify -/

/-- C13. For every reachable book state and every modify request whose id is in the index,
`ModifyOrder` returns, and returns what `cancelOrder` of the id followed by `addOrder` of a fresh
order with the request's price, side and quantity and the type the order had before returns; if the
id is in the index afterwards, its order has the pre-modify type and the request's side and price,
and it is the last order of the FIFO of its price on its side (whatever the request changes). -/
theorem modify_preserves_type {b : Book} (h : Reachable b) (m : OrderModify) (existing : Order)
    (hl : lookupKey m.orderId b.orders = some existing) :
    ∃ b1 b' ts, cancelOrder b m.orderId = some b1 ∧
      addOrder b1 (Order.new existing.orderType m.orderId m.side m.price m.quantity)
        = some (b', ts) ∧
      ModifyOrder b m = some (b', ts) ∧
      ∀ o, lookupKey m.orderId b'.orders = some o →
        o.orderType = existing.orderType ∧ o.side = m.side ∧ o.price = m.price ∧
          LastInLevel m.side o b' := by
  obtain ⟨b1, hc, hwm1, hnone, _⟩ := cancelOrderInternal_spec h.wf.wfm m.orderId
  obtain ⟨hw1, hmem1⟩ := cancelOrderInternal_mem h.wf hc
  have hex : existing ∈ allOrders b := (h.wf.wfm.core.indexOK.lookup hl).2
  have hnf1 : NoFaK b1 := fun y hy => h.noFaK y ((hmem1 y).1 hy).1
  obtain ⟨b', ts, ha⟩ := addOrder_returns hw1 hnf1
    (o := Order.new existing.orderType m.orderId m.side m.price m.quantity)
    (h.noFaK existing hex)
  have hmod : ModifyOrder b m = some (b', ts) := by
    simp only [ModifyOrder, hl, cancelOrder, hc, OrderModify.toOrderPointer]
    exact ha
  refine ⟨b1, b', ts, hc, ha, hmod, ?_⟩
  intro o ho
  have hnm : existing.orderType ≠ OrderType.Market := h.noMarket existing hex
  rcases addOrder_cases ha with ⟨rfl, _⟩ | ⟨o', _, _, _, _, hsame, _, hfak, hl1, hm⟩
  · rw [hnone] at ho
    cases ho
  · have ho' : o' = Order.new existing.orderType m.orderId m.side m.price m.quantity :=
      hsame hnm
    subst ho'
    obtain ⟨hso, fifo, hf1, hf2⟩ := insert_match_last hw1 hl1 hfak hm ho
    obtain ⟨_, hside, htype, hprice, _⟩ := hso
    refine ⟨htype, hside, hprice, fifo, ?_, hf2⟩
    rw [hprice]
    exact hf1

theorem modify_preserves_type_witness :
    Reachable bookS2 ∧ lookupKey s2Modify.orderId bookS2.orders = some s2Bid1 ∧
    ModifyOrder bookS2 s2Modify = some (bookS2Modified, []) ∧
    ∃ b1 b' ts, cancelOrder bookS2 s2Modify.orderId = some b1 ∧
      addOrder b1 (Order.new s2Bid1.orderType s2Modify.orderId s2Modify.side s2Modify.price
        s2Modify.quantity) = some (b', ts) ∧
      ModifyOrder bookS2 s2Modify = some (b', ts) ∧
      ∀ o, lookupKey s2Modify.orderId b'.orders = some o →
        o.orderType = s2Bid1.orderType ∧ o.side = s2Modify.side ∧ o.price = s2Modify.price ∧
          LastInLevel s2Modify.side o b' :=
  ⟨bookS2_reachable, by decide, by decide,
    modify_preserves_type bookS2_reachable s2Modify s2Bid1 (by decide)⟩

/-! ## Depth snapshot and size -/

theorem foldl_quantity_lt (os : List Order) :
    ∀ a, a < QMOD →
      os.foldl (fun runningSum order => (runningSum + order.remainingQuantity) % QMOD) a
        < QMOD := by
  induction os with
  | nil => intro a ha; exact ha
  | cons o os ih =>
    intro a _
    exact ih _ (Nat.mod_lt _ (by decide))

theorem foldl_quantity_mod (os : List Order) :
    ∀ a,
      (os.foldl (fun runningSum order => (runningSum + order.remainingQuantity) % QMOD) a) % QMOD
        = (a + restingQty os) % QMOD := by
  induction os with
  | nil => intro a; simp [restingQty]
  | cons o os ih =>
    intro a
    simp only [List.foldl_cons]
    rw [ih]
    simp only [restingQty, List.map_cons, List.sum_cons]
    rw [Nat.add_mod, Nat.mod_mod, ← Nat.add_mod, Nat.add_assoc]

theorem createLevelInfos_eq (price : Price) (os : List Order) :
    createLevelInfos price os = { price := price, quantity := restingQty os % QMOD } := by
  unfold createLevelInfos
  congr 1
  rw [← Nat.mod_eq_of_lt (foldl_quantity_lt os 0 (by decide)), foldl_quantity_mod, Nat.zero_add]

theorem IndexOK.length_eq {orders : List (OrderId × Order)} {all : List Order}
    (h : IndexOK orders all) : orders.length = all.length := by
  have hfst : orders.map Prod.fst = (orders.map Prod.snd).map Order.orderId := by
    rw [List.map_map]
    apply List.map_congr_left
    intro e he
    exact (h.sound e he).1
  have hnd : (orders.map Prod.snd).Nodup := by
    apply List.Nodup.of_map Order.orderId
    rw [← hfst]
    exact h.keysNodup
  have hnd2 : all.Nodup := List.Nodup.of_map Order.orderId h.idsNodup
  have hperm : (orders.map Prod.snd).Perm all := by
    rw [List.perm_ext_iff_of_nodup hnd hnd2]
    intro o
    constructor
    · intro ho
      obtain ⟨e, he, rfl⟩ := List.mem_map.1 ho
      exact (h.sound e he).2
    · intro ho
      exact List.mem_map.2 ⟨(o.orderId, o), h.complete o ho, rfl⟩
  have := hperm.length_eq
  simpa using this

theorem bookBig1_reachable : Reachable bookBig1 :=
  @Reachable.add Book.empty bookBig1 [] OrderType.GoodTillCancel 1 Side.Buy 100 2147483648
    Reachable.empty (by decide) (by decide)

theorem bookBig_reachable : Reachable bookBig :=
  @Reachable.add bookBig1 bookBig [] OrderType.GoodTillCancel 2 Side.Buy 100 2147483648
    bookBig1_reachable (by decide) (by decide)

/-- C14 (as stated, refuted). After the adds of two Buy GoodTillCancel orders of quantity `2^31`
at price 100 (ids 1 and 2) the level at 100 holds `2^32` in its FIFO, and `getOrderInfos` reports
the quantity 0 for it: the reported aggregate is not the sum of the remaining quantities. -/
theorem depth_snapshot_as_stated_fails :
    Reachable bookBig ∧
    bookBig.bids = [(100, [bigBid 1, bigBid 2])] ∧
    restingQty [bigBid 1, bigBid 2] = 4294967296 ∧
    getOrderInfos bookBig = { bids := [{ price := 100, quantity := 0 }], asks := [] } ∧
    ¬ ((getOrderInfos bookBig).bids =
        bookBig.bids.map (fun l => { price := l.1, quantity := restingQty l.2 })) := by
  refine ⟨bookBig_reachable, rfl, by decide, by decide, by decide⟩

/-- C14 (amended). For every reachable book state, `getOrderInfos` returns one entry per price
level of each side, in the order of the levels, bids in strictly decreasing and asks in strictly
increasing price order; every level holds at least one order; the quantity of an entry is the sum
of the remaining quantities of the level's FIFO modulo `2^32`, hence that sum when it is below
`2^32`; and `Size` is the total number of orders in all FIFOs. -/
theorem depth_snapshot_amended {b : Book} (h : Reachable b) :
    (getOrderInfos b).bids =
      b.bids.map (fun l => { price := l.1, quantity := restingQty l.2 % QMOD }) ∧
    (getOrderInfos b).asks =
      b.asks.map (fun l => { price := l.1, quantity := restingQty l.2 % QMOD }) ∧
    ((getOrderInfos b).bids.map LevelInfo.price).Pairwise (fun p q => q < p) ∧
    ((getOrderInfos b).asks.map LevelInfo.price).Pairwise (fun p q => p < q) ∧
    (∀ l ∈ b.bids ++ b.asks, l.2 ≠ [] ∧
      (restingQty l.2 < QMOD →
        createLevelInfos l.1 l.2 = { price := l.1, quantity := restingQty l.2 })) ∧
    Size b = (allOrders b).length := by
  have hw := h.wf.wfm
  have hb : (getOrderInfos b).bids =
      b.bids.map (fun l => { price := l.1, quantity := restingQty l.2 % QMOD }) := by
    simp only [getOrderInfos, createLevelInfos_eq]
  have ha : (getOrderInfos b).asks =
      b.asks.map (fun l => { price := l.1, quantity := restingQty l.2 % QMOD }) := by
    simp only [getOrderInfos, createLevelInfos_eq]
  refine ⟨hb, ha, ?_, ?_, ?_, ?_⟩
  · rw [hb, List.map_map, List.pairwise_map]
    exact hw.core.bidsOK.sorted
  · rw [ha, List.map_map, List.pairwise_map]
    exact hw.core.asksOK.sorted
  · intro l hl
    constructor
    · rcases List.mem_append.1 hl with hl | hl
      · exact hw.bidsNonempty l hl
      · exact hw.asksNonempty l hl
    · intro hlt
      rw [createLevelInfos_eq, Nat.mod_eq_of_lt hlt]
  · exact hw.core.indexOK.length_eq

theorem depth_snapshot_amended_witness :
    Reachable bookS1 ∧
    addOrder bookS1a (Order.new OrderType.GoodTillCancel 2 Side.Sell 100 6)
      = some (bookS1, s1Trades) ∧
    getOrderInfos bookS1 = { bids := [{ price := 100, quantity := 4 }], asks := [] } ∧
    ((getOrderInfos bookS1).bids =
      bookS1.bids.map (fun l => { price := l.1, quantity := restingQty l.2 % QMOD }) ∧
    (getOrderInfos bookS1).asks =
      bookS1.asks.map (fun l => { price := l.1, quantity := restingQty l.2 % QMOD }) ∧
    ((getOrderInfos bookS1).bids.map LevelInfo.price).Pairwise (fun p q => q < p) ∧
    ((getOrderInfos bookS1).asks.map LevelInfo.price).Pairwise (fun p q => p < q) ∧
    (∀ l ∈ bookS1.bids ++ bookS1.asks, l.2 ≠ [] ∧
      (restingQty l.2 < QMOD →
        createLevelInfos l.1 l.2 = { price := l.1, quantity := restingQty l.2 })) ∧
    Size bookS1 = (allOrders bookS1).length) :=
  ⟨bookS1_reachable, by decide, by decide, depth_snapshot_amended bookS1_reachable⟩

/-! ## Runs of operations: no failing call, order quantities -/

theorem applyOp_WF_of_eq {b b' : Book} {op : Op} {ts : Trades} (h : WF b)
    (ha : applyOp b op = some (b', ts)) : WF b' := by
  cases op with
  | add type orderId side price quantity => exact addOrder_WF h ha
  | cancel orderId =>
    obtain ⟨b1, hc, hw⟩ := cancelOrderInternal_WF h orderId
    simp only [applyOp, cancelOrder, hc, Option.map_some', Option.some.injEq,
      Prod.mk.injEq] at ha
    rw [← ha.1]; exact hw
  | cancelMany orderIds =>
    obtain ⟨b1, hc, hw⟩ := cancelOrders_WF h orderIds
    simp only [applyOp, hc, Option.map_some', Option.some.injEq, Prod.mk.injEq] at ha
    rw [← ha.1]; exact hw
  | modify m => exact ModifyOrder_WF h ha

/-! ### The two embeddings of a call agree -/

theorem cancelFrontLocked_toOption (b : Book) (side : Levels) :
    (cancelFrontFillAndKillLocked Mutex.held b side).toOption = cancelFrontFillAndKill b side := by
  unfold cancelFrontFillAndKillLocked cancelFrontFillAndKill
  split
  · rfl
  · rfl
  · split <;> rfl

theorem MatchOrdersLocked_toOption (b : Book) :
    (MatchOrdersLocked Mutex.held b).toOption = MatchOrders b := by
  unfold MatchOrdersLocked MatchOrders
  cases matchLoop (b.bids.length + b.asks.length) b [] with
  | none => rfl
  | some r =>
    obtain ⟨b1, ts⟩ := r
    simp only
    rw [← cancelFrontLocked_toOption b1 b1.bids]
    cases cancelFrontFillAndKillLocked Mutex.held b1 b1.bids with
    | error e => rfl
    | ok b2 =>
      simp only [Except.toOption]
      rw [← cancelFrontLocked_toOption b2 b2.asks]
      cases cancelFrontFillAndKillLocked Mutex.held b2 b2.asks with
      | error e => rfl
      | ok b3 => rfl

theorem addOrderLocked_toOption (b : Book) (o : Order) :
    (addOrderLocked Mutex.free b o).toOption = addOrder b o := by
  unfold addOrderLocked addOrder
  simp only [scopedLock]
  split
  · rfl
  · split
    · rfl
    · split
      · rfl
      · split
        · rename_i ht
          rcases promoteMarket_spec b o ht with hp | ⟨p, hp⟩
          · rw [hp]; rfl
          · rw [hp]
            exact MatchOrdersLocked_toOption _
        · exact MatchOrdersLocked_toOption _

theorem applyOpLocked_toOption {b : Book} (hw : WF b) (op : Op) :
    (applyOpLocked b op).toOption = applyOp b op := by
  cases op with
  | add type orderId side price quantity => exact addOrderLocked_toOption b _
  | cancel orderId =>
    simp only [applyOpLocked, applyOp, cancelOrderLocked, scopedLock, cancelOrder]
    cases cancelOrderInternal b orderId <;> rfl
  | cancelMany orderIds =>
    simp only [applyOpLocked, applyOp, cancelOrdersLocked, scopedLock]
    cases cancelOrders b orderIds <;> rfl
  | modify m =>
    simp only [applyOpLocked, applyOp, ModifyOrderLocked, ModifyOrder, scopedLock,
      cancelOrderLocked, cancelOrder]
    cases lookupKey m.orderId b.orders with
    | none => rfl
    | some existing =>
      simp only
      obtain ⟨b1, hc, hw1⟩ := cancelOrderInternal_WF hw m.orderId
      rw [hc]
      exact addOrderLocked_toOption b1 _

/-! ### No call raises -/

theorem cancelFrontLocked_not_thrown (b : Book) {side : Levels} (hne : NonemptyLevels side) :
    cancelFrontFillAndKillLocked Mutex.held b side ≠ Except.error Fault.thrown := by
  unfold cancelFrontFillAndKillLocked
  split
  · intro h; cases h
  · rename_i p rest
    exact absurd rfl (hne (p, []) (by simp))
  · split
    · intro h
      simp only [cancelOrderLocked, scopedLock] at h
      cases h
    · intro h; cases h

theorem MatchOrdersLocked_not_thrown {b : Book} (hw : WFm b) :
    MatchOrdersLocked Mutex.held b ≠ Except.error Fault.thrown := by
  obtain ⟨r, hm⟩ := matchLoop_returns (b.bids.length + b.asks.length) b [] hw (le_refl _)
  obtain ⟨b1, ts⟩ := r
  have hw1 := (matchLoop_WFm hw hm).1
  unfold MatchOrdersLocked
  rw [hm]
  simp only
  have h1 := cancelFrontLocked_not_thrown b1 hw1.bidsNonempty
  have e1 := cancelFrontLocked_toOption b1 b1.bids
  cases hc1 : cancelFrontFillAndKillLocked Mutex.held b1 b1.bids with
  | error e =>
    simp only
    intro h
    rw [hc1] at h1
    exact h1 (by rw [Except.error.inj h])
  | ok b2 =>
    rw [hc1] at e1
    obtain ⟨rfl, _⟩ := cancelFront_some e1.symm
    simp only
    have h2 := cancelFrontLocked_not_thrown b2 hw1.asksNonempty
    cases hc2 : cancelFrontFillAndKillLocked Mutex.held b2 b2.asks with
    | error e =>
      simp only
      intro h
      rw [hc2] at h2
      exact h2 (by rw [Except.error.inj h])
    | ok b3 =>
      simp only
      intro h
      cases h

theorem addOrderLocked_not_thrown {b : Book} (hw : WF b) (o : Order) :
    addOrderLocked Mutex.free b o ≠ Except.error Fault.thrown := by
  unfold addOrderLocked
  simp only [scopedLock]
  split
  · intro h; cases h
  · rename_i hl
    have hl' : lookupKey o.orderId b.orders = none := by
      cases hc : lookupKey o.orderId b.orders with
      | none => rfl
      | some x => rw [hc] at hl; simp at hl
    split
    · intro h; cases h
    · split
      · intro h; cases h
      · split
        · rename_i ht
          rcases promoteMarket_spec b o ht with hp | ⟨p, hp⟩
          · rw [hp]
            intro h; cases h
          · rw [hp]
            exact MatchOrdersLocked_not_thrown
              (insertOrder_WFm hw.wfm
                (o := { o with price := p, orderType := OrderType.GoodTillCancel }) hl')
        · exact MatchOrdersLocked_not_thrown (insertOrder_WFm hw.wfm hl')

theorem applyOpLocked_not_thrown {b : Book} (hw : WF b) (op : Op) :
    applyOpLocked b op ≠ Except.error Fault.thrown := by
  cases op with
  | add type orderId side price quantity => exact addOrderLocked_not_thrown hw _
  | cancel orderId =>
    obtain ⟨b1, hc, _⟩ := cancelOrderInternal_WF hw orderId
    simp only [applyOpLocked, cancelOrderLocked, scopedLock, hc]
    intro h; cases h
  | cancelMany orderIds =>
    obtain ⟨b1, hc, _⟩ := cancelOrders_WF hw orderIds
    simp only [applyOpLocked, cancelOrdersLocked, scopedLock, hc]
    intro h; cases h
  | modify m =>
    simp only [applyOpLocked, ModifyOrderLocked, scopedLock, cancelOrderLocked]
    cases lookupKey m.orderId b.orders with
    | none => intro h; cases h
    | some existing =>
      simp only
      obtain ⟨b1, hc, hw1⟩ := cancelOrderInternal_WF hw m.orderId
      rw [hc]
      exact addOrderLocked_not_thrown hw1 _

theorem runOpsLocked_not_thrown (ops : List Op) :
    ∀ b, WF b → runOpsLocked b ops ≠ Except.error Fault.thrown := by
  induction ops with
  | nil => intro b _ h; cases h
  | cons op ops ih =>
    intro b hw
    have h1 := applyOpLocked_not_thrown hw op
    have e1 := applyOpLocked_toOption hw op
    unfold runOpsLocked
    cases ha : applyOpLocked b op with
    | error e =>
      simp only
      intro h
      rw [ha] at h1
      exact h1 (by rw [Except.error.inj h])
    | ok r =>
      obtain ⟨b1, ts⟩ := r
      simp only
      rw [ha] at e1
      exact ih b1 (applyOp_WF_of_eq hw e1.symm)

/-! ### Calls that return -/

theorem applyOp_returns {b : Book} (hw : WF b) (hnf : NoFaK b) {op : Op}
    (hop : ¬ submitsFillAndKill op) : ∃ b' ts, applyOp b op = some (b', ts) := by
  cases op with
  | add type orderId side price quantity =>
    exact addOrder_returns hw hnf (o := Order.new type orderId side price quantity) hop
  | cancel orderId =>
    obtain ⟨b', hc, _⟩ := cancelOrderInternal_WF hw orderId
    exact ⟨b', [], by simp only [applyOp, cancelOrder, hc, Option.map_some']⟩
  | cancelMany orderIds =>
    obtain ⟨b', hc, _⟩ := cancelOrders_WF hw orderIds
    exact ⟨b', [], by simp only [applyOp, hc, Option.map_some']⟩
  | modify m => exact ModifyOrder_returns hw hnf m

theorem runOps_returns (ops : List Op) :
    ∀ b, WF b → NoFaK b → (∀ op ∈ ops, ¬ submitsFillAndKill op) →
      ∃ b', runOps b ops = some b' ∧ WF b' ∧ NoFaK b' := by
  induction ops with
  | nil => exact fun b h hnf _ => ⟨b, rfl, h, hnf⟩
  | cons op ops ih =>
    intro b h hnf hops
    obtain ⟨b1, ts, h1⟩ := applyOp_returns h hnf (hops op (by simp))
    obtain ⟨hw1, hnf1, _⟩ := applyOp_facts h hnf h1
    obtain ⟨b', h2, hw', hnf'⟩ := ih b1 hw1 hnf1 (fun op' hop' =>
      hops op' (List.mem_cons_of_mem _ hop'))
    exact ⟨b', by simp only [runOps, h1]; exact h2, hw', hnf'⟩

theorem runOps_WF (ops : List Op) :
    ∀ b b', WF b → NoFaK b → runOps b ops = some b' → WF b' ∧ NoFaK b' := by
  induction ops with
  | nil =>
    intro b b' h hnf hrun
    simp only [runOps, Option.some.injEq] at hrun
    subst hrun
    exact ⟨h, hnf⟩
  | cons op ops ih =>
    intro b b' h hnf hrun
    simp only [runOps] at hrun
    cases ha : applyOp b op with
    | none => rw [ha] at hrun; cases hrun
    | some r =>
      obtain ⟨b1, ts⟩ := r
      rw [ha] at hrun
      simp only at hrun
      obtain ⟨hw1, hnf1, _⟩ := applyOp_facts h hnf ha
      exact ih b1 b' hw1 hnf1 hrun

theorem noFaK_empty : NoFaK Book.empty := by
  intro o ho
  simp [allOrders, fifoOrders, Book.empty] at ho

theorem ok_or_relock {α : Type} {x : Except Fault α} (h : x ≠ Except.error Fault.thrown) :
    (∃ a, x = Except.ok a) ∨ x = Except.error Fault.relock := by
  cases x with
  | ok a => exact Or.inl ⟨a, rfl⟩
  | error e =>
    cases e with
    | thrown => exact absurd rfl h
    | relock => exact Or.inr rfl

theorem runOpsLocked_toOption (ops : List Op) :
    ∀ b, WF b → (runOpsLocked b ops).toOption = runOps b ops := by
  induction ops with
  | nil => intro b _; rfl
  | cons op ops ih =>
    intro b hw
    have e1 := applyOpLocked_toOption hw op
    unfold runOpsLocked runOps
    cases ha : applyOpLocked b op with
    | error e =>
      rw [ha] at e1
      rw [← e1]
      rfl
    | ok r =>
      obtain ⟨b1, ts⟩ := r
      rw [ha] at e1
      rw [← e1]
      exact ih b1 (applyOp_WF_of_eq hw e1.symm)

/-- C16. For every sequence of `addOrder`, `cancelOrder`, `cancelOrders` and `ModifyOrder` calls
starting from the empty book, no call raises: the run either returns or stops at a call that
attempts to lock the mutex it holds, and on every book a run reaches each further call does one
of the two.  In the embedding a throwing `Order::Fill`, a throwing `toGoodTillCancel`, a cancel
that looks up a price level absent from its side, and `front()` of an empty FIFO in the post-match
step each end the call in `Fault.thrown`; so none of them occurs.  When no call of the sequence
adds a FillAndKill order, every call returns, and so does any further such call. -/
theorem internal_errors_unreachable (ops : List Op) :
    ((∃ b, runOpsLocked Book.empty ops = Except.ok b ∧ runOps Book.empty ops = some b) ∨
      (runOpsLocked Book.empty ops = Except.error Fault.relock ∧
        runOps Book.empty ops = none)) ∧
    (∀ b, runOps Book.empty ops = some b → ∀ op,
      (∃ b' ts, applyOpLocked b op = Except.ok (b', ts) ∧ applyOp b op = some (b', ts)) ∨
      (applyOpLocked b op = Except.error Fault.relock ∧ applyOp b op = none)) ∧
    ((∀ op ∈ ops, ¬ submitsFillAndKill op) →
      ∃ b, runOps Book.empty ops = some b ∧
        ∀ op, ¬ submitsFillAndKill op → ∃ b' ts, applyOp b op = some (b', ts)) := by
  refine ⟨?_, ?_, ?_⟩
  · have e := runOpsLocked_toOption ops Book.empty WF_empty
    rcases ok_or_relock (runOpsLocked_not_thrown ops Book.empty WF_empty) with ⟨b, hb⟩ | hr
    · left
      rw [hb] at e
      exact ⟨b, hb, e.symm⟩
    · right
      rw [hr] at e
      exact ⟨hr, e.symm⟩
  · intro b hrun op
    have hw := (runOps_WF ops Book.empty b WF_empty noFaK_empty hrun).1
    have e := applyOpLocked_toOption hw op
    rcases ok_or_relock (applyOpLocked_not_thrown hw op) with ⟨r, hr⟩ | hr
    · left
      obtain ⟨b', ts⟩ := r
      rw [hr] at e
      exact ⟨b', ts, hr, e.symm⟩
    · right
      rw [hr] at e
      exact ⟨hr, e.symm⟩
  · intro hops
    obtain ⟨b, hrun, hw, hnf⟩ := runOps_returns ops Book.empty WF_empty noFaK_empty hops
    exact ⟨b, hrun, fun op hop => applyOp_returns hw hnf hop⟩

/-! ### Order quantities -/

theorem quantity_fill (z : Bool) (o : Order) (q : Quantity)
    (h : o.remainingQuantity ≤ o.initialQuantity ∧
      (0 < o.initialQuantity → 0 < o.remainingQuantity) ∧
      (z = true → 0 < o.remainingQuantity))
    (hf : (afterFill o q).isFilled = false) :
    (afterFill o q).remainingQuantity ≤ (afterFill o q).initialQuantity ∧
      (0 < (afterFill o q).initialQuantity → 0 < (afterFill o q).remainingQuantity) ∧
      (z = true → 0 < (afterFill o q).remainingQuantity) := by
  simp only [afterFill, Order.isFilled, beq_eq_false_iff_ne, ne_eq] at hf ⊢
  obtain ⟨h1, _⟩ := h
  dsimp only [Quantity] at *
  omega

theorem applyOp_quantity (z : Bool) {b b' : Book} {op : Op} {ts : Trades} (hw : WF b)
    (h : ∀ o ∈ allOrders b,
      o.remainingQuantity ≤ o.initialQuantity ∧
        (0 < o.initialQuantity → 0 < o.remainingQuantity) ∧
        (z = true → 0 < o.remainingQuantity))
    (hpos : z = true → positiveQty op)
    (ha : applyOp b op = some (b', ts)) :
    ∀ o ∈ allOrders b',
      o.remainingQuantity ≤ o.initialQuantity ∧
        (0 < o.initialQuantity → 0 < o.remainingQuantity) ∧
        (z = true → 0 < o.remainingQuantity) := by
  cases op with
  | add type orderId side price quantity =>
    apply addOrder_pred (quantity_fill z) hw h _ ha
    intro o' _ hi hr
    simp only [Order.new] at hi hr
    rw [hi, hr]
    exact ⟨le_refl _, fun h0 => h0, fun hz => hpos hz⟩
  | cancel orderId =>
    simp only [applyOp, cancelOrder] at ha
    cases hc : cancelOrderInternal b orderId with
    | none => rw [hc] at ha; cases ha
    | some b1 =>
      rw [hc] at ha
      simp only [Option.map_some', Option.some.injEq, Prod.mk.injEq] at ha
      obtain ⟨rfl, _⟩ := ha
      obtain ⟨_, hm⟩ := cancelOrderInternal_mem hw hc
      exact fun o ho => h o ((hm o).1 ho).1
  | cancelMany orderIds =>
    simp only [applyOp] at ha
    cases hc : cancelOrders b orderIds with
    | none => rw [hc] at ha; cases ha
    | some b1 =>
      rw [hc] at ha
      simp only [Option.map_some', Option.some.injEq, Prod.mk.injEq] at ha
      obtain ⟨rfl, _⟩ := ha
      obtain ⟨_, hm⟩ := cancelOrders_mem hw hc
      exact fun o ho => h o ((hm o).1 ho).1
  | modify m =>
    apply ModifyOrder_pred (quantity_fill z) hw h _ ha
    intro o' _ hi hr
    rw [hi, hr]
    exact ⟨le_refl _, fun h0 => h0, fun hz => hpos hz⟩

theorem runOps_quantity (z : Bool) (ops : List Op) :
    ∀ b b', WF b →
      (∀ o ∈ allOrders b,
        o.remainingQuantity ≤ o.initialQuantity ∧
        (0 < o.initialQuantity → 0 < o.remainingQuantity) ∧
        (z = true → 0 < o.remainingQuantity)) →
      (z = true → ∀ op ∈ ops, positiveQty op) →
      runOps b ops = some b' →
      ∀ o ∈ allOrders b',
        o.remainingQuantity ≤ o.initialQuantity ∧
        (0 < o.initialQuantity → 0 < o.remainingQuantity) ∧
        (z = true → 0 < o.remainingQuantity) := by
  induction ops with
  | nil =>
    intro b b' _ h _ hrun
    simp only [runOps, Option.some.injEq] at hrun
    subst hrun
    exact h
  | cons op ops ih =>
    intro b b' hw h hpos hrun
    simp only [runOps] at hrun
    cases ha : applyOp b op with
    | none => rw [ha] at hrun; cases hrun
    | some r =>
      obtain ⟨b1, ts⟩ := r
      rw [ha] at hrun
      simp only at hrun
      exact ih b1 b' (applyOp_WF_of_eq hw ha)
        (applyOp_quantity z hw h (fun hz => hpos hz op (by simp)) ha)
        (fun hz op' hop => hpos hz op' (List.mem_cons_of_mem _ hop)) hrun

theorem bookZero_reachable : Reachable bookZero :=
  @Reachable.add Book.empty bookZero [] OrderType.GoodTillCancel 1 Side.Buy 100 0
    Reachable.empty (by decide) (by decide)

/-- C15 (as stated, refuted). The add of a Buy GoodTillCancel order id 1 at 100 of quantity 0 to
the empty book returns with the order resting, its remaining quantity being 0: not every resting
order of a reachable state has a positive remaining quantity. -/
theorem order_quantity_invariant_as_stated_fails :
    runOps Book.empty [Op.add OrderType.GoodTillCancel 1 Side.Buy 100 0] = some bookZero ∧
    Reachable bookZero ∧
    allOrders bookZero = [Order.new OrderType.GoodTillCancel 1 Side.Buy 100 0] ∧
    ¬ (∀ o ∈ allOrders bookZero,
        o.remainingQuantity ≤ o.initialQuantity ∧ 0 < o.remainingQuantity) := by
  refine ⟨by decide, bookZero_reachable, by decide, ?_⟩
  intro h
  have := (h (Order.new OrderType.GoodTillCancel 1 Side.Buy 100 0) (by decide)).2
  exact absurd this (by decide)

/-- C15 (amended). For every state reached from the empty book by `addOrder`, `cancelOrder`,
`cancelOrders` and `ModifyOrder` calls (with orders of any quantity, including 0), every resting
order has a remaining quantity at most its initial quantity, and a positive remaining quantity
unless its initial quantity is 0; so when every add and every modify of the run submitted a
positive quantity, every resting order has a positive remaining quantity. -/
theorem order_quantity_invariant_amended (ops : List Op) (b : Book)
    (hrun : runOps Book.empty ops = some b) :
    (∀ o ∈ allOrders b, o.remainingQuantity ≤ o.initialQuantity ∧
      (0 < o.initialQuantity → 0 < o.remainingQuantity)) ∧
    ((∀ op ∈ ops, positiveQty op) → ∀ o ∈ allOrders b, 0 < o.remainingQuantity) := by
  have hempty : ∀ (z : Bool), ∀ o ∈ allOrders Book.empty,
      o.remainingQuantity ≤ o.initialQuantity ∧
        (0 < o.initialQuantity → 0 < o.remainingQuantity) ∧
        (z = true → 0 < o.remainingQuantity) := by
    intro z o ho
    simp [allOrders, fifoOrders, Book.empty] at ho
  constructor
  · intro o ho
    have := runOps_quantity false ops Book.empty b WF_empty (hempty false)
      (fun hz => by cases hz) hrun o ho
    exact ⟨this.1, this.2.1⟩
  · intro hpos o ho
    exact (runOps_quantity true ops Book.empty b WF_empty (hempty true)
      (fun _ => hpos) hrun o ho).2.2 rfl

theorem order_quantity_invariant_amended_witness :
    runOps Book.empty s1Ops = some bookS1 ∧
    ((∀ o ∈ allOrders bookS1, o.remainingQuantity ≤ o.initialQuantity ∧
      (0 < o.initialQuantity → 0 < o.remainingQuantity)) ∧
    ((∀ op ∈ s1Ops, positiveQty op) → ∀ o ∈ allOrders bookS1, 0 < o.remainingQuantity)) :=
  ⟨by decide, order_quantity_invariant_amended s1Ops bookS1 (by decide)⟩

/-! ## Cancelling keeps the other orders in place; the GoodForDay sweep -/

theorem filter_id_ne_of_not_mem {l : List Order} {id : OrderId}
    (h : id ∉ l.map Order.orderId) : l.filter (fun x => decide (x.orderId ≠ id)) = l := by
  rw [List.filter_eq_self]
  intro x hx
  simp only [ne_eq, decide_eq_true_eq]
  intro heq
  exact h (heq ▸ List.mem_map_of_mem _ hx)

theorem filter_id_ne_mid {A B : List Order} {o : Order}
    (hn : ((A ++ o :: B).map Order.orderId).Nodup) :
    (A ++ o :: B).filter (fun x => decide (x.orderId ≠ o.orderId)) = A ++ B := by
  have hA : ∀ x ∈ A, x.orderId ≠ o.orderId :=
    fun x hx => id_ne_of_nodup hn (List.mem_append_left _ hx)
  have hB : ∀ x ∈ B, x.orderId ≠ o.orderId :=
    fun x hx => id_ne_of_nodup hn (List.mem_append_right _ hx)
  rw [List.filter_append, List.filter_cons]
  simp only [ne_eq, not_true_eq_false, decide_False, Bool.false_eq_true, if_false]
  congr 1
  · rw [List.filter_eq_self]
    intro x hx
    simpa using hA x hx
  · rw [List.filter_eq_self]
    intro x hx
    simpa using hB x hx

/-- A cancel removes the order of the given id from its FIFO and leaves every other order where
it is, on both sides. -/
theorem cancelOrderInternal_fifo {b b' : Book} (h : WFm b) {id : OrderId}
    (hc : cancelOrderInternal b id = some b') :
    fifoOrders b'.bids = (fifoOrders b.bids).filter (fun x => decide (x.orderId ≠ id)) ∧
    fifoOrders b'.asks = (fifoOrders b.asks).filter (fun x => decide (x.orderId ≠ id)) := by
  have hidn := h.core.indexOK.idsNodup
  unfold allOrders at hidn
  rw [List.map_append, List.nodup_append] at hidn
  cases hl : lookupKey id b.orders with
  | none =>
    simp only [cancelOrderInternal, hl, Option.some.injEq] at hc
    subst hc
    have hnot := h.core.indexOK.not_mem_of_lookup_none hl
    unfold allOrders at hnot
    rw [List.map_append, List.mem_append, not_or] at hnot
    exact ⟨(filter_id_ne_of_not_mem hnot.1).symm, (filter_id_ne_of_not_mem hnot.2).symm⟩
  | some o =>
    obtain ⟨hoid, hoall⟩ := h.core.indexOK.lookup hl
    by_cases hs : o.side = Side.Sell
    · have hoa := (mem_side_of_mem_all h.core hoall).1 hs
      obtain ⟨asks', he, _, _, _, _, A, B, hAB, hAB'⟩ :=
        eraseFromLevels_spec (R := fun a c => a < c) (fun a => lt_irrefl a) h.core.asksOK
          h.asksNonempty hoa hidn.2.1
      simp only [cancelOrderInternal, hl, hs, he, if_true, Option.some.injEq] at hc
      subst hc
      have hnb : id ∉ (fifoOrders b.bids).map Order.orderId := by
        intro hin
        exact hidn.2.2 hin (hoid ▸ List.mem_map_of_mem _ hoa)
      refine ⟨(filter_id_ne_of_not_mem hnb).symm, ?_⟩
      show fifoOrders asks' = _
      have hn := hidn.2.1
      rw [hAB] at hn
      rw [hAB', hAB, ← hoid, filter_id_ne_mid hn]
    · have hob := (mem_side_of_mem_all h.core hoall).2 hs
      obtain ⟨bids', he, _, _, _, _, A, B, hAB, hAB'⟩ :=
        eraseFromLevels_spec (R := fun a c => c < a) (fun a => lt_irrefl a) h.core.bidsOK
          h.bidsNonempty hob hidn.1
      simp only [cancelOrderInternal, hl, hs, he, if_false, Option.some.injEq] at hc
      subst hc
      have hna : id ∉ (fifoOrders b.asks).map Order.orderId := by
        intro hin
        exact hidn.2.2 (hoid ▸ List.mem_map_of_mem _ hob) hin
      refine ⟨?_, (filter_id_ne_of_not_mem hna).symm⟩
      show fifoOrders bids' = _
      have hn := hidn.1
      rw [hAB] at hn
      rw [hAB', hAB, ← hoid, filter_id_ne_mid hn]

theorem cancelOrders_fifo {b b' : Book} (h : WF b) {ids : List OrderId}
    (hc : cancelOrders b ids = some b') :
    fifoOrders b'.bids = (fifoOrders b.bids).filter (fun x => decide (x.orderId ∉ ids)) ∧
    fifoOrders b'.asks = (fifoOrders b.asks).filter (fun x => decide (x.orderId ∉ ids)) := by
  induction ids generalizing b with
  | nil =>
    simp only [cancelOrders, Option.some.injEq] at hc
    subst hc
    simp
  | cons id ids ih =>
    simp only [cancelOrders] at hc
    cases h1 : cancelOrderInternal b id with
    | none => rw [h1] at hc; cases hc
    | some b1 =>
      rw [h1] at hc
      simp only at hc
      obtain ⟨hw1, _⟩ := cancelOrderInternal_mem h h1
      obtain ⟨e1, e2⟩ := cancelOrderInternal_fifo h.wfm h1
      obtain ⟨i1, i2⟩ := ih hw1 hc
      rw [i1, i2, e1, e2, List.filter_filter, List.filter_filter]
      constructor <;>
      · apply List.filter_congr
        intro x _
        simp only [List.mem_cons, not_or, ne_eq, Bool.decide_and, Bool.and_comm]

/-- Cancelling a list of ids is cancelling them one by one in list order. -/
theorem cancelOrders_eq_foldlM (ids : List OrderId) :
    ∀ b, cancelOrders b ids = ids.foldlM cancelOrder b := by
  induction ids with
  | nil => intro b; rfl
  | cons id ids ih =>
    intro b
    simp only [cancelOrders, List.foldlM, cancelOrder]
    cases cancelOrderInternal b id with
    | none => rfl
    | some b1 => exact ih b1

theorem mem_goodForDayIds {b : Book} (h : WFm b) {o : Order} (ho : o ∈ allOrders b) :
    o.orderId ∈ goodForDayIds b ↔ o.orderType = OrderType.GoodForDay := by
  unfold goodForDayIds
  constructor
  · intro hin
    obtain ⟨e, he, hid⟩ := List.mem_map.1 hin
    obtain ⟨he1, he2⟩ := List.mem_filter.1 he
    have hty : e.2.orderType = OrderType.GoodForDay := by simpa using he2
    have := eq_of_same_id h.core.indexOK.idsNodup (h.core.indexOK.sound e he1).2 ho hid
    rw [← this]
    exact hty
  · intro hty
    exact List.mem_map.2 ⟨(o.orderId, o),
      List.mem_filter.2 ⟨h.core.indexOK.complete o ho, by simpa using hty⟩, rfl⟩

theorem bookGfd_reachable : Reachable bookGfd :=
  @Reachable.add restingBook bookGfd [] OrderType.GoodForDay 40 Side.Buy 99 7
    restingBook_reachable (by decide) (by decide)

/-- C17. For every reachable book state, one cycle of `pruneGoodForDayOrders` after the deadline
(collect the ids of the GoodForDay orders of the index, then `cancelOrders` on them) returns a
state in which no resting order is GoodForDay; on each side the resting orders are the former ones
that are not GoodForDay, unchanged (price and remaining quantity included) and in their former
order; `Size` has decreased by exactly the number of GoodForDay orders that were resting; the
cycle yields a book only, so no trade; and `cancelOrders` on a list of ids is `cancelOrder` of the
ids one by one in list order. -/
theorem goodForDay_sweep {b : Book} (h : Reachable b) :
    ∃ b', pruneGoodForDayOrders b = some b' ∧
      (∀ o ∈ allOrders b', o.orderType ≠ OrderType.GoodForDay) ∧
      fifoOrders b'.bids =
        (fifoOrders b.bids).filter (fun o => decide (o.orderType ≠ OrderType.GoodForDay)) ∧
      fifoOrders b'.asks =
        (fifoOrders b.asks).filter (fun o => decide (o.orderType ≠ OrderType.GoodForDay)) ∧
      Size b' + ((allOrders b).filter
        (fun o => decide (o.orderType = OrderType.GoodForDay))).length = Size b ∧
      ∀ (b0 : Book) (ids : List OrderId), cancelOrders b0 ids = ids.foldlM cancelOrder b0 := by
  have hw := h.wf
  obtain ⟨b', hc, hw'⟩ := cancelOrders_WF hw (goodForDayIds b)
  obtain ⟨e1, e2⟩ := cancelOrders_fifo hw hc
  have hb : fifoOrders b'.bids =
      (fifoOrders b.bids).filter (fun o => decide (o.orderType ≠ OrderType.GoodForDay)) := by
    rw [e1]
    apply List.filter_congr
    intro x hx
    have := mem_goodForDayIds hw.wfm (mem_all_of_mem_bids x hx)
    simp only [this]
  have ha : fifoOrders b'.asks =
      (fifoOrders b.asks).filter (fun o => decide (o.orderType ≠ OrderType.GoodForDay)) := by
    rw [e2]
    apply List.filter_congr
    intro x hx
    have := mem_goodForDayIds hw.wfm (mem_all_of_mem_asks x hx)
    simp only [this]
  have hall : allOrders b' =
      (allOrders b).filter (fun o => decide (o.orderType ≠ OrderType.GoodForDay)) := by
    unfold allOrders
    rw [hb, ha, List.filter_append]
  refine ⟨b', hc, ?_, hb, ha, ?_, fun b0 ids => cancelOrders_eq_foldlM ids b0⟩
  · intro o ho
    rw [hall] at ho
    simpa using (List.mem_filter.1 ho).2
  · unfold Size
    rw [hw'.wfm.core.indexOK.length_eq, hw.wfm.core.indexOK.length_eq, hall]
    have := List.length_eq_length_filter_add (l := allOrders b)
      (fun o => decide (o.orderType = OrderType.GoodForDay))
    rw [this, Nat.add_comm]
    congr 2
    apply List.filter_congr
    intro x _
    simp

theorem goodForDay_sweep_witness :
    Reachable bookGfd ∧ pruneGoodForDayOrders bookGfd = some restingBook ∧
    ∃ b', pruneGoodForDayOrders bookGfd = some b' ∧
      (∀ o ∈ allOrders b', o.orderType ≠ OrderType.GoodForDay) ∧
      fifoOrders b'.bids =
        (fifoOrders bookGfd.bids).filter (fun o => decide (o.orderType ≠ OrderType.GoodForDay)) ∧
      fifoOrders b'.asks =
        (fifoOrders bookGfd.asks).filter (fun o => decide (o.orderType ≠ OrderType.GoodForDay)) ∧
      Size b' + ((allOrders bookGfd).filter
        (fun o => decide (o.orderType = OrderType.GoodForDay))).length = Size bookGfd ∧
      ∀ (b0 : Book) (ids : List OrderId), cancelOrders b0 ids = ids.foldlM cancelOrder b0 :=
  ⟨bookGfd_reachable, by decide, goodForDay_sweep bookGfd_reachable⟩

/-! ## The book mutex during `addOrder` -/

/-- C18 (refuted on the code). On the reachable book holding one ask (Sell GoodTillCancel id 1 at
100 for 3), `addOrder` of Buy FillAndKill id 2 at 100 for 5, entered with the mutex free, ends in
an attempt to lock the mutex it already holds: the remainder of id 2 is the front bid after the
matching loop, and `MatchOrders` cancels it through `cancelOrder`, which locks the mutex.  The
call does not return. -/
theorem addOrder_relocks_book_mutex :
    Reachable bookS7a ∧
    addOrderLocked Mutex.free bookS7a (Order.new OrderType.FillAndKill 2 Side.Buy 100 5)
      = Except.error Fault.relock ∧
    (∃ b1, matchLoop 2 (insertOrder bookS7a (Order.new OrderType.FillAndKill 2 Side.Buy 100 5)) []
        = some (b1, [{ bidTrade := { orderId := 2, price := 100, quantity := 3 }
                       askTrade := { orderId := 1, price := 100, quantity := 3 } }]) ∧
      b1.bids = [(100, [{ orderId := 2, side := Side.Buy, orderType := OrderType.FillAndKill,
                          price := 100, initialQuantity := 5, remainingQuantity := 2 }])] ∧
      cancelOrderLocked Mutex.held b1 2 = Except.error Fault.relock) ∧
    addOrder bookS7a (Order.new OrderType.FillAndKill 2 Side.Buy 100 5) = none :=
  ⟨bookS7a_reachable, rfl, ⟨_, rfl, rfl, rfl⟩, by decide⟩

/-! ## A Market order sweeps the opposite side -/

theorem promoteMarket_of_opp {b : Book} {o : Order} (ht : o.orderType = OrderType.Market)
    {worst : Price} {wf : List Order} (hg : (oppSide o.side b).getLast? = some (worst, wf)) :
    promoteMarket b o =
      some (some { o with price := worst, orderType := OrderType.GoodTillCancel }) := by
  have hne : oppSide o.side b ≠ [] := by
    intro hnil
    rw [hnil] at hg
    cases hg
  unfold promoteMarket
  cases hs : o.side with
  | Buy =>
    rw [hs] at hg hne
    simp only [oppSide] at hg hne
    rw [if_pos ⟨rfl, hne⟩, hg]
    simp [Order.toGoodTillCancel, ht, hs]
  | Sell =>
    rw [hs] at hg hne
    simp only [oppSide] at hg hne
    rw [if_neg (by simp), if_pos ⟨rfl, hne⟩, hg]
    simp [Order.toGoodTillCancel, ht, hs]

theorem addOrder_market {b : Book} {o o' : Order} (ht : o.orderType = OrderType.Market)
    (hl : lookupKey o.orderId b.orders = none) (hp : promoteMarket b o = some (some o')) :
    addOrder b o = MatchOrders (insertOrder b o') := by
  unfold addOrder
  simp [hl, ht, hp]

theorem last_key_worst {R : Price → Price → Prop} {ls : Levels}
    (hs : ls.Pairwise (fun x y => R x.1 y.1)) {x : Price × List Order}
    (hg : ls.getLast? = some x) : ∀ l ∈ ls, l = x ∨ R l.1 x.1 := by
  obtain ⟨ys, rfl⟩ := List.getLast?_eq_some_iff.1 hg
  intro l hl
  rcases List.mem_append.1 hl with hl | hl
  · right
    exact (List.pairwise_append.1 hs).2.2 l hl x (by simp)
  · left
    simpa using hl

theorem oppSide_worst {b : Book} (hw : WFcore b) (s : Side) {x : Price × List Order}
    (hg : (oppSide s b).getLast? = some x) : ∀ l ∈ oppSide s b, notWorse s l.1 x.1 := by
  intro l hl
  cases s with
  | Buy =>
    rcases last_key_worst (R := fun a c => a < c) hw.asksOK.sorted hg l hl with rfl | hlt
    · exact le_refl _
    · exact le_of_lt hlt
  | Sell =>
    rcases last_key_worst (R := fun a c => c < a) hw.bidsOK.sorted hg l hl with rfl | hlt
    · exact le_refl _
    · exact le_of_lt hlt

theorem not_apart_of_notWorse {s : Side} {p q : Price} (h : notWorse s p q) : ¬ apart s q p := by
  cases s with
  | Buy => exact not_lt.2 h
  | Sell => exact not_lt.2 h

theorem canMatch_of_notWorse {b : Book} {s : Side} {q : Price} (hne : oppSide s b ≠ [])
    (h : ∀ l ∈ oppSide s b, notWorse s l.1 q) : canMatch b s q = true := by
  cases s with
  | Buy =>
    simp only [oppSide] at hne h
    unfold canMatch
    cases ha : b.asks with
    | nil => exact absurd ha hne
    | cons l rest =>
      have := h l (by rw [ha]; simp)
      simpa [notWorse] using this
  | Sell =>
    simp only [oppSide] at hne h
    unfold canMatch
    cases hb : b.bids with
    | nil => exact absurd hb hne
    | cons l rest =>
      have := h l (by rw [hb]; simp)
      simpa [notWorse] using this

theorem sum_taker_fullTrade (s : Side) (t0 : Order) (l : List Order) :
    ((l.map (fullTrade s t0)).map (fun t => (takerInfo s t).quantity)).sum = restingQty l := by
  induction l with
  | nil => rfl
  | cons a l ih =>
    simp only [List.map_cons, List.sum_cons, ih, fullTrade, takerInfo_takerTrade, restingQty]

theorem sweep_taker_ids {s : Side} {t0 : Order} {O : Levels} {M0 : List Order} {b : Book}
    {ts : Trades} (h : Sweep s t0 O M0 b ts) :
    ∀ t ∈ ts, (takerInfo s t).orderId = t0.orderId := by
  intro t ht
  rcases h.2 with ⟨k, _, _, _, hts⟩ | ⟨k, m, _, _, _, _, _, hts⟩
  · rw [hts] at ht
    obtain ⟨a, _, rfl⟩ := List.mem_map.1 ht
    simp only [fullTrade, takerInfo_takerTrade]
  · rw [hts] at ht
    rcases List.mem_append.1 ht with ht | ht
    · obtain ⟨a, _, rfl⟩ := List.mem_map.1 ht
      simp only [fullTrade, takerInfo_takerTrade]
    · simp only [List.mem_singleton] at ht
      subst ht
      simp only [takerInfo_takerTrade]

/-- C19. For every reachable book state whose opposite side is not empty and every Market order
with an id that is not in the index (of any quantity, so also every quantity above 0), `addOrder`
returns; every trade names the order as the incoming one; and either the order does not rest and
the quantities of its trades sum to its quantity, or the opposite side is empty afterwards and the
order rests as GoodTillCancel at the former worst opposite price (the last key of the opposite
side: the highest ask for a buy, the lowest bid for a sell) with its quantity less the total
quantity that was resting on the opposite side as remaining quantity. -/
theorem market_sweeps_opposite {b : Book} (h : Reachable b) (orderId : OrderId) (side : Side)
    (price : Price) (quantity : Quantity) (hid : orderId ∉ b.orders.map Prod.fst)
    (hopp : oppSide side b ≠ []) :
    ∃ b' ts worst wf, (oppSide side b).getLast? = some (worst, wf) ∧
      (∀ l ∈ oppSide side b, notWorse side l.1 worst) ∧
      addOrder b (Order.new OrderType.Market orderId side price quantity) = some (b', ts) ∧
      (∀ t ∈ ts, (takerInfo side t).orderId = orderId) ∧
      ((orderId ∉ b'.orders.map Prod.fst ∧ orderId ∉ (allOrders b').map Order.orderId ∧
          (ts.map (fun t => (takerInfo side t).quantity)).sum = quantity) ∨
       (oppSide side b' = [] ∧
         lookupKey orderId b'.orders =
           some (promotedOrder orderId side worst quantity
             (restingQty (fifoOrders (oppSide side b)))) ∧
         promotedOrder orderId side worst quantity (restingQty (fifoOrders (oppSide side b)))
           ∈ fifoOrders (ownSide side b'))) := by
  have hw := h.wf
  have hl : lookupKey orderId b.orders = none := lookupKey_none_iff_not_mem.2 hid
  cases hg : (oppSide side b).getLast? with
  | none => exact absurd (List.getLast?_eq_none_iff.1 hg) hopp
  | some x =>
    obtain ⟨worst, wf⟩ := x
    have hworst := oppSide_worst hw.wfm.core side hg
    have hprom := promoteMarket_of_opp
      (o := Order.new OrderType.Market orderId side price quantity) rfl hg
    have hadd := addOrder_market
      (o := Order.new OrderType.Market orderId side price quantity) rfl hl hprom
    simp only [Order.new] at hadd
    have hcm : canMatch b side worst = true := canMatch_of_notWorse hopp hworst
    have hwi : WFm (insertOrder b
        ⟨orderId, side, OrderType.GoodTillCancel, worst, quantity, quantity⟩) :=
      insertOrder_WFm hw.wfm hl
    have hnfi : NoFaK (insertOrder b
        ⟨orderId, side, OrderType.GoodTillCancel, worst, quantity, quantity⟩) :=
      noFaK_insertOrder h.noFaK (by simp)
    obtain ⟨b', ts, hm⟩ := MatchOrders_returns hwi hnfi
    have hw' := MatchOrders_WF hwi hm
    have hloop := (MatchOrders_some hm).1
    have hset := (matchLoop_WFm hwi hloop).2
    have hsw := insert_match_sweep
      (o := ⟨orderId, side, OrderType.GoodTillCancel, worst, quantity, quantity⟩)
      hw hl hcm hloop
    simp only at hsw
    refine ⟨b', ts, worst, wf, rfl, hworst, ?_, sweep_taker_ids hsw, ?_⟩
    · simp only [Order.new]
      rw [hadd]
      exact hm
    · have hcross : ∀ m ∈ fifoOrders (oppSide side b), ¬ apart side worst m.price := by
        intro m hmem
        obtain ⟨l, hl1, hl2⟩ := mem_fifoOrders.1 hmem
        rw [(oppSide_level hw.wfm side l hl1).2 m hl2]
        exact not_apart_of_notWorse (hworst l hl1)
      rcases hsw.2 with halive | hdone
      · right
        obtain ⟨_, hnil⟩ := sweep_alive_exhausts hw'.wfm hset halive hcross
        obtain ⟨k, _, hown, hfifo, _⟩ := halive
        rw [hnil] at hfifo
        have hk : (fifoOrders (oppSide side b)).take k = fifoOrders (oppSide side b) := by
          have := List.take_append_drop k (fifoOrders (oppSide side b))
          rw [← hfifo] at this
          simpa [fifoOrders] using this
        rw [hk] at hown
        simp only [afterFill] at hown
        have hmem : promotedOrder orderId side worst quantity
            (restingQty (fifoOrders (oppSide side b))) ∈ fifoOrders (ownSide side b') := by
          rw [hown]
          simp [fifoOrders, promotedOrder]
        refine ⟨hnil, ?_, hmem⟩
        exact hw'.wfm.core.indexOK.lookup_of_mem
          ((mem_allOrders_sides side b' _).2 (Or.inl hmem))
      · left
        have hnone := @sweep_done_gone side
          ⟨orderId, side, OrderType.GoodTillCancel, worst, quantity, quantity⟩ b b' ts
          hw hl hw'.wfm hdone
        refine ⟨lookupKey_none_iff_not_mem.1 hnone,
          hw'.wfm.core.indexOK.not_mem_of_lookup_none hnone, ?_⟩
        obtain ⟨k, m, _, hle, _, _, _, hts⟩ := hdone
        simp only at hle hts
        rw [hts, List.map_append, List.sum_append, sum_taker_fullTrade]
        simp only [List.map_cons, List.map_nil, List.sum_cons, List.sum_nil,
          takerInfo_takerTrade]
        dsimp only [Quantity] at *
        omega

theorem market_sweeps_opposite_witness :
    Reachable bookS7 ∧ 31 ∉ bookS7.orders.map Prod.fst ∧ oppSide Side.Buy bookS7 ≠ [] ∧
    ∃ b' ts worst wf, (oppSide Side.Buy bookS7).getLast? = some (worst, wf) ∧
      (∀ l ∈ oppSide Side.Buy bookS7, notWorse Side.Buy l.1 worst) ∧
      addOrder bookS7 (Order.new OrderType.Market 31 Side.Buy 0 20) = some (b', ts) ∧
      (∀ t ∈ ts, (takerInfo Side.Buy t).orderId = 31) ∧
      ((31 ∉ b'.orders.map Prod.fst ∧ 31 ∉ (allOrders b').map Order.orderId ∧
          (ts.map (fun t => (takerInfo Side.Buy t).quantity)).sum = 20) ∨
       (oppSide Side.Buy b' = [] ∧
         lookupKey 31 b'.orders =
           some (promotedOrder 31 Side.Buy worst 20
             (restingQty (fifoOrders (oppSide Side.Buy bookS7)))) ∧
         promotedOrder 31 Side.Buy worst 20 (restingQty (fifoOrders (oppSide Side.Buy bookS7)))
           ∈ fifoOrders (ownSide Side.Buy b'))) :=
  ⟨bookS7_reachable, by decide, by decide,
    market_sweeps_opposite bookS7_reachable 31 Side.Buy 0 20 (by decide) (by decide)⟩

/-! ## Termination of matching and the bound on the number of trades -/

/-- C9 (amended). From every reachable book whose only resting orders are asks of total quantity 3
at price 100 and of total quantity 10 at price 105, the add of a Buy Market order id 31 (an id not
in the index) for 4 returns; every trade names id 31 at the promoted price 105 and a maker at 100
or 105, with the makers at 100 first; the trades at 100 total 3 and the trades at 105 total 1;
and id 31 does not rest. -/
theorem market_promoted_S7_amended {b : Book} (h : Reachable b) (f1 f2 : List Order)
    (price : Price) (hb : b.bids = []) (ha : b.asks = [(100, f1), (105, f2)])
    (h1 : restingQty f1 = 3) (h2 : restingQty f2 = 10)
    (hid : 31 ∉ b.orders.map Prod.fst) :
    ∃ b' ts, addOrder b (Order.new OrderType.Market 31 Side.Buy price 4) = some (b', ts) ∧
      (∀ t ∈ ts, t.bidTrade.orderId = 31 ∧ t.bidTrade.price = 105 ∧
        t.bidTrade.quantity = t.askTrade.quantity ∧
        (t.askTrade.price = 100 ∨ t.askTrade.price = 105)) ∧
      (ts.map (fun t => t.askTrade.price)).Pairwise (fun p q => p ≤ q) ∧
      ((ts.filter (fun t => decide (t.askTrade.price = 100))).map
        (fun t => t.askTrade.quantity)).sum = 3 ∧
      ((ts.filter (fun t => decide (t.askTrade.price = 105))).map
        (fun t => t.askTrade.quantity)).sum = 1 ∧
      31 ∉ b'.orders.map Prod.fst ∧ 31 ∉ (allOrders b').map Order.orderId := by
  have hw := h.wf
  have hl : lookupKey 31 b.orders = none := lookupKey_none_iff_not_mem.2 hid
  obtain ⟨b', ts, hadd⟩ := addOrder_returns hw h.noFaK
    (o := Order.new OrderType.Market 31 Side.Buy price 4) (by simp [Order.new])
  have hw' := addOrder_WF hw hadd
  refine ⟨b', ts, hadd, ?_⟩
  -- the promoted order
  have hprom : promoteMarket b (Order.new OrderType.Market 31 Side.Buy price 4) =
      some (some (Order.new OrderType.GoodTillCancel 31 Side.Buy 105 4)) := by
    simp [promoteMarket, ha, Order.new, Order.toGoodTillCancel]
  have hadd' : MatchOrders (insertOrder b (Order.new OrderType.GoodTillCancel 31 Side.Buy 105 4))
      = some (b', ts) := by
    have := hadd
    unfold addOrder at this
    simp only [Order.new, hl, Option.isSome_none, Bool.false_eq_true, if_false, reduceCtorEq,
      false_and, if_true] at this
    have hprom' := hprom
    simp only [Order.new] at hprom'
    rw [hprom'] at this
    exact this
  obtain ⟨b1, b2, hloop, hc1, hc2⟩ := MatchOrders_trades hadd'
  have hcm : canMatch b Side.Buy 105 = true := by simp [canMatch, ha]
  have hsweep := insert_match_sweep (o := Order.new OrderType.GoodTillCancel 31 Side.Buy 105 4)
    hw hl hcm hloop
  have hwm1 := (matchLoop_WFm (insertOrder_WFm hw.wfm
    (o := Order.new OrderType.GoodTillCancel 31 Side.Buy 105 4) hl) hloop)
  have hM0 : fifoOrders (oppSide Side.Buy b) = f1 ++ f2 := by simp [oppSide, ha]
  have hO : ownSide Side.Buy b = [] := by simp [ownSide, hb]
  have hp1 : ∀ o ∈ f1, o.price = 100 := fun o ho =>
    (hw.wfm.core.asksOK.level (100, f1) (by rw [ha]; simp) o ho).2
  have hp2 : ∀ o ∈ f2, o.price = 105 := fun o ho =>
    (hw.wfm.core.asksOK.level (105, f2) (by rw [ha]; simp) o ho).2
  have hpM : ∀ m ∈ f1 ++ f2, m.price = 100 ∨ m.price = 105 := by
    intro m hm
    rcases List.mem_append.1 hm with hm | hm
    · left; exact hp1 m hm
    · right; exact hp2 m hm
  simp only [Order.new] at hsweep
  rw [hM0, hO] at hsweep
  have hsorted := makers_sorted hw.wfm.core Side.Buy
  rw [hM0] at hsorted
  rcases hsweep.2 with halive | ⟨k, m, hd, hle, hr, hown, hfifo, hts⟩
  · exfalso
    have := (sweep_alive_exhausts hwm1.1 hwm1.2 halive (by
      intro m hm hap
      simp only [apart] at hap
      rcases hpM m hm with hp | hp
      · rw [hp] at hap; exact absurd hap (by decide)
      · rw [hp] at hap; exact absurd hap (by decide))).1
    rw [restingQty_append, h1, h2] at this
    simp at this
  · obtain ⟨hdrop, htake⟩ := drop_eq_cons hd
    simp only at hle hr hts
    -- the maker that fills the taker sits at price 105 and all of level 100 is consumed
    have hk : f1.length ≤ k := by
      by_contra hlt
      have hlt' : k < f1.length := not_le.1 hlt
      have e1 : (f1 ++ f2).take (k + 1) = f1.take (k + 1) := by
        rw [List.take_append_of_le_length (by omega)]
      have e0 : (f1 ++ f2).take k = f1.take k := by
        rw [List.take_append_of_le_length (by omega)]
      have hsum : restingQty (f1.take k) + m.remainingQuantity ≤ 3 := by
        have := restingQty_take_le f1 (k + 1)
        rw [← e1, htake, restingQty_append, restingQty_singleton, e0, h1] at this
        exact this
      rw [e0] at hr hle
      dsimp only [Quantity] at *
      omega
    have e0 : (f1 ++ f2).take k = f1 ++ f2.take (k - f1.length) := by
      rw [List.take_append_eq_append_take, List.take_of_length_le hk]
    have hm2 : m ∈ f2 := by
      have : m ∈ (f1 ++ f2).drop k := by rw [hd]; simp
      rw [List.drop_append_eq_append_drop, List.drop_of_length_le hk, List.nil_append] at this
      exact List.mem_of_mem_drop this
    have hmp : m.price = 105 := hp2 m hm2
    have hts' : ts = (f1 ++ f2.take (k - f1.length)).map
        (fullTrade Side.Buy ⟨31, Side.Buy, OrderType.GoodTillCancel, 105, 4, 4⟩) ++
        [takerTrade Side.Buy ⟨31, Side.Buy, OrderType.GoodTillCancel, 105, 4, 4⟩ m
          (4 - restingQty (f1 ++ f2.take (k - f1.length)))] := by
      rw [hts, e0]
    have hF : restingQty (f1 ++ f2.take (k - f1.length)) =
        3 + restingQty (f2.take (k - f1.length)) := by
      rw [restingQty_append, h1]
    rw [e0, hF] at hle
    have hp2' : ∀ o ∈ f2.take (k - f1.length), o.price = 105 :=
      fun o ho => hp2 o (List.mem_of_mem_take ho)
    refine ⟨?_, ?_, ?_, ?_, ?_⟩
    · intro t ht
      rw [hts'] at ht
      rcases List.mem_append.1 ht with ht | ht
      · obtain ⟨a, ha', rfl⟩ := List.mem_map.1 ht
        refine ⟨rfl, rfl, rfl, ?_⟩
        apply hpM a
        rcases List.mem_append.1 ha' with ha' | ha'
        · exact List.mem_append_left _ ha'
        · exact List.mem_append_right _ (List.mem_of_mem_take ha')
      · simp only [List.mem_singleton] at ht
        subst ht
        exact ⟨rfl, rfl, rfl, Or.inr hmp⟩
    · have hpre : ts.map (fun t => t.askTrade.price) =
          ((f1 ++ f2).take (k + 1)).map Order.price := by
        rw [hts, htake]
        simp [fullTrade, takerTrade, Function.comp_def]
      rw [hpre, List.pairwise_map]
      exact (hsorted.sublist (List.take_sublist _ _)).imp (fun hab => hab)
    · rw [hts', List.filter_append, List.map_append, List.sum_append, sum_filter_fullTrade,
        List.filter_append, filter_price_eq_self hp1,
        filter_price_eq_nil hp2' (by decide), List.append_nil, h1]
      simp [takerTrade, hmp]
    · rw [hts', List.filter_append, List.map_append, List.sum_append, sum_filter_fullTrade,
        List.filter_append, filter_price_eq_nil hp1 (by decide),
        filter_price_eq_self hp2', List.nil_append, hF]
      simp only [takerTrade, hmp, decide_True, List.filter_cons_of_pos, List.filter_nil,
        List.map_cons, List.map_nil, List.sum_cons, List.sum_nil]
      dsimp only [Quantity] at *
      omega
    · -- id 31 is out of the index after the loop, and the two cancels keep it out
      have hbn : b1.bids = [] := by
        apply bids_nil_of_done hwm1.1 105
        simpa [ownSide] using hown
      have hnot : (31 : OrderId) ∉ (f1 ++ f2).map Order.orderId := by
        have := hw.wfm.core.indexOK.not_mem_of_lookup_none hl
        unfold allOrders at this
        rw [hb] at this
        simpa [ha] using this
      have hnone1 : lookupKey 31 b1.orders = none := by
        rw [lookupKey_eq_none]
        intro e he heq
        obtain ⟨hk1, hall⟩ := hwm1.1.core.indexOK.sound e he
        unfold allOrders at hall
        rw [hbn] at hall
        simp only [fifoOrders_nil, List.nil_append] at hall
        simp only [oppSide] at hfifo
        rw [hfifo] at hall
        apply hnot
        have hidm : ∀ x ∈ (f1 ++ f2).drop k, x.orderId ∈ (f1 ++ f2).map Order.orderId :=
          fun x hx => List.mem_map_of_mem _ (List.mem_of_mem_drop hx)
        unfold stepFifo at hall
        split at hall
        · have := hidm e.2 (by rw [hd]; exact List.mem_cons_of_mem _ hall)
          rw [← hk1, heq] at this; exact this
        · rcases List.mem_cons.1 hall with hx | hx
          · have := hidm m (by rw [hd]; simp)
            have e2 : e.2.orderId = m.orderId := by rw [hx]; rfl
            rw [← e2, ← hk1, heq] at this; exact this
          · have := hidm e.2 (by rw [hd]; exact List.mem_cons_of_mem _ hx)
            rw [← hk1, heq] at this; exact this
      obtain ⟨e2, _⟩ := cancelFront_some hc1
      obtain ⟨e3, _⟩ := cancelFront_some hc2
      rw [e3, e2]
      exact ⟨lookupKey_none_iff_not_mem.1 hnone1,
        hwm1.1.core.indexOK.not_mem_of_lookup_none hnone1⟩

theorem market_promoted_S7_amended_witness :
    Reachable bookS7 ∧ bookS7.bids = [] ∧ bookS7.asks = [(100, [s7Ask1]), (105, [s7Ask2])] ∧
    restingQty [s7Ask1] = 3 ∧ restingQty [s7Ask2] = 10 ∧ 31 ∉ bookS7.orders.map Prod.fst ∧
    ∃ b' ts, addOrder bookS7 (Order.new OrderType.Market 31 Side.Buy 0 4) = some (b', ts) ∧
      (∀ t ∈ ts, t.bidTrade.orderId = 31 ∧ t.bidTrade.price = 105 ∧
        t.bidTrade.quantity = t.askTrade.quantity ∧
        (t.askTrade.price = 100 ∨ t.askTrade.price = 105)) ∧
      (ts.map (fun t => t.askTrade.price)).Pairwise (fun p q => p ≤ q) ∧
      ((ts.filter (fun t => decide (t.askTrade.price = 100))).map
        (fun t => t.askTrade.quantity)).sum = 3 ∧
      ((ts.filter (fun t => decide (t.askTrade.price = 105))).map
        (fun t => t.askTrade.quantity)).sum = 1 ∧
      31 ∉ b'.orders.map Prod.fst ∧ 31 ∉ (allOrders b').map Order.orderId :=
  ⟨bookS7_reachable, rfl, rfl, by decide, by decide, by decide,
    market_promoted_S7_amended bookS7_reachable [s7Ask1] [s7Ask2] 0 rfl rfl (by decide)
      (by decide) (by decide)⟩

end Orderbook
